import Mathlib

/-!
Verification of the scheduling engine and the dependency-arrow router of the
gantt_chart_generator repository.

The scheduling engine is embedded from
`src/src/gantt_chart_generator/scheduling.py` and
`src/src/gantt_chart_generator/project_models.py`; the router from
`src/render_gantt.py`.  Calendar dates are embedded as integer day counts
(days since 1970-01-01, proleptic Gregorian, exactly the ordering and
day-arithmetic of Python `datetime.date`); chart coordinates are embedded as
rationals (the Python floats involved in every concrete evaluation below are
exact or have slack many orders of magnitude above the rounding error, so the
rational run coincides with the float run).  Python dicts keyed by strings are
embedded as association lists or as functions `String → Option _`; exceptions
become an explicit error sum type that also records which of the two Python
exception classes (`ProjectValidationError` / `SchedulingError`) each raise
site uses.
-/

namespace Gantt

/-! ### Calendar dates

`civilToDays y m d` is the number of days from 1970-01-01 to the Gregorian
date y-m-d (Howard Hinnant's `days_from_civil`).  It is strictly monotone in
the calendar order, and adding one day to a date adds one to its number, so
it mirrors `datetime.date` comparison and `timedelta(days=k)` arithmetic. -/

def civilToDays (y m d : Int) : Int :=
  let y2 := if m ≤ 2 then y - 1 else y
  let era := y2.fdiv 400
  let yoe := y2 - era * 400
  let mp := if m > 2 then m - 3 else m + 9
  let doy := (153 * mp + 2).fdiv 5 + d - 1
  let doe := yoe * 365 + yoe.fdiv 4 - yoe.fdiv 100 + doy
  era * 146097 + doe - 719468

/-! ### Data model (`project_models.py`) -/

/-- `WorkPackage` dataclass: lowest-level schedulable element.
`meta` is display-only and omitted. -/
structure WP where
  wbs : String
  name : String
  durationDays : Int
  startDate : Option Int := none
  dependsOn : List String := []
deriving DecidableEq, Repr

/-- `WorkPackage.finish_date`: inclusive finish derived from start and
duration; `None` until the start is resolved. -/
def WP.finishDate (w : WP) : Option Int :=
  w.startDate.map (fun s => s + w.durationDays - 1)

/-- The `WBSItem` union: `Task | WorkPackage | Milestone`.  A `Task` owns an
ordered list of child items. -/
inductive WBSItem where
  | workPackage (wp : WP)
  | milestone (wbs name : String) (deadlineDate : Int)
  | task (wbs name : String) (items : List WBSItem)

/-- `Phase` dataclass: top-level lifecycle phase grouping WBS items. -/
structure Phase where
  wbs : String
  name : String
  items : List WBSItem

/-- `Project` dataclass: root container with ordered phases. -/
structure Project where
  name : String
  phases : List Phase

def WBSItem.wbs : WBSItem → String
  | .workPackage wp => wp.wbs
  | .milestone w _ _ => w
  | .task w _ _ => w

/-- `type(node).__name__` for a WBS item. -/
def WBSItem.kindName : WBSItem → String
  | .workPackage _ => "WorkPackage"
  | .milestone _ _ _ => "Milestone"
  | .task _ _ _ => "Task"

/-! Span boundaries (`span_start` / `span_finish` properties).  For a task the
candidates list keeps, in child order, the resolved span boundaries of the
children (the Python list comprehension `[c.span_start for c in items if
c.span_start is not None]`), and the span is its minimum (resp. maximum),
`None` when there is no candidate. -/

mutual

def WBSItem.spanStart : WBSItem → Option Int
  | .workPackage wp => wp.startDate
  | .milestone _ _ dl => some dl
  | .task _ _ items => (spanStartCandidates items).min?

def spanStartCandidates : List WBSItem → List Int
  | [] => []
  | i :: rest =>
    match WBSItem.spanStart i with
    | some v => v :: spanStartCandidates rest
    | none => spanStartCandidates rest

end

mutual

def WBSItem.spanFinish : WBSItem → Option Int
  | .workPackage wp => wp.finishDate
  | .milestone _ _ dl => some dl
  | .task _ _ items => (spanFinishCandidates items).max?

def spanFinishCandidates : List WBSItem → List Int
  | [] => []
  | i :: rest =>
    match WBSItem.spanFinish i with
    | some v => v :: spanFinishCandidates rest
    | none => spanFinishCandidates rest

end

def Phase.spanStart (ph : Phase) : Option Int := (spanStartCandidates ph.items).min?

def Phase.spanFinish (ph : Phase) : Option Int := (spanFinishCandidates ph.items).max?

/-! ### Tree walks (`_walk_items`, `_walk_work_packages`) -/

/-! `_walk_items`: yield each item, recursing into task children (pre-order). -/

mutual

def walkItems : List WBSItem → List WBSItem
  | [] => []
  | i :: rest => i :: (walkSub i ++ walkItems rest)

def walkSub : WBSItem → List WBSItem
  | .task _ _ sub => walkItems sub
  | _ => []

end

/-- `_walk_work_packages` on a project: walk the concatenated phase items and
keep the work packages. -/
def walkWorkPackages (p : Project) : List WP :=
  (walkItems (p.phases.flatMap (fun ph => ph.items))).filterMap fun i =>
    match i with
    | .workPackage wp => some wp
    | _ => none

/-! ### Errors

Each constructor corresponds to one `raise` site in `scheduling.py` and
carries the data interpolated into that site's message.  `errorClass` records
which Python exception class the site instantiates. -/

inductive GErr where
  | duplicateWbs (wbs firstKind againKind : String)
  | wbsHierarchy (child required : String)
  | unknownDependency (wp dep : String)
  | nonWorkPackageDependency (wp dep : String)
  | dependencyCycle (path : List String)
  | toposortCycle
  | nonPositiveDuration (wbs : String) (value : Int)
  | missingPredecessorStart (wp dep : String)
  | startBeforePredecessorFinish (wp : String) (start : Int) (dep : String) (fin : Int)
deriving DecidableEq, Repr

inductive ErrClass where
  | validation
  | scheduling
deriving DecidableEq, Repr

/-- The exception class of each raise site in `scheduling.py`.  Note the
non-positive-duration raise at the top of `_schedule_work_packages` uses
`ProjectValidationError`, and only the two predecessor-related raises use
`SchedulingError`. -/
def GErr.errorClass : GErr → ErrClass
  | .missingPredecessorStart _ _ => .scheduling
  | .startBeforePredecessorFinish _ _ _ _ => .scheduling
  | _ => .validation

/-! ### Association-list dictionaries -/

/-- Lookup in an association list (Python `dict.get`): first binding wins; in
all pipeline uses keys are unique before insertion. -/
def alget (m : List (String × α)) (k : String) : Option α :=
  (m.find? (fun kv => kv.1 == k)).map (fun kv => kv.2)

/-- Decidable equality of `Except` results, so concrete runs evaluate. -/
instance exceptDecEq {e a : Type} [DecidableEq e] [DecidableEq a] :
    DecidableEq (Except e a) := fun x y =>
  match x, y with
  | .ok u, .ok v =>
    if h : u = v then isTrue (by rw [h]) else isFalse (fun hh => h (by injection hh))
  | .error u, .error v =>
    if h : u = v then isTrue (by rw [h]) else isFalse (fun hh => h (by injection hh))
  | .ok _, .error _ => isFalse (fun hh => by cases hh)
  | .error _, .ok _ => isFalse (fun hh => by cases hh)

/-- Pointwise update of a map-as-function. -/
def fupd (f : String → α) (k : String) (v : α) : String → α :=
  fun x => if x == k then v else f x

/-! ### `_validate_unique_wbs` -/

/-- A value of the lookup dict built by `_validate_unique_wbs`: a phase or a
WBS item. -/
inductive NodeRef where
  | phase (ph : Phase)
  | item (i : WBSItem)

def NodeRef.kindName : NodeRef → String
  | .phase _ => "Phase"
  | .item i => i.kindName

def NodeRef.isWorkPackage : NodeRef → Bool
  | .item (.workPackage _) => true
  | _ => false

/-- `register`: fail on a key already present, else append the binding. -/
def registerWbs (acc : List (String × NodeRef)) (w : String) (node : NodeRef) :
    Except GErr (List (String × NodeRef)) :=
  match alget acc w with
  | some existing => .error (.duplicateWbs w existing.kindName node.kindName)
  | none => .ok (acc ++ [(w, node)])

def registerItems (acc : List (String × NodeRef)) :
    List WBSItem → Except GErr (List (String × NodeRef))
  | [] => .ok acc
  | i :: rest => do
    let acc' ← registerWbs acc i.wbs (.item i)
    registerItems acc' rest

def registerPhases (acc : List (String × NodeRef)) :
    List Phase → Except GErr (List (String × NodeRef))
  | [] => .ok acc
  | ph :: rest => do
    let acc1 ← registerWbs acc ph.wbs (.phase ph)
    let acc2 ← registerItems acc1 (walkItems ph.items)
    registerPhases acc2 rest

/-- `_validate_unique_wbs`: register every phase and, per phase, every walked
item; on the first duplicate fail naming the id and both node kinds. -/
def validateUniqueWbs (p : Project) : Except GErr (List (String × NodeRef)) :=
  registerPhases [] p.phases

/-! ### `_validate_wbs_hierarchy` -/

def listIsPrefix : List Char → List Char → Bool
  | [], _ => true
  | _ :: _, [] => false
  | c :: cs, d :: ds => c == d && listIsPrefix cs ds

/-- `child.startswith(parent + ".")`. -/
def startsWithDot (parent child : String) : Bool :=
  listIsPrefix (parent ++ ".").toList child.toList

/-- `assert_child`: the child's wbs must start with the parent's wbs plus a
dot. -/
def assertChild (parent child : String) : Except GErr Unit :=
  if startsWithDot parent child then .ok () else .error (.wbsHierarchy child (parent ++ "."))

mutual

def visitHierarchy (parentWbs : String) : List WBSItem → Except GErr Unit
  | [] => .ok ()
  | i :: rest => do
    assertChild parentWbs i.wbs
    visitHierarchyItem i
    visitHierarchy parentWbs rest

def visitHierarchyItem : WBSItem → Except GErr Unit
  | .task w _ sub => visitHierarchy w sub
  | _ => .ok ()

end

def hierarchyPhases : List Phase → Except GErr Unit
  | [] => .ok ()
  | ph :: rest => do
    visitHierarchy ph.wbs ph.items
    hierarchyPhases rest

/-- `_validate_wbs_hierarchy`: in every phase, recursively require each item's
wbs to extend its parent's wbs by a dot. -/
def validateWbsHierarchy (p : Project) : Except GErr Unit :=
  hierarchyPhases p.phases

/-! ### `_validate_dependencies_exist` -/

def checkDeps (lookup : List (String × NodeRef)) (w : String) :
    List String → Except GErr Unit
  | [] => .ok ()
  | d :: ds =>
    match alget lookup d with
    | none => .error (.unknownDependency w d)
    | some ref =>
      if ref.isWorkPackage then checkDeps lookup w ds
      else .error (.nonWorkPackageDependency w d)

def checkAllDeps (lookup : List (String × NodeRef)) : List WP → Except GErr Unit
  | [] => .ok ()
  | wp :: rest => do
    checkDeps lookup wp.wbs wp.dependsOn
    checkAllDeps lookup rest

/-- `_validate_dependencies_exist`: every dependency id of every work package
must resolve, through the registered lookup, to a `WorkPackage`. -/
def validateDependenciesExist (p : Project) (lookup : List (String × NodeRef)) :
    Except GErr Unit :=
  checkAllDeps lookup (walkWorkPackages p)

/-! ### `_find_cycle` (three-coloring DFS) -/

inductive Color where
  | visiting
  | done
deriving DecidableEq, Repr

/-- The mutable state of `_find_cycle`: the color dict, the active stack, and
the position dict mapping each stacked node to its index. -/
structure DfsSt where
  color : String → Option Color
  stack : List String
  pos : String → Option Nat

/-- Adjacency lookup `dependencies.get(node, [])`. -/
def depsOf (dl : List (String × List String)) (w : String) : List String :=
  (alget dl w).getD []

/-- The inner `for dep_wbs in dependencies.get(node, [])` loop of `dfs`.  The
recursive call into an unvisited dependency is passed in as `visit`. -/
def dfsDeps (visit : String → DfsSt → Option (List String) × DfsSt)
    (dl : List (String × List String)) :
    List String → DfsSt → Option (List String) × DfsSt
  | [], s => (none, s)
  | d :: ds, s =>
    match s.color d with
    | some .visiting => (some (s.stack.drop ((s.pos d).getD 0) ++ [d]), s)
    | some .done => dfsDeps visit dl ds s
    | none =>
      match visit d s with
      | (some c, s') => (some c, s')
      | (none, s') => dfsDeps visit dl ds s'

/-- `dfs(node)`: mark the node visiting, record its stack position, push it,
process its dependencies, then pop and mark it done.  Fuel bounds the
recursion depth; `findCycle` supplies fuel exceeding the number of nodes the
search can ever descend through, so the `0` case is unreachable there. -/
def dfsVisit (dl : List (String × List String)) :
    Nat → String → DfsSt → Option (List String) × DfsSt
  | 0, _, s => (none, s)
  | fuel + 1, node, s =>
    let s1 : DfsSt :=
      { color := fupd s.color node (some .visiting)
        pos := fupd s.pos node (some s.stack.length)
        stack := s.stack ++ [node] }
    match dfsDeps (dfsVisit dl fuel) dl (depsOf dl node) s1 with
    | (some c, s') => (some c, s')
    | (none, s') =>
      (none,
        { color := fupd s'.color node (some .done)
          pos := fupd s'.pos node none
          stack := s'.stack.dropLast })

def findCycleGo (dl : List (String × List String)) (fuel : Nat) :
    List String → DfsSt → Option (List String)
  | [], _ => none
  | n :: rest, s =>
    match s.color n with
    | none =>
      match dfsVisit dl fuel n s with
      | (some c, _) => some c
      | (none, s') => findCycleGo dl fuel rest s'
    | some _ => findCycleGo dl fuel rest s

/-- Depth budget that always suffices: more than every node the DFS can touch
(the seeds and every dependency-list entry). -/
def dfsFuel (order : List String) (dl : List (String × List String)) : Nat :=
  order.length + (dl.map (fun kv => kv.2.length)).sum + 1

/-- `_find_cycle(order, dependencies)`. -/
def findCycle (order : List String) (dl : List (String × List String)) :
    Option (List String) :=
  findCycleGo dl (dfsFuel order dl) order ⟨fun _ => none, [], fun _ => none⟩

/-- `_assert_no_cycles`: adjacency restricted to the work packages, in input
order. -/
def depListOf (wps : List WP) : List (String × List String) :=
  wps.map (fun wp => (wp.wbs, wp.dependsOn))

def assertNoCycles (wps : List WP) : Except GErr Unit :=
  match findCycle (wps.map (fun wp => wp.wbs)) (depListOf wps) with
  | some c => .error (.dependencyCycle c)
  | none => .ok ()

/-! ### `_toposort` (Kahn's algorithm) -/

/-- `dependents` adjacency: for each occurrence of `x` in some work package's
dependency list, one copy of that work package's wbs, in tree order (the order
the Python loop appends them). -/
def dependentsOf (wps : List WP) (x : String) : List String :=
  wps.flatMap (fun wp => (wp.dependsOn.filter (fun d => d == x)).map (fun _ => wp.wbs))

/-- Initial indegree: the length of the package's dependency list. -/
def indeg0 (wps : List WP) : String → Int :=
  fun x => (((wps.find? (fun wp => wp.wbs == x)).map (fun wp => wp.dependsOn.length)).getD 0 : Int)

/-- The `for child in dependents.get(current, [])` body: decrement the child's
indegree and enqueue it when the decrement reaches zero. -/
def kahnChildren (indeg : String → Int) (queue : List String) :
    List String → (String → Int) × List String
  | [] => (indeg, queue)
  | c :: cs =>
    let indeg' := fupd indeg c (indeg c - 1)
    let queue' := if indeg' c == 0 then queue ++ [c] else queue
    kahnChildren indeg' queue' cs

/-- The `while queue` loop.  Fuel bounds the number of pops; `toposort`
supplies fuel exceeding the seeds plus every possible enqueue, so exhaustion
is unreachable there and the current result is returned as-is. -/
def kahnLoop (dependents : String → List String) :
    Nat → List String → (String → Int) → List String → List String
  | 0, _, _, result => result
  | fuel + 1, queue, indeg, result =>
    match queue with
    | [] => result
    | current :: rest =>
      let (indeg', q') := kahnChildren indeg rest (dependents current)
      kahnLoop dependents fuel q' indeg' (result ++ [current])

def kahnFuel (wps : List WP) : Nat :=
  wps.length + (wps.map (fun wp => wp.dependsOn.length)).sum + 1

/-- `_toposort`: Kahn's algorithm seeded in input order; if the produced
order's length differs from the package count raise
`ProjectValidationError("Cycle detected during toposort")`, else map the wbs
order back to packages. -/
def toposort (wps : List WP) : Except GErr (List WP) :=
  let seeds := (wps.filter (fun wp => indeg0 wps wp.wbs == 0)).map (fun wp => wp.wbs)
  let result := kahnLoop (dependentsOf wps) (kahnFuel wps) seeds (indeg0 wps) []
  if result.length ≠ wps.length then .error .toposortCycle
  else .ok (result.filterMap (fun w => wps.find? (fun wp => wp.wbs == w)))

/-! ### `_schedule_work_packages` -/

/-- Static per-wbs lookup (`{wp.wbs: wp}`). -/
def wpLookup (wps : List WP) (w : String) : Option WP :=
  wps.find? (fun wp => wp.wbs == w)

/-- The evolving start dates (the mutable `start_date` attributes), read and
updated by wbs. -/
def initStarts (wps : List WP) : String → Option Int :=
  fun w => (wpLookup wps w).bind (fun wp => wp.startDate)

/-- `predecessor.finish_date` read against the current start dates. -/
def finishNow (lookup : String → Option WP) (starts : String → Option Int)
    (w : String) : Option Int :=
  (starts w).map (fun s => s + ((lookup w).map (fun wp => wp.durationDays)).getD 0 - 1)

/-- Collect `(dep, finish)` pairs, failing on the first dependency whose
finish is unresolved. -/
def collectDepFinishes (lookup : String → Option WP) (starts : String → Option Int)
    (w : String) : List String → Except GErr (List (String × Int))
  | [] => .ok []
  | d :: ds =>
    match finishNow lookup starts d with
    | none => .error (.missingPredecessorStart w d)
    | some f => do
      let rest ← collectDepFinishes lookup starts w ds
      .ok ((d, f) :: rest)

/-- Python `max(pairs, key=second)`: the first pair whose finish is maximal
(the running best is replaced only on a strictly greater finish). -/
def maxByFinish : (String × Int) → List (String × Int) → (String × Int)
  | best, [] => best
  | best, p :: ps => maxByFinish (if p.2 > best.2 then p else best) ps

/-- The body of the `for wp in order` loop of `_schedule_work_packages`. -/
def scheduleStep (lookup : String → Option WP) (starts : String → Option Int)
    (wp : WP) : Except GErr (String → Option Int) :=
  if wp.durationDays ≤ 0 then
    .error (.nonPositiveDuration wp.wbs wp.durationDays)
  else if wp.dependsOn.isEmpty then .ok starts
  else do
    let fins ← collectDepFinishes lookup starts wp.wbs wp.dependsOn
    match fins with
    | [] => .ok starts
    | p :: ps =>
      let best := maxByFinish p ps
      match starts wp.wbs with
      | none => .ok (fupd starts wp.wbs (some best.2))
      | some st =>
        if st < best.2 then
          .error (.startBeforePredecessorFinish wp.wbs st best.1 best.2)
        else .ok starts

def scheduleWPs (lookup : String → Option WP) :
    List WP → (String → Option Int) → Except GErr (String → Option Int)
  | [], starts => .ok starts
  | wp :: rest, starts => do
    let starts' ← scheduleStep lookup starts wp
    scheduleWPs lookup rest starts'

/-! ### `schedule_project` -/

/-- The full pipeline, returning the final start-date map (the in-place
mutation of the work packages). -/
def scheduleProjectStarts (p : Project) : Except GErr (String → Option Int) := do
  let lookup ← validateUniqueWbs p
  validateWbsHierarchy p
  validateDependenciesExist p lookup
  let wps := walkWorkPackages p
  assertNoCycles wps
  let topo ← toposort wps
  scheduleWPs (wpLookup wps) topo (initStarts wps)

/-! Write the final start dates back into the tree (the state of the mutated
objects when `schedule_project` returns). -/

mutual

def applyStartsItem (st : String → Option Int) : WBSItem → WBSItem
  | .workPackage wp => .workPackage { wp with startDate := st wp.wbs }
  | .milestone w n dl => .milestone w n dl
  | .task w n items => .task w n (applyStartsItems st items)

def applyStartsItems (st : String → Option Int) : List WBSItem → List WBSItem
  | [] => []
  | i :: rest => applyStartsItem st i :: applyStartsItems st rest

end

def applyStarts (p : Project) (st : String → Option Int) : Project :=
  { p with phases := p.phases.map (fun ph => { ph with items := applyStartsItems st ph.items }) }

/-- `schedule_project(project)`: validate, schedule, and return the mutated
project. -/
def scheduleProject (p : Project) : Except GErr Project :=
  (scheduleProjectStarts p).map (applyStarts p)


/-! ### Hierarchy parent-child pairs

Every (parent wbs, child wbs) pair that `_validate_wbs_hierarchy` inspects,
in inspection order. -/

mutual

def hierPairs (parentWbs : String) : List WBSItem → List (String × String)
  | [] => []
  | i :: rest => (parentWbs, i.wbs) :: (hierPairsItem i ++ hierPairs parentWbs rest)

def hierPairsItem : WBSItem → List (String × String)
  | .task w _ sub => hierPairs w sub
  | _ => []

end

def projHierPairs (p : Project) : List (String × String) :=
  p.phases.flatMap (fun ph => hierPairs ph.wbs ph.items)

/-! ## Dependency-arrow router (`render_gantt.py`)

Chart coordinates are rationals.  Points are pairs, rectangles are
`(xmin, xmax, ymin, ymax)` quadruples, exactly the tuples of the source.  The
tuning constants are the module-level knobs of `render_gantt.py`. -/

abbrev Pt := ℚ × ℚ

abbrev Rect := ℚ × ℚ × ℚ × ℚ

def GRID_DX : ℚ := 35 / 100

def GRID_DY : ℚ := 25 / 100

def GRID_CLEARANCE : ℚ := 12 / 100

def ROUTE_X_PAD : ℚ := 35 / 100

def ROUTE_CLEARANCE : ℚ := 12 / 100

def DETOUR_STEP_X : ℚ := 1 / 2

def DETOUR_MAX_STEPS : Nat := 8

def DETOUR_MARGIN_X : ℚ := 1

/-- `inflate_rect`: grow a rectangle by `cx`, `cy` on all sides. -/
def inflateRect (r : Rect) (cx cy : ℚ) : Rect :=
  (r.1 - cx, r.2.1 + cx, r.2.2.1 - cy, r.2.2.2 + cy)

/-- `segment_intersects_rect`: an orthogonal segment touches or crosses the
rectangle; non-orthogonal segments count as intersecting. -/
def segmentIntersectsRect (s e : Pt) (r : Rect) : Bool :=
  let (x1, y1) := s
  let (x2, y2) := e
  let (xmin, xmax, ymin, ymax) := r
  if y1 == y2 then
    if ymin ≤ y1 ∧ y1 ≤ ymax then
      ¬ (max x1 x2 < xmin ∨ min x1 x2 > xmax)
    else false
  else if x1 == x2 then
    if xmin ≤ x1 ∧ x1 ≤ xmax then
      ¬ (max y1 y2 < ymin ∨ min y1 y2 > ymax)
    else false
  else true

/-- Consecutive point pairs of a polyline. -/
def polySegs : List Pt → List (Pt × Pt)
  | [] => []
  | [_] => []
  | p :: q :: rest => (p, q) :: polySegs (q :: rest)

/-- `polyline_intersects_rects`: some segment of the polyline intersects some
rectangle inflated by `cx`, `cy`. -/
def polylineIntersectsRects (poly : List Pt) (rects : List Rect) (cx cy : ℚ) : Bool :=
  (polySegs poly).any fun sg => rects.any fun r => segmentIntersectsRect sg.1 sg.2 (inflateRect r cx cy)

/-- `polyline_intersects_any_rect`: clearance on both axes. -/
def polylineIntersectsAnyRect (poly : List Pt) (rects : List Rect) (clearance : ℚ) : Bool :=
  polylineIntersectsRects poly rects clearance clearance

/-- The candidate-shift loop of `choose_detour_x`. -/
def chooseDetourLoop (aRect bRect : Rect) (cx cy : ℚ) (startY endY globalXMin : ℚ) :
    Nat → ℚ → ℚ
  | 0, candidate => candidate
  | steps + 1, candidate =>
    if ¬ polylineIntersectsRects [(candidate, startY), (candidate, endY)] [aRect, bRect] cx cy then
      candidate
    else
      chooseDetourLoop aRect bRect cx cy startY endY globalXMin steps
        (max (candidate - DETOUR_STEP_X) globalXMin)

/-- `choose_detour_x`: start at the successor's entry x and shift left, bounded
by the step budget and the guardrail, until a vertical probe between the two
endpoint midlines clears the two endpoint rectangles. -/
def chooseDetourX (aRect bRect : Rect) (cx cy : ℚ) : ℚ :=
  let (axmin, _, aymin, aymax) := aRect
  let (bxmin, _, bymin, bymax) := bRect
  let targetX := bxmin - ROUTE_X_PAD
  let globalXMin := min axmin bxmin - DETOUR_MARGIN_X
  let startY := (aymin + aymax) / 2
  let endY := (bymin + bymax) / 2
  chooseDetourLoop aRect bRect cx cy startY endY globalXMin (DETOUR_MAX_STEPS + 1) targetX

/-- `route_pattern_simple`: exit right, vertical jog at the midpoint lane,
enter left. -/
def routePatternSimple (aRect bRect : Rect) : List Pt :=
  let (_, axmax, aymin, aymax) := aRect
  let (bxmin, _, bymin, bymax) := bRect
  let start : Pt := (axmax + ROUTE_X_PAD, (aymin + aymax) / 2)
  let goal : Pt := (bxmin - ROUTE_X_PAD, (bymin + bymax) / 2)
  let xLane := (start.1 + goal.1) / 2
  [start, (xLane, start.2), (xLane, goal.2), goal]

/-- `route_pattern_detour`: exit right, vertical, leftward jog to the detour
column, vertical, enter left. -/
def routePatternDetour (aRect bRect : Rect) : List Pt :=
  let (_, axmax, aymin, aymax) := aRect
  let (bxmin, _, bymin, bymax) := bRect
  let start : Pt := (axmax + ROUTE_X_PAD, (aymin + aymax) / 2)
  let goal : Pt := (bxmin - ROUTE_X_PAD, (bymin + bymax) / 2)
  let xLane := axmax + ROUTE_X_PAD * 2
  let xDetour := chooseDetourX aRect bRect ROUTE_CLEARANCE ROUTE_CLEARANCE
  let yMid := (start.2 + goal.2) / 2
  [start, (xLane, start.2), (xLane, yMid), (xDetour, yMid), (xDetour, goal.2), goal]

/-! ### The obstacle grid and A* search -/

abbrev Cell := Int × Int

/-- `build_obstacle_grid`'s blocked set, as its characteristic predicate: the
cell's center lies inside some rectangle inflated by the clearance.  (The
Python code materialises the same set by scanning all cells; membership is all
that is ever queried.) -/
def gridBlocked (rects : List Rect) (xMin yMin dx dy clearance : ℚ) (c : Cell) : Bool :=
  let cx := xMin + c.1 * dx
  let cy := yMin + c.2 * dy
  rects.any fun r =>
    let (rx0, rx1, ry0, ry1) := r
    decide (rx0 - clearance ≤ cx ∧ cx ≤ rx1 + clearance ∧ ry0 - clearance ≤ cy ∧ cy ≤ ry1 + clearance)

/-- Ceiling of a nonnegative rational ratio, as used in the `nx`/`ny` grid
extents (`int(math.ceil(span / step))`). -/
def ratCeilDiv (a b : ℚ) : Int := Int.ceil (a / b)

/-- An A* state: the cell and the direction it was entered with (`None` for
the start). -/
abbrev AState := Cell × Option Cell

/-- A frontier entry `(priority, counter, cell, incoming_dir)`. -/
abbrev AEntry := ℚ × Nat × Cell × Option Cell

/-- `heapq.heappop`: remove the entry minimal in the lexicographic
`(priority, counter)` order (counters are distinct, so the full-tuple Python
order never compares further components). -/
def popMin : List AEntry → Option (AEntry × List AEntry)
  | [] => none
  | e :: es =>
    match popMin es with
    | none => some (e, [])
    | some (m, rest) =>
      if e.1 < m.1 ∨ (e.1 == m.1 ∧ e.2.1 < m.2.1) then some (e, m :: rest)
      else some (m, e :: rest)

def manhattan (a b : Cell) : ℚ :=
  ((a.1 - b.1).natAbs + (a.2 - b.2).natAbs : Nat)

/-- Association-list maps keyed by A* states. -/
def asget (m : List (AState × α)) (k : AState) : Option α :=
  (m.find? (fun kv => kv.1 == k)).map (fun kv => kv.2)

def asupd (m : List (AState × α)) (k : AState) (v : α) : List (AState × α) :=
  (k, v) :: m.filter (fun kv => kv.1 ≠ k)

/-- The mutable search state of `astar_route`. -/
structure AstarSt where
  frontier : List AEntry
  counter : Nat
  cameFrom : List (AState × Option AState)
  costSoFar : List (AState × ℚ)

def bendPenalty : ℚ := 5

/-- The `for nxt, dir_vec in neighbors` body. -/
def astarExpand (goal : Cell) (isBlocked : Cell → Bool) (current : Cell)
    (incomingDir : Option Cell) : List (Cell × Cell) → AstarSt → AstarSt
  | [], st => st
  | (nxt, dirVec) :: more, st =>
    if isBlocked nxt then astarExpand goal isBlocked current incomingDir more st
    else
      let stepCost : ℚ := 1 + (if incomingDir.isSome ∧ incomingDir ≠ some dirVec then bendPenalty else 0)
      let newCost := (asget st.costSoFar (current, incomingDir)).getD 0 + stepCost
      let nextState : AState := (nxt, some dirVec)
      match asget st.costSoFar nextState with
      | some old =>
        if newCost < old then
          astarExpand goal isBlocked current incomingDir more
            { frontier := st.frontier ++ [(newCost + manhattan goal nxt, st.counter + 1, nxt, some dirVec)]
              counter := st.counter + 1
              cameFrom := asupd st.cameFrom nextState (some (current, incomingDir))
              costSoFar := asupd st.costSoFar nextState newCost }
        else astarExpand goal isBlocked current incomingDir more st
      | none =>
        astarExpand goal isBlocked current incomingDir more
          { frontier := st.frontier ++ [(newCost + manhattan goal nxt, st.counter + 1, nxt, some dirVec)]
            counter := st.counter + 1
            cameFrom := asupd st.cameFrom nextState (some (current, incomingDir))
            costSoFar := asupd st.costSoFar nextState newCost }

/-- The `while frontier` loop: pop the best entry, stop at the goal, else relax
the four orthogonal neighbors.  Returns the goal state when reached.  Fuel
bounds the iteration count (the Python loop terminates because costs strictly
improve over a finite state space; every concrete run below finishes well
inside the budget). -/
def astarLoop (goal : Cell) (isBlocked : Cell → Bool) :
    Nat → AstarSt → Option (AState × AstarSt)
  | 0, _ => none
  | fuel + 1, st =>
    match popMin st.frontier with
    | none => none
    | some (e, rest) =>
      let current := e.2.2.1
      let incomingDir := e.2.2.2
      if current == goal then some ((current, incomingDir), { st with frontier := rest })
      else
        let neighbors : List (Cell × Cell) :=
          [((current.1 + 1, current.2), (1, 0)), ((current.1 - 1, current.2), (-1, 0)),
           ((current.1, current.2 + 1), (0, 1)), ((current.1, current.2 - 1), (0, -1))]
        astarLoop goal isBlocked fuel
          (astarExpand goal isBlocked current incomingDir neighbors { st with frontier := rest })

/-- The path-reconstruction `while cur_state != start_state` loop. -/
def astarWalkBack (cameFrom : List (AState × Option AState)) (startState : AState) :
    Nat → AState → List Cell → List Cell
  | 0, _, path => path
  | fuel + 1, cur, path =>
    if cur == startState then path
    else
      match asget cameFrom cur with
      | none => path
      | some none => path
      | some (some prev) => astarWalkBack cameFrom startState fuel prev (path ++ [prev.1])

def astarFuel : Nat := 100000

/-- `astar_route(start, goal, is_blocked)`. -/
def astarRoute (start goal : Cell) (isBlocked : Cell → Bool) : Option (List Cell) :=
  let st0 : AstarSt :=
    { frontier := [(0, 0, start, none)]
      counter := 0
      cameFrom := [((start, none), none)]
      costSoFar := [((start, none), 0)] }
  match astarLoop goal isBlocked astarFuel st0 with
  | none => none
  | some (goalState, st) =>
    let path := astarWalkBack st.cameFrom (start, none) astarFuel goalState [goal]
    let path := if path.getLast? ≠ some start then path ++ [start] else path
    some path.reverse

/-- `_dedupe_points`: drop consecutive duplicates. -/
def dedupePoints : List Pt → List Pt
  | [] => []
  | p :: rest => p :: dedupeGo p rest
where
  dedupeGo : Pt → List Pt → List Pt
    | _, [] => []
    | last, q :: rest => if q == last then dedupeGo last rest else q :: dedupeGo q rest

def simplifyEps : ℚ := 1 / 1000000000

/-- The interior-point scan of `_simplify_polyline`: `last` is the most recent
kept point. -/
def simplifyGo (last : Pt) : List Pt → List Pt
  | [] => []
  | [p] => [p]
  | p :: q :: rest =>
    let dx1 := p.1 - last.1
    let dy1 := p.2 - last.2
    let dx2 := q.1 - p.1
    let dy2 := q.2 - p.2
    if |dx1 * dy2 - dy1 * dx2| < simplifyEps then simplifyGo last (q :: rest)
    else p :: simplifyGo p (q :: rest)

/-- `_simplify_polyline`: remove (near-)collinear interior points. -/
def simplifyPolyline (points : List Pt) : List Pt :=
  match points with
  | [] => []
  | [p] => [p]
  | [p, q] => [p, q]
  | p :: rest => p :: simplifyGo p rest

/-- `_route_dependency_astar`: rasterize all rectangles onto the grid spanning
the layout plus margin, force-unblock the start/goal cells, search, and on
failure fall back to a single lane right of all bars. -/
def routeDependencyAstar (aRect bRect : Rect) (rects : List Rect) : List Pt :=
  let (_, axmax, aymin, aymax) := aRect
  let (bxmin, _, bymin, bymax) := bRect
  let start : Pt := (axmax + ROUTE_X_PAD, (aymin + aymax) / 2)
  let goal : Pt := (bxmin - ROUTE_X_PAD, (bymin + bymax) / 2)
  let xMin := (rects.map (fun r => r.1)).foldr min start.1 - 1
  let xMax := (rects.map (fun r => r.2.1)).foldr max start.1 + 1
  let yMin := (rects.map (fun r => r.2.2.1)).foldr min start.2 - 1
  let yMax := (rects.map (fun r => r.2.2.2)).foldr max start.2 + 1
  let nx := ratCeilDiv (xMax - xMin) GRID_DX + 1
  let ny := ratCeilDiv (yMax - yMin) GRID_DY + 1
  let toCell : Pt → Cell := fun pt =>
    (Int.floor ((pt.1 - xMin) / GRID_DX), Int.floor ((pt.2 - yMin) / GRID_DY))
  let toWorld : Cell → Pt := fun c => (xMin + c.1 * GRID_DX, yMin + c.2 * GRID_DY)
  let startCell := toCell start
  let goalCell := toCell goal
  let isBlocked : Cell → Bool := fun c =>
    if c.1 < 0 ∨ c.2 < 0 ∨ c.1 ≥ nx ∨ c.2 ≥ ny then true
    else if c == startCell ∨ c == goalCell then false
    else gridBlocked rects xMin yMin GRID_DX GRID_DY GRID_CLEARANCE c
  match astarRoute startCell goalCell isBlocked with
  | some cellPath =>
    let points := [start] ++ (cellPath.drop 1).dropLast.map toWorld ++ [goal]
    simplifyPolyline (dedupePoints points)
  | none =>
    let laneX := (rects.map (fun r => r.2.1)).foldr max start.1 + ROUTE_X_PAD * 4
    [start, (laneX, start.2), (laneX, goal.2), goal]

/-- The anchor points of a route between two bars. -/
def routeStart (aRect : Rect) : Pt := (aRect.2.1 + ROUTE_X_PAD, (aRect.2.2.1 + aRect.2.2.2) / 2)

def routeGoal (bRect : Rect) : Pt := (bRect.1 - ROUTE_X_PAD, (bRect.2.2.1 + bRect.2.2.2) / 2)

/-- The pattern-tier stage of `route_dependency`: the first candidate (simple,
when there is room, then detour) that starts and ends at the anchors and
clears every inflated rectangle, simplified. -/
def routePatterns (aRect bRect : Rect) (rects : List Rect) : Option (List Pt) :=
  let start := routeStart aRect
  let goal := routeGoal bRect
  let attempts :=
    (if bRect.1 ≥ aRect.2.1 + ROUTE_CLEARANCE then [routePatternSimple aRect bRect] else []) ++
      [routePatternDetour aRect bRect]
  attempts.firstM fun candidate =>
    if candidate.isEmpty then none
    else if candidate.head? ≠ some start ∨ candidate.getLast? ≠ some goal then none
    else if ¬ polylineIntersectsAnyRect candidate rects ROUTE_CLEARANCE then
      some (simplifyPolyline candidate)
    else none

/-- `route_dependency(a_rect, b_rect, rects)`: try the validated patterns, then
fall back to the grid router.  `rects` is the obstacle dict's value list in
insertion order. -/
def routeDependency (aRect bRect : Rect) (rects : List Rect) : List Pt :=
  match routePatterns aRect bRect rects with
  | some poly => poly
  | none => routeDependencyAstar aRect bRect rects


/-! ## Concrete instances used by witnesses and counterexamples -/

/-- The back-to-back inference example: A starts 2024-01-01 with duration 2;
B depends on A with duration 3 and no explicit start. -/
def exWpA : WP := { wbs := "0.1.1", name := "A", durationDays := 2, startDate := some (civilToDays 2024 1 1) }

def exWpB : WP := { wbs := "0.1.2", name := "B", durationDays := 3, dependsOn := ["0.1.1"] }

def exProject : Project :=
  { name := "Test Project"
    phases := [{ wbs := "0", name := "Planning"
                 items := [.task "0.1" "Task" [.workPackage exWpA, .workPackage exWpB]] }] }

/-- A project whose only work package has duration 0. -/
def zeroDurProject : Project :=
  { name := "Test Project"
    phases := [{ wbs := "0", name := "Planning"
                 items := [.task "0.1" "Task"
                   [.workPackage { wbs := "0.1.1", name := "A", durationDays := 0,
                                   startDate := some (civilToDays 2024 1 1) }]] }] }

/-- Two work packages mutually depending on each other. -/
def cycWpA : WP := { wbs := "0.1.1", name := "A", durationDays := 1, dependsOn := ["0.1.2"] }

def cycWpB : WP := { wbs := "0.1.2", name := "B", durationDays := 1, dependsOn := ["0.1.1"] }

def cycProject : Project :=
  { name := "Test Project"
    phases := [{ wbs := "0", name := "Planning"
                 items := [.task "0.1" "Task" [.workPackage cycWpA, .workPackage cycWpB]] }] }

/-- A work package depending on a nonexistent id. -/
def missingDepProject : Project :=
  { name := "Test Project"
    phases := [{ wbs := "0", name := "Planning"
                 items := [.task "0.1" "Task"
                   [.workPackage { wbs := "0.1.1", name := "A", durationDays := 1,
                                   dependsOn := ["missing"] }]] }] }

/-- A group whose children have resolved spans [2024-01-01..2024-01-02] and
[2024-01-05..2024-01-05]. -/
def spanProject : Project :=
  { name := "Test Project"
    phases := [{ wbs := "0", name := "Planning"
                 items := [.task "0.1" "Task"
                   [.workPackage { wbs := "0.1.1", name := "A", durationDays := 2,
                                   startDate := some (civilToDays 2024 1 1) },
                    .workPackage { wbs := "0.1.2", name := "B", durationDays := 1,
                                   startDate := some (civilToDays 2024 1 5) }]] }] }

/-- Globally unique ids, valid references, no cycles - but the item's wbs does
not extend its parent's wbs. -/
def badHierProject : Project :=
  { name := "Test Project"
    phases := [{ wbs := "0", name := "Planning"
                 items := [.workPackage { wbs := "1.1", name := "A", durationDays := 1,
                                          startDate := some (civilToDays 2024 1 1) }] }] }

/-- A work package with an explicit start strictly before its predecessor's
finish. -/
def earlyStartProject : Project :=
  { name := "Test Project"
    phases := [{ wbs := "0", name := "Planning"
                 items := [.task "0.1" "Task"
                   [.workPackage { wbs := "0.1.1", name := "A", durationDays := 5,
                                   startDate := some (civilToDays 2024 1 1) },
                    .workPackage { wbs := "0.1.2", name := "B", durationDays := 2,
                                   startDate := some (civilToDays 2024 1 3),
                                   dependsOn := ["0.1.1"] }]] }] }

/-- Router counterexample layout: two bars on one row and a thin tall wall
between them whose inflation fits strictly between two grid columns. -/
def cexARect : Rect := (0, 1, 0, 6/10)

def cexBRect : Rect := (3, 4, 0, 6/10)

def cexWallRect : Rect := (195/100, 2, -2, 2)

def cexRects : List Rect := [cexARect, cexBRect, cexWallRect]

/-- A horizontal segment strictly crossing the interior of a rectangle:
its y is strictly inside the y-range and its x-extent strictly overlaps the
x-range.  (A strict interior crossing in particular makes
`segmentIntersectsRect` true.) -/
def segCrossesInteriorH (s e : Pt) (r : Rect) : Bool :=
  let (xmin, xmax, ymin, ymax) := r
  decide (s.2 = e.2 ∧ s.1 ≠ e.1 ∧ ymin < s.2 ∧ s.2 < ymax ∧ xmin < max s.1 e.1 ∧ min s.1 e.1 < xmax)

/-- Some segment of the polyline strictly crosses the interior of some listed
rectangle inflated by the clearance. -/
def polylineCrossesInflatedInterior (poly : List Pt) (rects : List Rect) (clearance : ℚ) : Bool :=
  (polySegs poly).any fun sg => rects.any fun r =>
    segCrossesInteriorH sg.1 sg.2 (inflateRect r clearance clearance)


/-- Observable outcome of a scheduling run: the raised error, if any. -/
def runError (p : Project) : Option GErr :=
  match scheduleProjectStarts p with
  | .error e => some e
  | .ok _ => none

/-- Observable outcome of a scheduling run: the final start date of one work
package, `none` when the run failed. -/
def runStart (p : Project) (w : String) : Option (Option Int) :=
  match scheduleProjectStarts p with
  | .error _ => none
  | .ok st => some (st w)

/-- The registered lookup of a project that passes the uniqueness gate
(empty when it fails). -/
def regLookup (p : Project) : List (String × NodeRef) :=
  match validateUniqueWbs p with
  | .ok l => l
  | .error _ => []

/-- Observable outcome: the span of the first item with the given wbs in the
scheduled tree (`none` when the run failed or no such item exists). -/
def runTaskSpan (p : Project) (w : String) : Option (Option Int × Option Int) :=
  match scheduleProject p with
  | .error _ => none
  | .ok p2 =>
    ((walkItems (p2.phases.flatMap (fun ph => ph.items))).find? (fun i => i.wbs == w)).map
      (fun i => (i.spanStart, i.spanFinish))

/-! ### Verification scaffolding for the Kahn loop invariant -/

/-- The dependency list registered for a wbs code (empty when the code is not
a work package's). -/
def depsOfWbs (wps : List WP) (w : String) : List String :=
  ((wps.find? (fun wp => wp.wbs == w)).map (fun wp => wp.dependsOn)).getD []

/-- How many dependency occurrences of `w` are still unprocessed (not yet in
the result list), with multiplicity. -/
def remainingDeps (wps : List WP) (res : List String) (w : String) : Nat :=
  ((depsOfWbs wps w).filter (fun d => !(res.contains d))).length

/-- The Kahn loop invariant: the processed and queued codes are distinct work
package codes, the indegree of every code counts its unprocessed dependency
occurrences, and a code has been processed or queued exactly when none of its
dependency occurrences remain. -/
def KahnInv (wps : List WP) (queue result : List String) (indeg : String → Int) : Prop :=
  (result ++ queue).Nodup ∧
    (∀ w ∈ result ++ queue, w ∈ wps.map WP.wbs) ∧
    (∀ w, indeg w = (remainingDeps wps result w : Int)) ∧
    (∀ w ∈ wps.map WP.wbs, (w ∈ result ++ queue ↔ remainingDeps wps result w = 0))

/-! ### Verification scaffolding for the DFS cycle search -/

/-- A dependency cycle: nonempty, consecutive dependency edges, and an edge
from the last element back to the first. -/
@[reducible]
def IsDepCycle (dl : List (String × List String)) : List String → Prop
  | [] => False
  | x :: rest =>
    (x :: rest).Chain' (fun a b => b ∈ depsOf dl a) ∧
      x ∈ depsOf dl ((x :: rest).getLast (List.cons_ne_nil x rest))

/-- A reported cycle path: at least two entries, identical first and last
entry, consecutive dependency edges. -/
@[reducible]
def CyclePath (dl : List (String × List String)) (c : List String) : Prop :=
  2 ≤ c.length ∧ c.head? = c.getLast? ∧ c.Chain' (fun a b => b ∈ depsOf dl a)

/-- DFS state soundness: the active stack is a dependency chain of distinct
nodes, the visiting nodes are exactly the stacked ones, and the position dict
locates exactly the stacked nodes. -/
def StackOk (dl : List (String × List String)) (s : DfsSt) : Prop :=
  s.stack.Chain' (fun a b => b ∈ depsOf dl a) ∧
    s.stack.Nodup ∧
    (∀ w, s.color w = some Color.visiting ↔ w ∈ s.stack) ∧
    (∀ w p, s.pos w = some p ↔ (p < s.stack.length ∧ s.stack[p]? = some w))

/-- Rank witness: finished nodes have finished dependencies of strictly
smaller rank. -/
def RankOk (dl : List (String × List String)) (s : DfsSt) : Prop :=
  ∃ r : String → Nat, ∀ u, s.color u = some Color.done →
    ∀ d ∈ depsOf dl u, s.color d = some Color.done ∧ r d < r u

/-- Colors only advance: done and visiting are preserved, and a node uncolored
afterwards was uncolored before. -/
def ColorAdv (s s' : DfsSt) : Prop :=
  (∀ w, s.color w = some Color.done → s'.color w = some Color.done) ∧
    (∀ w, s.color w = some Color.visiting → s'.color w = some Color.visiting) ∧
    (∀ w, s'.color w = none → s.color w = none)

/-- Number of uncolored nodes within a finite universe. -/
def countNoneIn (S : Finset String) (s : DfsSt) : Nat :=
  (S.filter (fun u => s.color u = none)).card

/-! ## Theorems -/

theorem scheduleWPs_cons (lookup : String → Option WP) (wp : WP) (rest : List WP)
    (starts : String → Option Int) :
    scheduleWPs lookup (wp :: rest) starts =
      (scheduleStep lookup starts wp).bind (scheduleWPs lookup rest) := rfl

/-- A non-positive duration makes `scheduleStep` raise exactly the
`ProjectValidationError` of `_schedule_work_packages` line 172. -/
theorem scheduleStep_nonpos (lookup : String → Option WP) (starts : String → Option Int)
    (wp : WP) (h : wp.durationDays ≤ 0) :
    scheduleStep lookup starts wp = .error (.nonPositiveDuration wp.wbs wp.durationDays) := by
  simp [scheduleStep, h]

/-- Only the duration gate produces a `nonPositiveDuration` error, and it
reports the package's own id and value. -/
theorem scheduleStep_nonpos_inv (lookup : String → Option WP) (starts : String → Option Int)
    (wp : WP) (w : String) (v : Int)
    (h : scheduleStep lookup starts wp = .error (.nonPositiveDuration w v)) :
    w = wp.wbs ∧ v = wp.durationDays ∧ wp.durationDays ≤ 0 := by
  unfold scheduleStep at h
  split at h
  · rename_i hd
    simp only [Except.error.injEq] at h
    cases h
    exact ⟨rfl, rfl, hd⟩
  · rename_i hd
    split at h
    · cases h
    · simp only [bind, Except.bind] at h
      split at h
      · rename_i e he
        exfalso
        revert he
        generalize wp.dependsOn = ds
        induction ds with
        | nil => intro he; cases he
        | cons d ds ih =>
          intro he
          unfold collectDepFinishes at he
          split at he
          · cases he; cases h
          · simp only [bind, Except.bind] at he
            split at he
            · rename_i err he2
              cases he
              exact ih he2
            · cases he
      · split at h
        · cases h
        · split at h
          · cases h
          · split at h
            · cases h
            · cases h

theorem scheduleWPs_nonpos_member (lookup : String → Option WP) :
    ∀ (order : List WP) (starts : String → Option Int) (wp : WP),
      wp ∈ order → wp.durationDays ≤ 0 →
      ∃ e, scheduleWPs lookup order starts = .error e := by
  intro order
  induction order with
  | nil => intro _ _ hmem; cases hmem
  | cons hd rest ih =>
    intro starts wp hmem hdur
    rw [scheduleWPs_cons]
    cases hstep : scheduleStep lookup starts hd with
    | error e => exact ⟨e, rfl⟩
    | ok starts' =>
      rcases List.mem_cons.mp hmem with heq | htail
      · subst heq
        rw [scheduleStep_nonpos lookup starts wp hdur] at hstep
        cases hstep
      · exact ih starts' wp htail hdur

theorem scheduleWPs_nonpos_report (lookup : String → Option WP) :
    ∀ (order : List WP) (starts : String → Option Int) (w : String) (v : Int),
      scheduleWPs lookup order starts = .error (.nonPositiveDuration w v) →
      ∃ wp ∈ order, wp.wbs = w ∧ wp.durationDays = v ∧ v ≤ 0 := by
  intro order
  induction order with
  | nil => intro _ _ _ h; cases h
  | cons hd rest ih =>
    intro starts w v h
    rw [scheduleWPs_cons] at h
    cases hstep : scheduleStep lookup starts hd with
    | error e =>
      rw [hstep] at h
      simp only [Except.bind] at h
      cases h
      obtain ⟨hw, hv, hle⟩ := scheduleStep_nonpos_inv lookup starts hd w v hstep
      exact ⟨hd, List.mem_cons_self hd rest, hw.symm, hv.symm, hv ▸ hle⟩
    | ok starts' =>
      rw [hstep] at h
      simp only [Except.bind] at h
      obtain ⟨wp, hmem, hprops⟩ := ih starts' w v h
      exact ⟨wp, List.mem_cons_of_mem hd hmem, hprops⟩

/-- C5 counterexample: on a project whose only work package has duration 0,
`schedule_project` raises an error whose exception class is
`ProjectValidationError`, not `SchedulingError` - contradicting the claim that
the failure is "a SchedulingError (a temporal error, distinct from
ValidationError)". -/
theorem C5_counterexample :
    runError zeroDurProject = some (.nonPositiveDuration "0.1.1" 0) ∧
      GErr.errorClass (.nonPositiveDuration "0.1.1" 0) = .validation ∧
      GErr.errorClass (.nonPositiveDuration "0.1.1" 0) ≠ .scheduling := by
  refine ⟨by decide, by decide, by decide⟩

/-- C5 (amended): for every work package whose `duration_days` is zero or
negative, scheduling fails; when the reported error is the non-positive
duration one it names the offending id and value, and its exception class is
`ProjectValidationError` (the structural class), not `SchedulingError`. -/
theorem C5_nonpositive_duration_fails_with_validation_error
    (lookup : String → Option WP) (order : List WP) (starts : String → Option Int)
    (wp : WP) (hmem : wp ∈ order) (hdur : wp.durationDays ≤ 0) :
    (∃ e, scheduleWPs lookup order starts = .error e) ∧
      (∀ w v, scheduleWPs lookup order starts = .error (.nonPositiveDuration w v) →
        (∃ wp2 ∈ order, wp2.wbs = w ∧ wp2.durationDays = v ∧ v ≤ 0) ∧
          GErr.errorClass (.nonPositiveDuration w v) = .validation) := by
  refine ⟨scheduleWPs_nonpos_member lookup order starts wp hmem hdur, ?_⟩
  intro w v h
  exact ⟨scheduleWPs_nonpos_report lookup order starts w v h, rfl⟩

theorem C5_witness :
    (walkWorkPackages zeroDurProject).head? =
        some { wbs := "0.1.1", name := "A", durationDays := 0,
               startDate := some (civilToDays 2024 1 1) } ∧
      (∃ e, scheduleWPs (wpLookup (walkWorkPackages zeroDurProject))
          (walkWorkPackages zeroDurProject) (initStarts (walkWorkPackages zeroDurProject)) =
            .error e) := by
  refine ⟨by decide, ?_⟩
  exact (C5_nonpositive_duration_fails_with_validation_error
    (wpLookup (walkWorkPackages zeroDurProject)) (walkWorkPackages zeroDurProject)
    (initStarts (walkWorkPackages zeroDurProject))
    { wbs := "0.1.1", name := "A", durationDays := 0,
      startDate := some (civilToDays 2024 1 1) } (by decide) (by decide)).1


/-! ### C10: the WBS dotted-hierarchy gate -/

theorem exceptOk_unit_or_error (x : Except GErr Unit) : x = .ok () ∨ ∃ e, x = .error e := by
  cases x with
  | ok u => cases u; exact Or.inl rfl
  | error e => exact Or.inr ⟨e, rfl⟩

mutual

theorem visitHierarchy_ok_iff (items : List WBSItem) (parent : String) :
    visitHierarchy parent items = .ok () ↔
      ∀ pr ∈ hierPairs parent items, startsWithDot pr.1 pr.2 = true := by
  cases items with
  | nil => simp [visitHierarchy, hierPairs]
  | cons i rest =>
    simp only [visitHierarchy, hierPairs, List.mem_cons, List.mem_append, bind, Except.bind,
      assertChild]
    by_cases hsw : startsWithDot parent i.wbs
    · simp only [hsw, if_pos]
      cases hit : visitHierarchyItem i with
      | error e =>
        simp only []
        constructor
        · intro h; cases h
        · intro h
          have := (visitHierarchyItem_ok_iff i).mpr (fun pr hpr => h pr (Or.inr (Or.inl hpr)))
          rw [hit] at this; cases this
      | ok u =>
        cases u
        simp only []
        rw [visitHierarchy_ok_iff rest parent]
        constructor
        · intro h pr hpr
          rcases hpr with h1 | h2 | h3
          · rw [h1]; exact hsw
          · exact (visitHierarchyItem_ok_iff i).mp hit pr h2
          · exact h pr h3
        · intro h pr hpr
          exact h pr (Or.inr (Or.inr hpr))
    · simp only [hsw, if_neg, not_false_iff]
      constructor
      · intro h; cases h
      · intro h
        have := h (parent, i.wbs) (Or.inl rfl)
        exact absurd this hsw

theorem visitHierarchyItem_ok_iff (i : WBSItem) :
    visitHierarchyItem i = .ok () ↔
      ∀ pr ∈ hierPairsItem i, startsWithDot pr.1 pr.2 = true := by
  cases i with
  | workPackage wp => simp [visitHierarchyItem, hierPairsItem]
  | milestone w n d => simp [visitHierarchyItem, hierPairsItem]
  | task w n sub =>
    simp only [visitHierarchyItem, hierPairsItem]
    exact visitHierarchy_ok_iff sub w

end

mutual

theorem visitHierarchy_err (items : List WBSItem) (parent : String) (e : GErr)
    (h : visitHierarchy parent items = .error e) :
    ∃ pr ∈ hierPairs parent items, startsWithDot pr.1 pr.2 = false ∧
      e = .wbsHierarchy pr.2 (pr.1 ++ ".") := by
  cases items with
  | nil => cases h
  | cons i rest =>
    simp only [visitHierarchy, bind, Except.bind, assertChild] at h
    by_cases hsw : startsWithDot parent i.wbs
    · simp only [hsw, if_pos] at h
      cases hit : visitHierarchyItem i with
      | error e2 =>
        rw [hit] at h
        simp only [] at h
        have he2 : e2 = e := by injection h
        subst he2
        obtain ⟨pr, hpr, hbad, heq⟩ := visitHierarchyItem_err i e2 hit
        exact ⟨pr, by simp [hierPairs, hpr], hbad, heq⟩
      | ok u =>
        cases u
        rw [hit] at h
        simp only [] at h
        obtain ⟨pr, hpr, hbad, heq⟩ := visitHierarchy_err rest parent e h
        exact ⟨pr, by simp [hierPairs, hpr], hbad, heq⟩
    · simp only [hsw, if_neg, not_false_iff] at h
      cases h
      exact ⟨(parent, i.wbs), by simp [hierPairs], by simpa using hsw, rfl⟩

theorem visitHierarchyItem_err (i : WBSItem) (e : GErr)
    (h : visitHierarchyItem i = .error e) :
    ∃ pr ∈ hierPairsItem i, startsWithDot pr.1 pr.2 = false ∧
      e = .wbsHierarchy pr.2 (pr.1 ++ ".") := by
  cases i with
  | workPackage wp => cases h
  | milestone w n d => cases h
  | task w n sub =>
    simp only [visitHierarchyItem, hierPairsItem] at h ⊢
    exact visitHierarchy_err sub w e h

end

theorem hierarchyPhases_ok_iff (phases : List Phase) :
    hierarchyPhases phases = .ok () ↔
      ∀ pr ∈ phases.flatMap (fun ph => hierPairs ph.wbs ph.items),
        startsWithDot pr.1 pr.2 = true := by
  induction phases with
  | nil => simp [hierarchyPhases]
  | cons ph rest ih =>
    simp only [hierarchyPhases, bind, Except.bind, List.flatMap_cons, List.mem_append]
    cases hv : visitHierarchy ph.wbs ph.items with
    | error e =>
      simp only []
      constructor
      · intro h; cases h
      · intro h
        have := (visitHierarchy_ok_iff ph.items ph.wbs).mpr (fun pr hpr => h pr (Or.inl hpr))
        rw [hv] at this; cases this
    | ok u =>
      cases u
      simp only []
      rw [ih]
      constructor
      · intro h pr hpr
        rcases hpr with h1 | h2
        · exact (visitHierarchy_ok_iff ph.items ph.wbs).mp hv pr h1
        · exact h pr h2
      · intro h pr hpr
        exact h pr (Or.inr hpr)

theorem hierarchyPhases_err (phases : List Phase) (e : GErr)
    (h : hierarchyPhases phases = .error e) :
    ∃ pr ∈ phases.flatMap (fun ph => hierPairs ph.wbs ph.items),
      startsWithDot pr.1 pr.2 = false ∧ e = .wbsHierarchy pr.2 (pr.1 ++ ".") := by
  induction phases with
  | nil => cases h
  | cons ph rest ih =>
    simp only [hierarchyPhases, bind, Except.bind] at h
    cases hv : visitHierarchy ph.wbs ph.items with
    | error e2 =>
      rw [hv] at h
      simp only [] at h
      have he2 : e2 = e := by injection h
      subst he2
      obtain ⟨pr, hpr, hbad, heq⟩ := visitHierarchy_err ph.items ph.wbs e2 hv
      exact ⟨pr, by simp [hpr], hbad, heq⟩
    | ok u =>
      cases u
      rw [hv] at h
      simp only [] at h
      obtain ⟨pr, hpr, hbad, heq⟩ := ih h
      refine ⟨pr, ?_, hbad, heq⟩
      simp only [List.flatMap_cons, List.mem_append]
      exact Or.inr hpr

/-- When the uniqueness gate passes but the hierarchy gate fails, the pipeline
stops with the hierarchy error. -/
theorem scheduleProjectStarts_hier_error (p : Project) (lookup : List (String × NodeRef))
    (e : GErr) (h1 : validateUniqueWbs p = .ok lookup)
    (h2 : validateWbsHierarchy p = .error e) :
    scheduleProjectStarts p = .error e := by
  simp [scheduleProjectStarts, h1, h2, bind, Except.bind]

/-- C10: the undocumented dotted-hierarchy naming gate.  If the project passes
the uniqueness gate but some item's wbs does not begin with its parent's wbs
followed by a dot, `schedule_project` raises a `ProjectValidationError` naming
a genuinely violating child and the required dotted prefix string, before any
scheduling (the run produces no date assignment). -/
theorem C10_wbs_hierarchy_gate (p : Project) (lookup : List (String × NodeRef))
    (hu : validateUniqueWbs p = .ok lookup)
    (pr : String × String) (hpr : pr ∈ projHierPairs p)
    (hbad : startsWithDot pr.1 pr.2 = false) :
    ∃ child required,
      scheduleProjectStarts p = .error (.wbsHierarchy child required) ∧
        scheduleProject p = .error (.wbsHierarchy child required) ∧
        (GErr.wbsHierarchy child required).errorClass = .validation ∧
        ∃ pr2 ∈ projHierPairs p, startsWithDot pr2.1 pr2.2 = false ∧
          child = pr2.2 ∧ required = pr2.1 ++ "." := by
  have hnotok : validateWbsHierarchy p ≠ .ok () := by
    intro hok
    have := (hierarchyPhases_ok_iff p.phases).mp hok pr hpr
    rw [hbad] at this; cases this
  rcases exceptOk_unit_or_error (validateWbsHierarchy p) with hok | ⟨e, herr⟩
  · exact absurd hok hnotok
  · obtain ⟨pr2, hpr2, hbad2, heq⟩ := hierarchyPhases_err p.phases e herr
    refine ⟨pr2.2, pr2.1 ++ ".", ?_, ?_, rfl, pr2, hpr2, hbad2, rfl, rfl⟩
    · rw [← heq]; exact scheduleProjectStarts_hier_error p lookup e hu herr
    · have h3 := scheduleProjectStarts_hier_error p lookup e hu herr
      rw [← heq]
      simp [scheduleProject, h3, Except.map]

theorem C10_witness :
    validateUniqueWbs badHierProject =
        .ok [("0", .phase { wbs := "0", name := "Planning",
                            items := [.workPackage { wbs := "1.1", name := "A", durationDays := 1,
                                                     startDate := some (civilToDays 2024 1 1) }] }),
             ("1.1", .item (.workPackage { wbs := "1.1", name := "A", durationDays := 1,
                                           startDate := some (civilToDays 2024 1 1) }))] ∧
      ("0", "1.1") ∈ projHierPairs badHierProject ∧
      startsWithDot "0" "1.1" = false ∧
      ∃ child required,
        scheduleProjectStarts badHierProject = .error (.wbsHierarchy child required) ∧
          scheduleProject badHierProject = .error (.wbsHierarchy child required) ∧
          (GErr.wbsHierarchy child required).errorClass = .validation ∧
          ∃ pr2 ∈ projHierPairs badHierProject, startsWithDot pr2.1 pr2.2 = false ∧
            child = pr2.2 ∧ required = pr2.1 ++ "." := by
  refine ⟨rfl, by decide, by decide, ?_⟩
  exact C10_wbs_hierarchy_gate badHierProject _ rfl ("0", "1.1") (by decide) (by decide)


/-! ### C7: dependency reference validation -/

theorem checkDeps_ok_iff (lookup : List (String × NodeRef)) (w : String) (ds : List String) :
    checkDeps lookup w ds = .ok () ↔
      ∀ d ∈ ds, ∃ r, alget lookup d = some r ∧ r.isWorkPackage = true := by
  induction ds with
  | nil => simp [checkDeps]
  | cons d rest ih =>
    simp only [checkDeps, List.mem_cons]
    cases hl : alget lookup d with
    | none =>
      simp only []
      constructor
      · intro h; cases h
      · intro h
        obtain ⟨r, hr, _⟩ := h d (Or.inl rfl)
        rw [hl] at hr; cases hr
    | some r =>
      by_cases hwp : r.isWorkPackage
      · simp only [hwp, if_pos]
        rw [ih]
        constructor
        · intro h d2 hd2
          rcases hd2 with h1 | h2
          · exact h1 ▸ ⟨r, hl, hwp⟩
          · exact h d2 h2
        · intro h d2 hd2
          exact h d2 (Or.inr hd2)
      · simp only [hwp, if_neg, not_false_iff]
        constructor
        · intro h; cases h
        · intro h
          obtain ⟨r2, hr2, hwp2⟩ := h d (Or.inl rfl)
          rw [hl] at hr2
          cases hr2
          exact absurd hwp2 hwp

theorem checkDeps_err (lookup : List (String × NodeRef)) (w : String) (ds : List String)
    (e : GErr) (h : checkDeps lookup w ds = .error e) :
    ∃ d ∈ ds,
      (alget lookup d = none ∧ e = .unknownDependency w d) ∨
        (∃ r, alget lookup d = some r ∧ r.isWorkPackage = false ∧
          e = .nonWorkPackageDependency w d) := by
  induction ds with
  | nil => cases h
  | cons d rest ih =>
    simp only [checkDeps] at h
    cases hl : alget lookup d with
    | none =>
      rw [hl] at h
      simp only [] at h
      injection h with h2
      exact ⟨d, List.mem_cons_self d rest, Or.inl ⟨hl, h2.symm⟩⟩
    | some r =>
      rw [hl] at h
      by_cases hwp : r.isWorkPackage
      · simp only [hwp, if_pos] at h
        obtain ⟨d2, hd2, hcase⟩ := ih h
        exact ⟨d2, List.mem_cons_of_mem d hd2, hcase⟩
      · simp only [hwp, if_neg, not_false_iff] at h
        injection h with h2
        exact ⟨d, List.mem_cons_self d rest, Or.inr ⟨r, hl, by simpa using hwp, h2.symm⟩⟩

theorem checkAllDeps_ok_iff (lookup : List (String × NodeRef)) (wps : List WP) :
    checkAllDeps lookup wps = .ok () ↔
      ∀ wp ∈ wps, checkDeps lookup wp.wbs wp.dependsOn = .ok () := by
  induction wps with
  | nil => simp [checkAllDeps]
  | cons wp rest ih =>
    simp only [checkAllDeps, bind, Except.bind, List.mem_cons]
    cases hc : checkDeps lookup wp.wbs wp.dependsOn with
    | error e =>
      simp only []
      constructor
      · intro h; cases h
      · intro h
        have := h wp (Or.inl rfl)
        rw [hc] at this; cases this
    | ok u =>
      cases u
      simp only []
      rw [ih]
      constructor
      · intro h wp2 hwp2
        rcases hwp2 with h1 | h2
        · exact h1 ▸ hc
        · exact h wp2 h2
      · intro h wp2 hwp2
        exact h wp2 (Or.inr hwp2)

theorem checkAllDeps_err (lookup : List (String × NodeRef)) (wps : List WP) (e : GErr)
    (h : checkAllDeps lookup wps = .error e) :
    ∃ wp ∈ wps, checkDeps lookup wp.wbs wp.dependsOn = .error e := by
  induction wps with
  | nil => cases h
  | cons wp rest ih =>
    simp only [checkAllDeps, bind, Except.bind] at h
    cases hc : checkDeps lookup wp.wbs wp.dependsOn with
    | error e2 =>
      rw [hc] at h
      simp only [] at h
      have he2 : e2 = e := by injection h
      subst he2
      exact ⟨wp, List.mem_cons_self wp rest, hc⟩
    | ok u =>
      cases u
      rw [hc] at h
      simp only [] at h
      obtain ⟨wp2, hwp2, hc2⟩ := ih h
      exact ⟨wp2, List.mem_cons_of_mem wp hwp2, hc2⟩

/-- When the first two gates pass but the reference gate fails, the pipeline
stops with the reference error. -/
theorem scheduleProjectStarts_deps_error (p : Project) (lookup : List (String × NodeRef))
    (e : GErr) (h1 : validateUniqueWbs p = .ok lookup)
    (h2 : validateWbsHierarchy p = .ok ())
    (h3 : validateDependenciesExist p lookup = .error e) :
    scheduleProjectStarts p = .error e := by
  simp [scheduleProjectStarts, h1, h2, h3, bind, Except.bind]

/-- C7: a work package dependency id that is missing from the registered
lookup, or that resolves to a node which is not a WorkPackage, makes
`schedule_project` raise a `ProjectValidationError` naming an offending work
package and its genuinely bad reference, and the run returns no schedule. -/
theorem C7_bad_dependency_reference (p : Project)
    (hu : validateUniqueWbs p = .ok (regLookup p))
    (hh : validateWbsHierarchy p = .ok ())
    (wp : WP) (hwp : wp ∈ walkWorkPackages p) (d : String) (hd : d ∈ wp.dependsOn)
    (hbad : alget (regLookup p) d = none ∨
      ∃ r, alget (regLookup p) d = some r ∧ r.isWorkPackage = false) :
    ∃ w2 d2 e,
      scheduleProjectStarts p = .error e ∧
        scheduleProject p = .error e ∧
        GErr.errorClass e = .validation ∧
        ((alget (regLookup p) d2 = none ∧ e = .unknownDependency w2 d2) ∨
          (∃ r, alget (regLookup p) d2 = some r ∧ r.isWorkPackage = false ∧
            e = .nonWorkPackageDependency w2 d2)) ∧
        ∃ wp2 ∈ walkWorkPackages p, wp2.wbs = w2 ∧ d2 ∈ wp2.dependsOn := by
  have hnotok : validateDependenciesExist p (regLookup p) ≠ .ok () := by
    intro hok
    have hall := (checkAllDeps_ok_iff (regLookup p) (walkWorkPackages p)).mp hok
    have hone := (checkDeps_ok_iff (regLookup p) wp.wbs wp.dependsOn).mp (hall wp hwp) d hd
    obtain ⟨r, hr, hwpk⟩ := hone
    rcases hbad with h1 | ⟨r2, hr2, hwpk2⟩
    · rw [h1] at hr; cases hr
    · rw [hr2] at hr
      cases hr
      rw [hwpk] at hwpk2
      cases hwpk2
  rcases exceptOk_unit_or_error (validateDependenciesExist p (regLookup p)) with hok | ⟨e, herr⟩
  · exact absurd hok hnotok
  · obtain ⟨wp2, hwp2, hcd⟩ := checkAllDeps_err (regLookup p) (walkWorkPackages p) e herr
    obtain ⟨d2, hd2, hcase⟩ := checkDeps_err (regLookup p) wp2.wbs wp2.dependsOn e hcd
    have hrun : scheduleProjectStarts p = .error e :=
      scheduleProjectStarts_deps_error p (regLookup p) e hu hh herr
    refine ⟨wp2.wbs, d2, e, hrun, ?_, ?_, hcase, wp2, hwp2, rfl, hd2⟩
    · simp [scheduleProject, hrun, Except.map]
    · rcases hcase with ⟨_, he⟩ | ⟨_, _, _, he⟩ <;> subst he <;> rfl

theorem C7_witness :
    ∃ w2 d2 e,
      scheduleProjectStarts missingDepProject = .error e ∧
        scheduleProject missingDepProject = .error e ∧
        GErr.errorClass e = .validation ∧
        ((alget (regLookup missingDepProject) d2 = none ∧ e = .unknownDependency w2 d2) ∨
          (∃ r, alget (regLookup missingDepProject) d2 = some r ∧ r.isWorkPackage = false ∧
            e = .nonWorkPackageDependency w2 d2)) ∧
        ∃ wp2 ∈ walkWorkPackages missingDepProject, wp2.wbs = w2 ∧ d2 ∈ wp2.dependsOn :=
  C7_bad_dependency_reference missingDepProject rfl rfl
    { wbs := "0.1.1", name := "A", durationDays := 1, dependsOn := ["missing"] }
    (by decide) "missing" (by decide) (Or.inl rfl)


/-! ### C8: group and phase spans -/

theorem spanStartCandidates_eq_filterMap (items : List WBSItem) :
    spanStartCandidates items = items.filterMap WBSItem.spanStart := by
  induction items with
  | nil => rfl
  | cons i rest ih =>
    simp only [spanStartCandidates, List.filterMap_cons]
    cases h : WBSItem.spanStart i <;> simp [ih]

theorem spanFinishCandidates_eq_filterMap (items : List WBSItem) :
    spanFinishCandidates items = items.filterMap WBSItem.spanFinish := by
  induction items with
  | nil => rfl
  | cons i rest ih =>
    simp only [spanFinishCandidates, List.filterMap_cons]
    cases h : WBSItem.spanFinish i <;> simp [ih]

/-- Characterization of the minimum of a resolved-span candidate list. -/
theorem intList_min?_spec (l : List Int) (v : Int) (h : l.min? = some v) :
    v ∈ l ∧ ∀ u ∈ l, v ≤ u := by
  haveI : Std.Antisymm (fun x1 x2 : Int => x1 ≤ x2) :=
    ⟨fun h1 h2 => Int.le_antisymm h1 h2⟩
  exact (List.min?_eq_some_iff Int.le_refl min_choice (fun a b c => le_min_iff)).mp h

theorem intList_max?_spec (l : List Int) (v : Int) (h : l.max? = some v) :
    v ∈ l ∧ ∀ u ∈ l, u ≤ v := by
  haveI : Std.Antisymm (fun x1 x2 : Int => x1 ≤ x2) :=
    ⟨fun h1 h2 => Int.le_antisymm h1 h2⟩
  exact (List.max?_eq_some_iff Int.le_refl max_choice (fun a b c => max_le_iff)).mp h

/-- The span characterization of one aggregate item list: `none` exactly when
no child has a resolved span, else the min (resp. max) over the children's
resolved spans. -/
theorem spanSpec_of_items (its : List WBSItem) :
    ((spanStartCandidates its).min? = none ↔ ∀ c ∈ its, c.spanStart = none) ∧
      (∀ v, (spanStartCandidates its).min? = some v →
        (∃ c ∈ its, c.spanStart = some v) ∧
          ∀ c ∈ its, ∀ u, c.spanStart = some u → v ≤ u) ∧
      ((spanFinishCandidates its).max? = none ↔ ∀ c ∈ its, c.spanFinish = none) ∧
      (∀ v, (spanFinishCandidates its).max? = some v →
        (∃ c ∈ its, c.spanFinish = some v) ∧
          ∀ c ∈ its, ∀ u, c.spanFinish = some u → u ≤ v) := by
  rw [spanStartCandidates_eq_filterMap, spanFinishCandidates_eq_filterMap]
  refine ⟨?_, ?_, ?_, ?_⟩
  · rw [List.min?_eq_none_iff, List.filterMap_eq_nil_iff]
  · intro v h
    obtain ⟨hmem, hle⟩ := intList_min?_spec _ v h
    obtain ⟨c, hc, hcs⟩ := List.mem_filterMap.mp hmem
    refine ⟨⟨c, hc, hcs⟩, ?_⟩
    intro c2 hc2 u hu
    exact hle u (List.mem_filterMap.mpr ⟨c2, hc2, hu⟩)
  · rw [List.max?_eq_none_iff, List.filterMap_eq_nil_iff]
  · intro v h
    obtain ⟨hmem, hle⟩ := intList_max?_spec _ v h
    obtain ⟨c, hc, hcs⟩ := List.mem_filterMap.mp hmem
    refine ⟨⟨c, hc, hcs⟩, ?_⟩
    intro c2 hc2 u hu
    exact hle u (List.mem_filterMap.mpr ⟨c2, hc2, hu⟩)

/-- C8: after a successful scheduling run, every Task node and every Phase of
the returned tree has span `(min of children's resolved span-starts, max of
children's resolved span-finishes)`, both boundaries `none` exactly when no
child has a resolved span; the aggregation is total, so undefined spans
propagate upward without any error. -/
theorem C8_spans_after_scheduling (p : Project) (st : String → Option Int)
    (hok : scheduleProjectStarts p = .ok st) :
    scheduleProject p = .ok (applyStarts p st) ∧
      (∀ i ∈ walkItems ((applyStarts p st).phases.flatMap (fun ph => ph.items)),
        ∀ w n its, i = .task w n its →
          (WBSItem.spanStart i = none ↔ ∀ c ∈ its, c.spanStart = none) ∧
            (∀ v, WBSItem.spanStart i = some v →
              (∃ c ∈ its, c.spanStart = some v) ∧
                ∀ c ∈ its, ∀ u, c.spanStart = some u → v ≤ u) ∧
            (WBSItem.spanFinish i = none ↔ ∀ c ∈ its, c.spanFinish = none) ∧
            (∀ v, WBSItem.spanFinish i = some v →
              (∃ c ∈ its, c.spanFinish = some v) ∧
                ∀ c ∈ its, ∀ u, c.spanFinish = some u → u ≤ v)) ∧
      (∀ ph ∈ (applyStarts p st).phases,
        (Phase.spanStart ph = none ↔ ∀ c ∈ ph.items, c.spanStart = none) ∧
          (∀ v, Phase.spanStart ph = some v →
            (∃ c ∈ ph.items, c.spanStart = some v) ∧
              ∀ c ∈ ph.items, ∀ u, c.spanStart = some u → v ≤ u) ∧
          (Phase.spanFinish ph = none ↔ ∀ c ∈ ph.items, c.spanFinish = none) ∧
          (∀ v, Phase.spanFinish ph = some v →
            (∃ c ∈ ph.items, c.spanFinish = some v) ∧
              ∀ c ∈ ph.items, ∀ u, c.spanFinish = some u → u ≤ v)) := by
  refine ⟨by simp [scheduleProject, hok, Except.map], ?_, ?_⟩
  · intro i hi w n its heq
    subst heq
    simpa [WBSItem.spanStart, WBSItem.spanFinish] using spanSpec_of_items its
  · intro ph hph
    simpa [Phase.spanStart, Phase.spanFinish] using spanSpec_of_items ph.items

theorem C8_witness :
    runTaskSpan spanProject "0.1" =
        some (some (civilToDays 2024 1 1), some (civilToDays 2024 1 5)) ∧
      civilToDays 2024 1 5 = civilToDays 2024 1 1 + 4 ∧
      (∃ st, scheduleProjectStarts spanProject = .ok st ∧
        scheduleProject spanProject = .ok (applyStarts spanProject st)) := by
  refine ⟨by decide, by decide, ?_⟩
  have h : scheduleProjectStarts spanProject =
      .ok (match scheduleProjectStarts spanProject with
           | .ok st => st
           | .error _ => initStarts (walkWorkPackages spanProject)) := by
    rfl
  exact ⟨_, h, (C8_spans_after_scheduling spanProject _ h).1⟩


/-! ### C1/C2: date resolution -/

theorem collectDepFinishes_ok (lookup : String → Option WP) (starts : String → Option Int)
    (w : String) :
    ∀ (ds : List String) (l : List (String × Int)),
      collectDepFinishes lookup starts w ds = .ok l →
      l.map Prod.fst = ds ∧ ∀ pr ∈ l, finishNow lookup starts pr.1 = some pr.2 := by
  intro ds
  induction ds with
  | nil =>
    intro l h
    cases h
    exact ⟨rfl, by intro pr hpr; cases hpr⟩
  | cons d rest ih =>
    intro l h
    simp only [collectDepFinishes] at h
    cases hf : finishNow lookup starts d with
    | none => rw [hf] at h; cases h
    | some f =>
      rw [hf] at h
      simp only [bind, Except.bind] at h
      cases hr : collectDepFinishes lookup starts w rest with
      | error e => rw [hr] at h; cases h
      | ok l2 =>
        rw [hr] at h
        simp only [] at h
        have hl : (d, f) :: l2 = l := by injection h
        subst hl
        obtain ⟨hmap, hall⟩ := ih l2 hr
        refine ⟨by simp [hmap], ?_⟩
        intro pr hpr
        rcases List.mem_cons.mp hpr with h1 | h2
        · subst h1; exact hf
        · exact hall pr h2

theorem maxByFinish_snd_ge : ∀ (ps : List (String × Int)) (best : String × Int),
    best.2 ≤ (maxByFinish best ps).2 ∧ ∀ q ∈ ps, q.2 ≤ (maxByFinish best ps).2 := by
  intro ps
  induction ps with
  | nil => intro best; exact ⟨le_refl _, by intro q hq; cases hq⟩
  | cons p rest ih =>
    intro best
    simp only [maxByFinish]
    by_cases hgt : p.2 > best.2
    · simp only [hgt, if_pos]
      obtain ⟨h1, h2⟩ := ih p
      refine ⟨le_trans (le_of_lt hgt) h1, ?_⟩
      intro q hq
      rcases List.mem_cons.mp hq with hq1 | hq2
      · subst hq1; exact h1
      · exact h2 q hq2
    · simp only [hgt, if_neg, not_false_iff]
      obtain ⟨h1, h2⟩ := ih best
      refine ⟨h1, ?_⟩
      intro q hq
      rcases List.mem_cons.mp hq with hq1 | hq2
      · subst hq1; exact le_trans (le_of_not_lt hgt) h1
      · exact h2 q hq2

/-- Python's `max(..., key=...)` keeps the first-listed element among those
with the maximal key: the chosen pair splits the list with every earlier pair
strictly smaller. -/
theorem maxByFinish_first : ∀ (ps : List (String × Int)) (best : String × Int),
    ∃ pre post, best :: ps = pre ++ maxByFinish best ps :: post ∧
      ∀ q ∈ pre, q.2 < (maxByFinish best ps).2 := by
  intro ps
  induction ps with
  | nil => intro best; exact ⟨[], [], rfl, by intro q hq; cases hq⟩
  | cons p rest ih =>
    intro best
    simp only [maxByFinish]
    by_cases hgt : p.2 > best.2
    · simp only [hgt, if_pos]
      obtain ⟨pre, post, hsplit, hpre⟩ := ih p
      refine ⟨best :: pre, post, by rw [List.cons_append, ← hsplit], ?_⟩
      intro q hq
      rcases List.mem_cons.mp hq with hq1 | hq2
      · subst hq1
        exact lt_of_lt_of_le hgt (maxByFinish_snd_ge rest p).1
      · exact hpre q hq2
    · simp only [hgt, if_neg, not_false_iff]
      obtain ⟨pre, post, hsplit, hpre⟩ := ih best
      obtain ⟨m, hm⟩ : ∃ m, maxByFinish best rest = m := ⟨_, rfl⟩
      rw [hm] at hsplit hpre ⊢
      cases pre with
      | nil =>
        simp only [List.nil_append] at hsplit
        have hhead : m = best := by injection hsplit with h1 _; exact h1.symm
        refine ⟨[], p :: rest, ?_, by intro q hq; cases hq⟩
        rw [List.nil_append, hhead]
      | cons b pre2 =>
        rw [List.cons_append] at hsplit
        have hb : b = best := by injection hsplit with h1 _; exact h1.symm
        rw [hb] at hsplit hpre
        have htail : rest = pre2 ++ m :: post := by injection hsplit
        refine ⟨best :: p :: pre2, post, ?_, ?_⟩
        · rw [htail]
          simp
        · intro q hq
          rcases List.mem_cons.mp hq with hq1 | hq2
          · rw [hq1]
            exact hpre best (List.mem_cons_self best pre2)
          · rcases List.mem_cons.mp hq2 with hq3 | hq4
            · rw [hq3]
              exact lt_of_le_of_lt (le_of_not_lt hgt) (hpre best (List.mem_cons_self best pre2))
            · exact hpre q (List.mem_cons_of_mem best hq4)

theorem maxByFinish_mem : ∀ (ps : List (String × Int)) (best : String × Int),
    maxByFinish best ps ∈ best :: ps := by
  intro ps best
  obtain ⟨pre, post, hsplit, _⟩ := maxByFinish_first ps best
  rw [hsplit]
  simp

/-- A successful step never erases a resolved start date. -/
theorem scheduleStep_mono (lookup : String → Option WP) (starts starts' : String → Option Int)
    (wp : WP) (h : scheduleStep lookup starts wp = .ok starts') :
    ∀ w v, starts w = some v → starts' w = some v := by
  intro w v hw
  unfold scheduleStep at h
  split at h
  · cases h
  · split at h
    · cases h; exact hw
    · simp only [bind, Except.bind] at h
      split at h
      · cases h
      · rename_i l hl
        split at h
        · cases h; exact hw
        · split at h
          · rename_i hnone
            cases h
            simp only [fupd]
            by_cases hwe : w == wp.wbs
            · rw [eq_of_beq hwe] at hw
              rw [hw] at hnone; cases hnone
            · simp [hwe, hw]
          · split at h
            · cases h
            · cases h; exact hw

/-- A successful step changes at most its own package's start date. -/
theorem scheduleStep_frame (lookup : String → Option WP) (starts starts' : String → Option Int)
    (wp : WP) (h : scheduleStep lookup starts wp = .ok starts') :
    ∀ w, w ≠ wp.wbs → starts' w = starts w := by
  intro w hw
  unfold scheduleStep at h
  split at h
  · cases h
  · split at h
    · cases h; rfl
    · simp only [bind, Except.bind] at h
      split at h
      · cases h
      · split at h
        · cases h; rfl
        · split at h
          · cases h
            simp only [fupd]
            have : (w == wp.wbs) = false := by
              simp [hw]
            simp [this]
          · split at h
            · cases h
            · cases h; rfl

theorem scheduleWPs_mono (lookup : String → Option WP) :
    ∀ (order : List WP) (starts stF : String → Option Int),
      scheduleWPs lookup order starts = .ok stF →
      ∀ w v, starts w = some v → stF w = some v := by
  intro order
  induction order with
  | nil => intro starts stF h w v hw; cases h; exact hw
  | cons hd rest ih =>
    intro starts stF h w v hw
    rw [scheduleWPs_cons] at h
    cases hstep : scheduleStep lookup starts hd with
    | error e => rw [hstep] at h; cases h
    | ok starts1 =>
      rw [hstep] at h
      simp only [Except.bind] at h
      exact ih starts1 stF h w v (scheduleStep_mono lookup starts starts1 hd hstep w v hw)

/-- Resolved finishes are stable under the run. -/
theorem finishNow_mono (lookup : String → Option WP) (starts stF : String → Option Int)
    (hmono : ∀ w v, starts w = some v → stF w = some v) (d : String) (f : Int)
    (h : finishNow lookup starts d = some f) : finishNow lookup stF d = some f := by
  simp only [finishNow] at h ⊢
  cases hs : starts d with
  | none => rw [hs] at h; cases h
  | some sv =>
    rw [hs] at h
    rw [hmono d sv hs]
    exact h

/-- What a successful step on a package with dependencies did: its duration is
positive, every dependency finish was resolved, and the start was either
inferred as exactly the chosen maximal finish or kept (necessarily at or after
it). -/
theorem scheduleStep_ok_deps (lookup : String → Option WP) (starts starts' : String → Option Int)
    (wp : WP) (h : scheduleStep lookup starts wp = .ok starts') (hne : wp.dependsOn ≠ []) :
    0 < wp.durationDays ∧
      ∃ q qs, collectDepFinishes lookup starts wp.wbs wp.dependsOn = .ok (q :: qs) ∧
        ((starts wp.wbs = none ∧ starts' = fupd starts wp.wbs (some (maxByFinish q qs).2)) ∨
          (∃ stv, starts wp.wbs = some stv ∧ (maxByFinish q qs).2 ≤ stv ∧ starts' = starts)) := by
  unfold scheduleStep at h
  split at h
  · cases h
  · rename_i hdur
    split at h
    · rename_i hemp
      exact absurd (List.isEmpty_iff.mp hemp) hne
    · simp only [bind, Except.bind] at h
      refine ⟨lt_of_not_le hdur, ?_⟩
      cases hl : collectDepFinishes lookup starts wp.wbs wp.dependsOn with
      | error e => rw [hl] at h; cases h
      | ok l =>
        rw [hl] at h
        simp only [] at h
        cases l with
        | nil =>
          obtain ⟨hmap, _⟩ := collectDepFinishes_ok lookup starts wp.wbs wp.dependsOn [] hl
          exact absurd hmap.symm hne
        | cons q qs =>
          refine ⟨q, qs, rfl, ?_⟩
          cases hsw : starts wp.wbs with
          | none =>
            rw [hsw] at h
            simp only [] at h
            cases h
            exact Or.inl ⟨rfl, rfl⟩
          | some stv =>
            rw [hsw] at h
            simp only [] at h
            split at h
            · cases h
            · rename_i hlt
              cases h
              exact Or.inr ⟨stv, rfl, le_of_not_lt hlt, rfl⟩

/-- The precedence-violation raise site, with its exact report. -/
theorem scheduleStep_violation (lookup : String → Option WP) (starts : String → Option Int)
    (wp : WP) (q : String × Int) (qs : List (String × Int)) (stv : Int)
    (hdur : ¬ wp.durationDays ≤ 0)
    (hl : collectDepFinishes lookup starts wp.wbs wp.dependsOn = .ok (q :: qs))
    (hst : starts wp.wbs = some stv) (hlt : stv < (maxByFinish q qs).2) :
    scheduleStep lookup starts wp =
      .error (.startBeforePredecessorFinish wp.wbs stv (maxByFinish q qs).1 (maxByFinish q qs).2) := by
  have hne : ¬ wp.dependsOn.isEmpty := by
    obtain ⟨hmap, _⟩ := collectDepFinishes_ok lookup starts wp.wbs wp.dependsOn (q :: qs) hl
    intro hemp
    rw [List.isEmpty_iff.mp hemp] at hmap
    cases hmap
  simp only [scheduleStep, hdur, if_neg, not_false_iff, hne, bind, Except.bind, hl, hst, hlt,
    if_pos]
  simp


theorem maxByFinish_foldl : ∀ (qs : List (String × Int)) (q : String × Int),
    qs.foldl (fun a pr => max a pr.2) q.2 = (maxByFinish q qs).2 := by
  intro qs
  induction qs with
  | nil => intro q; rfl
  | cons p rest ih =>
    intro q
    simp only [List.foldl_cons, maxByFinish]
    by_cases hgt : p.2 > q.2
    · simp only [hgt, if_pos]
      rw [← ih p]
      congr 1
      exact max_eq_right (le_of_lt hgt)
    · simp only [hgt, if_neg, not_false_iff]
      rw [← ih q]
      congr 1
      exact max_eq_left (le_of_not_lt hgt)

/-- The chosen finish is the maximum of the collected finish list. -/
theorem maxByFinish_max? (q : String × Int) (qs : List (String × Int)) :
    ((q :: qs).map Prod.snd).max? = some (maxByFinish q qs).2 := by
  rw [List.map_cons, List.max?_cons', List.foldl_map, maxByFinish_foldl]

/-- The final finish list of a package's dependencies, written against the
final start map, coincides with the one collected at processing time. -/
theorem depsFinish_final (lookup : String → Option WP) (starts stF : String → Option Int)
    (l : List (String × Int)) (deps : List String)
    (hmap : l.map Prod.fst = deps)
    (hall : ∀ pr ∈ l, finishNow lookup starts pr.1 = some pr.2)
    (hmono : ∀ w v, starts w = some v → stF w = some v) :
    deps.map (finishNow lookup stF) = (l.map Prod.snd).map some := by
  subst hmap
  rw [List.map_map, List.map_map]
  apply List.map_congr_left
  intro pr hpr
  exact finishNow_mono lookup starts stF hmono pr.1 pr.2 (hall pr hpr)

/-- Core run property, lower bound: after a successful
`_schedule_work_packages` pass, every processed package with dependencies has
a resolved start at or after every final dependency finish. -/
theorem scheduleWPs_run_ge (lookup : String → Option WP) :
    ∀ (order : List WP) (starts stF : String → Option Int),
      scheduleWPs lookup order starts = .ok stF →
      ∀ wp ∈ order, wp.dependsOn ≠ [] →
        ∃ (fins : List Int) (stv : Int),
          wp.dependsOn.map (finishNow lookup stF) = fins.map some ∧
            stF wp.wbs = some stv ∧ ∀ f ∈ fins, f ≤ stv := by
  intro order
  induction order with
  | nil => intro _ _ _ wp hmem; cases hmem
  | cons hd rest ih =>
    intro starts stF hrun wp hmem hne
    rw [scheduleWPs_cons] at hrun
    cases hstep : scheduleStep lookup starts hd with
    | error e => rw [hstep] at hrun; cases hrun
    | ok starts1 =>
      rw [hstep] at hrun
      simp only [Except.bind] at hrun
      have hmono1 := scheduleStep_mono lookup starts starts1 hd hstep
      have hmonoR := scheduleWPs_mono lookup rest starts1 stF hrun
      have hmonoF : ∀ w v, starts w = some v → stF w = some v :=
        fun w v hw => hmonoR w v (hmono1 w v hw)
      rcases List.mem_cons.mp hmem with heq | htail
      · subst heq
        obtain ⟨hdur, q, qs, hcol, hbranch⟩ :=
          scheduleStep_ok_deps lookup starts starts1 wp hstep hne
        obtain ⟨hmap, hall⟩ := collectDepFinishes_ok lookup starts wp.wbs wp.dependsOn _ hcol
        have hfins := depsFinish_final lookup starts stF _ _ hmap hall hmonoF
        have hboundall : ∀ f ∈ (q :: qs).map Prod.snd, f ≤ (maxByFinish q qs).2 := by
          intro f hf
          obtain ⟨pr, hpr, hpr2⟩ := List.mem_map.mp hf
          rw [← hpr2]
          rcases List.mem_cons.mp hpr with h1 | h2
          · rw [h1]; exact (maxByFinish_snd_ge qs q).1
          · exact (maxByFinish_snd_ge qs q).2 pr h2
        rcases hbranch with ⟨hnone, hupd⟩ | ⟨stv, hsome, hle, hkeep⟩
        · refine ⟨(q :: qs).map Prod.snd, (maxByFinish q qs).2, hfins, ?_, hboundall⟩
          apply hmonoR
          rw [hupd]
          simp [fupd]
        · exact ⟨(q :: qs).map Prod.snd, stv, hfins, hmonoF wp.wbs stv hsome,
            fun f hf => le_trans (hboundall f hf) hle⟩
      · exact ih starts1 stF hrun wp htail hne

/-- Core run property, exact inference: with duplicate-free wbs codes, a
package with dependencies whose start is unresolved when scheduling begins
ends with its start equal to exactly the maximum of its final dependency
finishes. -/
theorem scheduleWPs_run_eq (lookup : String → Option WP) :
    ∀ (order : List WP) (starts stF : String → Option Int),
      (order.map WP.wbs).Nodup →
      scheduleWPs lookup order starts = .ok stF →
      ∀ wp ∈ order, wp.dependsOn ≠ [] → starts wp.wbs = none →
        ∃ (fins : List Int),
          wp.dependsOn.map (finishNow lookup stF) = fins.map some ∧
            stF wp.wbs = fins.max? := by
  intro order
  induction order with
  | nil => intro _ _ _ _ wp hmem; cases hmem
  | cons hd rest ih =>
    intro starts stF hnd hrun wp hmem hne hnone
    have hnd2 : hd.wbs ∉ rest.map WP.wbs ∧ (rest.map WP.wbs).Nodup := by
      rw [List.map_cons] at hnd
      exact List.nodup_cons.mp hnd
    obtain ⟨hnotin, hndrest⟩ := hnd2
    rw [scheduleWPs_cons] at hrun
    cases hstep : scheduleStep lookup starts hd with
    | error e => rw [hstep] at hrun; cases hrun
    | ok starts1 =>
      rw [hstep] at hrun
      simp only [Except.bind] at hrun
      have hmono1 := scheduleStep_mono lookup starts starts1 hd hstep
      have hmonoR := scheduleWPs_mono lookup rest starts1 stF hrun
      have hmonoF : ∀ w v, starts w = some v → stF w = some v :=
        fun w v hw => hmonoR w v (hmono1 w v hw)
      rcases List.mem_cons.mp hmem with heq | htail
      · subst heq
        obtain ⟨hdur, q, qs, hcol, hbranch⟩ :=
          scheduleStep_ok_deps lookup starts starts1 wp hstep hne
        obtain ⟨hmap, hall⟩ := collectDepFinishes_ok lookup starts wp.wbs wp.dependsOn _ hcol
        have hfins := depsFinish_final lookup starts stF _ _ hmap hall hmonoF
        rcases hbranch with ⟨_, hupd⟩ | ⟨stv, hsome, _, _⟩
        · refine ⟨(q :: qs).map Prod.snd, hfins, ?_⟩
          rw [maxByFinish_max? q qs]
          apply hmonoR
          rw [hupd]
          simp [fupd]
        · rw [hnone] at hsome; cases hsome
      · have hdw : hd.wbs ≠ wp.wbs := by
          intro heq2
          apply hnotin
          rw [heq2]
          exact List.mem_map_of_mem WP.wbs htail
        have hs1 : starts1 wp.wbs = none := by
          rw [scheduleStep_frame lookup starts starts1 hd hstep wp.wbs (fun h2 => hdw h2.symm)]
          exact hnone
        exact ih starts1 stF hndrest hrun wp htail hne hs1


/-! ### The Kahn loop invariant -/

theorem dependentsOf_subset (wps : List WP) (x : String) :
    ∀ c ∈ dependentsOf wps x, c ∈ wps.map WP.wbs := by
  intro c hc
  simp only [dependentsOf, List.mem_flatMap, List.mem_map] at hc
  obtain ⟨wp, hwp, _, _, hcw⟩ := hc
  exact List.mem_map.mpr ⟨wp, hwp, hcw⟩

theorem contains_true_iff (l : List String) (d : String) : l.contains d = true ↔ d ∈ l := by
  show List.elem d l = true ↔ d ∈ l
  simp [List.elem_eq_mem]

theorem contains_false_iff (l : List String) (d : String) : l.contains d = false ↔ d ∉ l := by
  rw [← Bool.not_eq_true, not_iff_not]
  exact contains_true_iff l d

theorem count_map_const (l : List String) (a c : String) :
    (l.map (fun _ => a)).count c = if a == c then l.length else 0 := by
  rw [List.map_const', List.count_replicate]

theorem count_zero_of_not_mem (l : List String) (c : String) (h : c ∉ l) : l.count c = 0 :=
  List.count_eq_zero.mpr h

/-- Counting with multiplicity: the occurrences of `c` among the dependents of
`u` are exactly the occurrences of `u` in `c`'s dependency list (keys are
duplicate-free). -/
theorem dependentsOf_count (wps : List WP) (hnd : (wps.map WP.wbs).Nodup) (u c : String) :
    (dependentsOf wps u).count c = ((depsOfWbs wps c).filter (fun d => d == u)).length := by
  induction wps with
  | nil => simp [dependentsOf, depsOfWbs]
  | cons wp rest ih =>
    have hnd2 : wp.wbs ∉ rest.map WP.wbs ∧ (rest.map WP.wbs).Nodup := by
      rw [List.map_cons] at hnd
      exact List.nodup_cons.mp hnd
    obtain ⟨hnotin, hndrest⟩ := hnd2
    have hsplit : dependentsOf (wp :: rest) u =
        ((wp.dependsOn.filter (fun d => d == u)).map (fun _ => wp.wbs)) ++ dependentsOf rest u := by
      simp [dependentsOf]
    rw [hsplit, List.count_append, count_map_const]
    by_cases hc : wp.wbs = c
    · subst hc
      have hrest0 : (dependentsOf rest u).count wp.wbs = 0 := by
        apply count_zero_of_not_mem
        intro hmem
        exact hnotin (dependentsOf_subset rest u wp.wbs hmem)
      rw [hrest0]
      have hdw : depsOfWbs (wp :: rest) wp.wbs = wp.dependsOn := by
        simp [depsOfWbs]
      rw [hdw]
      simp
    · have hbeq : (wp.wbs == c) = false := by simpa using hc
      rw [hbeq]
      have hdw : depsOfWbs (wp :: rest) c = depsOfWbs rest c := by
        simp [depsOfWbs, List.find?_cons, hbeq]
      rw [hdw, ← ih hndrest]
      simp

/-- Removing a fresh code from the not-yet-processed filter accounts exactly
for that code's occurrences. -/
theorem filter_append_u (l : List String) (res : List String) (u : String) (hu : u ∉ res) :
    (l.filter (fun d => !(res ++ [u]).contains d)).length +
        (l.filter (fun d => d == u)).length =
      (l.filter (fun d => !res.contains d)).length := by
  induction l with
  | nil => rfl
  | cons d rest ih =>
    by_cases hdu : d = u
    · subst hdu
      have h1 : ((res ++ [d]).contains d) = true := by
        rw [contains_true_iff]
        simp
      have h2 : (res.contains d) = false := by
        rw [contains_false_iff]
        exact hu
      simp only [List.filter_cons, h1, h2, Bool.not_true, Bool.not_false, beq_self_eq_true,
        Bool.false_eq_true, if_false, if_pos, List.length_cons]
      omega
    · have hbeq : (d == u) = false := by simpa using hdu
      have h1 : ((res ++ [u]).contains d) = (res.contains d) := by
        cases hdr : res.contains d with
        | true =>
          rw [contains_true_iff] at hdr ⊢
          simp [hdr]
        | false =>
          rw [contains_false_iff] at hdr ⊢
          simp only [List.mem_append, List.mem_singleton]
          intro hmem
          rcases hmem with h | h
          · exact hdr h
          · exact hdu h
      simp only [List.filter_cons, h1, hbeq, Bool.false_eq_true, if_false]
      cases hcr : (res.contains d) with
      | true => simpa using ih
      | false =>
        simp only [Bool.not_false, if_pos, List.length_cons]
        omega

/-- What one pass of the dependent-decrement loop does to the indegrees and
the queue. -/
theorem kahnChildren_spec :
    ∀ (L : List String) (indeg : String → Int) (queue : List String),
      (∀ c, (kahnChildren indeg queue L).1 c = indeg c - (L.count c : Int)) ∧
        (∀ c, c ∈ (kahnChildren indeg queue L).2 ↔
          c ∈ queue ∨ (1 ≤ indeg c ∧ indeg c ≤ (L.count c : Int))) ∧
        (queue.Nodup → (∀ c ∈ queue, indeg c ≤ 0 ∨ (L.count c : Int) < indeg c) →
          (kahnChildren indeg queue L).2.Nodup) := by
  intro L
  induction L with
  | nil =>
    intro indeg queue
    refine ⟨fun c => by simp [kahnChildren], fun c => ?_, fun h _ => h⟩
    simp only [kahnChildren, List.count_nil]
    constructor
    · exact fun h => Or.inl h
    · intro h
      rcases h with h | ⟨h1, h2⟩
      · exact h
      · omega
  | cons e es ih =>
    intro indeg queue
    have hstep : kahnChildren indeg queue (e :: es) =
        kahnChildren (fupd indeg e (indeg e - 1))
          (if fupd indeg e (indeg e - 1) e == 0 then queue ++ [e] else queue) es := rfl
    rw [hstep]
    obtain ⟨ih1, ih2, ih3⟩ := ih (fupd indeg e (indeg e - 1))
      (if fupd indeg e (indeg e - 1) e == 0 then queue ++ [e] else queue)
    have hfe : fupd indeg e (indeg e - 1) e = indeg e - 1 := by simp [fupd]
    have hfo : ∀ c, c ≠ e → fupd indeg e (indeg e - 1) c = indeg c := by
      intro c hc
      simp only [fupd]
      have hb : (c == e) = false := by simpa using hc
      simp [hb]
    have hcnt : ∀ c : String, ((e :: es).count c : Int) =
        (es.count c : Int) + (if c = e then 1 else 0) := by
      intro c
      rw [List.count_cons]
      by_cases hce : c = e
      · have : (e == c) = true := by subst hce; simp
        rw [this]
        simp [hce]
      · have : (e == c) = false := by simpa using fun h => hce h.symm
        rw [this]
        simp [hce]
    refine ⟨?_, ?_, ?_⟩
    · intro c
      rw [ih1 c, hcnt c]
      by_cases hce : c = e
      · rw [hce, hfe]
        simp [hce]
        omega
      · rw [hfo c hce]
        simp [hce]
    · intro c
      rw [ih2 c, hcnt c]
      have hqmem : ∀ x : String,
          (x ∈ (if fupd indeg e (indeg e - 1) e == 0 then queue ++ [e] else queue)) ↔
            (x ∈ queue ∨ (x = e ∧ indeg e = 1)) := by
        intro x
        by_cases hq : fupd indeg e (indeg e - 1) e = 0
        · have hqb : (fupd indeg e (indeg e - 1) e == 0) = true := by simpa using hq
          rw [hqb]
          rw [hfe] at hq
          simp only [if_pos, List.mem_append, List.mem_singleton]
          constructor
          · intro h
            rcases h with h | h
            · exact Or.inl h
            · exact Or.inr ⟨h, by omega⟩
          · intro h
            rcases h with h | ⟨h, _⟩
            · exact Or.inl h
            · exact Or.inr h
        · have hqb : (fupd indeg e (indeg e - 1) e == 0) = false := by simpa using hq
          rw [hqb]
          rw [hfe] at hq
          simp only [Bool.false_eq_true, if_false]
          constructor
          · exact fun h => Or.inl h
          · intro h
            rcases h with h | ⟨h, h2⟩
            · exact h
            · exfalso
              rw [h2] at hq
              exact hq (by omega)
      rw [hqmem c]
      by_cases hce : c = e
      · subst hce
        rw [hfe]
        constructor
        · intro h
          rcases h with (h | ⟨_, h2⟩) | ⟨h1, h2⟩
          · exact Or.inl h
          · right
            simp only [if_pos]
            constructor <;> omega
          · right
            simp only [if_pos]
            constructor <;> omega
        · intro h
          rcases h with h | ⟨h1, h2⟩
          · exact Or.inl (Or.inl h)
          · simp only [if_pos] at h2
            by_cases hone : indeg c = 1
            · exact Or.inl (Or.inr ⟨rfl, hone⟩)
            · right
              constructor <;> omega
      · rw [hfo c hce]
        simp only [hce, if_neg, not_false_iff]
        constructor
        · intro h
          rcases h with (h | ⟨h, _⟩) | ⟨h1, h2⟩
          · exact Or.inl h
          · exact h.elim
          · right
            constructor <;> omega
        · intro h
          rcases h with h | ⟨h1, h2⟩
          · exact Or.inl (Or.inl h)
          · right
            constructor <;> omega
    · intro hqnd hbound
      apply ih3
      · by_cases hq : fupd indeg e (indeg e - 1) e = 0
        · have hqb : (fupd indeg e (indeg e - 1) e == 0) = true := by simpa using hq
          rw [hqb]
          rw [hfe] at hq
          simp only [if_pos]
          apply List.Nodup.append hqnd (List.nodup_singleton e)
          intro x hx hx2
          rw [List.mem_singleton] at hx2
          subst hx2
          rcases hbound x hx with h | h
          · omega
          · rw [hcnt x] at h
            simp only [if_pos] at h
            omega
        · have hqb : (fupd indeg e (indeg e - 1) e == 0) = false := by simpa using hq
          rw [hqb]
          simp only [Bool.false_eq_true, if_false]
          exact hqnd
      · intro c hc
        have hcm : c ∈ queue ∨ (c = e ∧ indeg e = 1) := by
          by_cases hq : fupd indeg e (indeg e - 1) e = 0
          · have hqb : (fupd indeg e (indeg e - 1) e == 0) = true := by simpa using hq
            rw [hqb] at hc
            rw [hfe] at hq
            simp only [if_pos, List.mem_append, List.mem_singleton] at hc
            rcases hc with h | h
            · exact Or.inl h
            · exact Or.inr ⟨h, by omega⟩
          · have hqb : (fupd indeg e (indeg e - 1) e == 0) = false := by simpa using hq
            rw [hqb] at hc
            simp only [Bool.false_eq_true, if_false] at hc
            exact Or.inl hc
        rcases hcm with hcq | ⟨hceq, hone⟩
        · rcases hbound c hcq with h | h
          · left
            by_cases hce : c = e
            · rw [hce, hfe]
              rw [hce] at h
              omega
            · rw [hfo c hce]
              exact h
          · right
            rw [hcnt c] at h
            by_cases hce : c = e
            · rw [hce, hfe]
              rw [hce] at h
              simp only [if_pos] at h
              omega
            · rw [hfo c hce]
              simp only [hce, if_neg, not_false_iff] at h
              omega
        · left
          rw [hceq, hfe, hone]
          omega


theorem remainingDeps_nil (wps : List WP) (w : String) :
    remainingDeps wps [] w = (depsOfWbs wps w).length := by
  simp [remainingDeps]

theorem indeg0_eq_remainingDeps (wps : List WP) (w : String) :
    indeg0 wps w = (remainingDeps wps [] w : Int) := by
  rw [remainingDeps_nil]
  simp only [indeg0, depsOfWbs]
  cases h : wps.find? (fun wp => wp.wbs == w) <;> simp

theorem KahnInv_init (wps : List WP) (hnd : (wps.map WP.wbs).Nodup) :
    KahnInv wps ((wps.filter (fun wp => indeg0 wps wp.wbs == 0)).map (fun wp => wp.wbs)) []
      (indeg0 wps) := by
  refine ⟨?_, ?_, ?_, ?_⟩
  · simp only [List.nil_append]
    have hsub : List.Sublist ((wps.filter (fun wp => indeg0 wps wp.wbs == 0)).map (fun wp => wp.wbs))
        (wps.map WP.wbs) := List.Sublist.map _ (List.filter_sublist wps)
    exact hnd.sublist hsub
  · intro w hw
    simp only [List.nil_append, List.mem_map, List.mem_filter] at hw
    obtain ⟨wp, ⟨hwp, _⟩, hww⟩ := hw
    exact List.mem_map.mpr ⟨wp, hwp, hww⟩
  · intro w
    exact indeg0_eq_remainingDeps wps w
  · intro w hw
    simp only [List.nil_append]
    obtain ⟨wp, hwp, hww⟩ := List.mem_map.mp hw
    constructor
    · intro hmem
      simp only [List.mem_map, List.mem_filter] at hmem
      obtain ⟨wp2, ⟨hwp2, hz⟩, hww2⟩ := hmem
      have : indeg0 wps w = 0 := by
        rw [← hww2]
        simpa using hz
      have h2 := indeg0_eq_remainingDeps wps w
      omega
    · intro hrem
      refine List.mem_map.mpr ⟨wp, List.mem_filter.mpr ⟨hwp, ?_⟩, hww⟩
      have h2 := indeg0_eq_remainingDeps wps w
      rw [hrem] at h2
      rw [hww]
      simpa using h2

theorem KahnInv_step (wps : List WP) (hnd : (wps.map WP.wbs).Nodup)
    (u : String) (rest result : List String) (indeg : String → Int)
    (hinv : KahnInv wps (u :: rest) result indeg) :
    KahnInv wps (kahnChildren indeg rest (dependentsOf wps u)).2 (result ++ [u])
      (kahnChildren indeg rest (dependentsOf wps u)).1 := by
  obtain ⟨hndq, hmem, hind, hiff⟩ := hinv
  obtain ⟨K1, K2, K3⟩ := kahnChildren_spec (dependentsOf wps u) indeg rest
  have hmid : u ∉ result ++ rest ∧ (result ++ rest).Nodup := by
    have := List.nodup_middle.mp hndq
    exact List.nodup_cons.mp this
  obtain ⟨hu_not, hnd_rr⟩ := hmid
  have hu_notres : u ∉ result := fun h => hu_not (List.mem_append_left rest h)
  have hu_notrest : u ∉ rest := fun h => hu_not (List.mem_append_right result h)
  have hu_mem_q : u ∈ result ++ u :: rest := by
    apply List.mem_append_right
    exact List.mem_cons_self u rest
  have hu_w : u ∈ wps.map WP.wbs := hmem u hu_mem_q
  have hrem0 : ∀ w, w ∈ result ++ u :: rest → remainingDeps wps result w = 0 := by
    intro w hw
    exact (hiff w (hmem w hw)).mp hw
  have hremu : remainingDeps wps result u = 0 := hrem0 u hu_mem_q
  have hres_nodup : result.Nodup := (List.nodup_append.mp hnd_rr).1
  have hrest_nodup : rest.Nodup := (List.nodup_append.mp hnd_rr).2.1
  have hdisj : ∀ x ∈ result, x ∉ rest := fun x hx => (List.nodup_append.mp hnd_rr).2.2 hx
  have hremStep : ∀ w, remainingDeps wps (result ++ [u]) w +
      ((depsOfWbs wps w).filter (fun d => d == u)).length = remainingDeps wps result w := by
    intro w
    simp only [remainingDeps]
    exact filter_append_u (depsOfWbs wps w) result u hu_notres
  have hcountEq : ∀ c, (dependentsOf wps u).count c =
      ((depsOfWbs wps c).filter (fun d => d == u)).length :=
    fun c => dependentsOf_count wps hnd u c
  have hind' : ∀ w, (kahnChildren indeg rest (dependentsOf wps u)).1 w =
      (remainingDeps wps (result ++ [u]) w : Int) := by
    intro w
    rw [K1 w, hind w, hcountEq w]
    have := hremStep w
    omega
  have hq_bound : ∀ c ∈ rest, indeg c ≤ 0 ∨ ((dependentsOf wps u).count c : Int) < indeg c := by
    intro c hc
    left
    have h1 : remainingDeps wps result c = 0 :=
      hrem0 c (List.mem_append_right result (List.mem_cons_of_mem u hc))
    have h2 := hind c
    omega
  have hq_nodup : (kahnChildren indeg rest (dependentsOf wps u)).2.Nodup :=
    K3 hrest_nodup hq_bound
  have hnew_w : ∀ x, x ∈ (kahnChildren indeg rest (dependentsOf wps u)).2 →
      x ∈ wps.map WP.wbs := by
    intro x hx
    rcases (K2 x).mp hx with h | ⟨h1, h2⟩
    · exact hmem x (List.mem_append_right result (List.mem_cons_of_mem u h))
    · have hpos : 0 < (dependentsOf wps u).count x := by omega
      exact dependentsOf_subset wps u x (List.count_pos_iff.mp hpos)
  have hnew_notold : ∀ x, x ∈ (kahnChildren indeg rest (dependentsOf wps u)).2 →
      x ∉ result ++ [u] := by
    intro x hx hxm
    rcases (K2 x).mp hx with h | ⟨h1, _⟩
    · rcases List.mem_append.mp hxm with hr | hu2
      · exact hdisj x hr h
      · rw [List.mem_singleton] at hu2
        subst hu2
        exact hu_notrest h
    · have hrem : remainingDeps wps result x ≠ 0 := by
        have := hind x
        omega
      apply hrem
      apply hrem0
      rcases List.mem_append.mp hxm with hr | hu2
      · exact List.mem_append_left _ hr
      · rw [List.mem_singleton] at hu2
        subst hu2
        exact List.mem_append_right result (List.mem_cons_self x rest)
  refine ⟨?_, ?_, hind', ?_⟩
  · rw [List.nodup_append]
    refine ⟨?_, hq_nodup, ?_⟩
    · rw [List.nodup_append]
      refine ⟨hres_nodup, List.nodup_singleton u, ?_⟩
      intro x hx hx2
      rw [List.mem_singleton] at hx2
      subst hx2
      exact hu_notres hx
    · intro x hx hx2
      exact hnew_notold x hx2 hx
  · intro w hw
    rcases List.mem_append.mp hw with h1 | h2
    · rcases List.mem_append.mp h1 with hr | hu2
      · exact hmem w (List.mem_append_left _ hr)
      · rw [List.mem_singleton] at hu2
        subst hu2
        exact hu_w
    · exact hnew_w w h2
  · intro w hw
    constructor
    · intro hmem2
      rcases List.mem_append.mp hmem2 with h1 | h2
      · have hold : remainingDeps wps result w = 0 := by
          apply hrem0
          rcases List.mem_append.mp h1 with hr | hu2
          · exact List.mem_append_left _ hr
          · rw [List.mem_singleton] at hu2
            subst hu2
            exact hu_mem_q
        have := hremStep w
        omega
      · rcases (K2 w).mp h2 with h | ⟨h1, h2b⟩
        · have hold : remainingDeps wps result w = 0 :=
            hrem0 w (List.mem_append_right result (List.mem_cons_of_mem u h))
          have := hremStep w
          omega
        · have := hremStep w
          have h3 := hind w
          have h4 := hcountEq w
          omega
    · intro hrem
      by_cases hold : remainingDeps wps result w = 0
      · have hmemold : w ∈ result ++ u :: rest := (hiff w hw).mpr hold
        rcases List.mem_append.mp hmemold with hr | hur
        · exact List.mem_append_left _ (List.mem_append_left _ hr)
        · rcases List.mem_cons.mp hur with he | hrest
          · subst he
            exact List.mem_append_left _ (List.mem_append_right result (List.mem_singleton.mpr rfl))
          · apply List.mem_append_right
            exact (K2 w).mpr (Or.inl hrest)
      · apply List.mem_append_right
        apply (K2 w).mpr
        right
        have h3 := hind w
        have h4 := hremStep w
        have h5 := hcountEq w
        constructor <;> omega

theorem kahnLoop_inv (wps : List WP) (hnd : (wps.map WP.wbs).Nodup) :
    ∀ (fuel : Nat) (queue result : List String) (indeg : String → Int),
      KahnInv wps queue result indeg →
      (kahnLoop (dependentsOf wps) fuel queue indeg result).Nodup ∧
        (∀ w ∈ kahnLoop (dependentsOf wps) fuel queue indeg result, w ∈ wps.map WP.wbs) := by
  intro fuel
  induction fuel with
  | zero =>
    intro queue result indeg hinv
    obtain ⟨hndq, hmem, _, _⟩ := hinv
    simp only [kahnLoop]
    exact ⟨(List.nodup_append.mp hndq).1, fun w hw => hmem w (List.mem_append_left _ hw)⟩
  | succ fuel ih =>
    intro queue result indeg hinv
    cases queue with
    | nil =>
      simp only [kahnLoop]
      exact ⟨by simpa using hinv.1, fun w hw => hinv.2.1 w (List.mem_append_left _ hw)⟩
    | cons u rest =>
      have hstep := KahnInv_step wps hnd u rest result indeg hinv
      simpa [kahnLoop] using ih _ _ _ hstep


/-- With duplicate-free wbs codes, looking a package's own code up finds that
package. -/
theorem find?_self (wps : List WP) (hnd : (wps.map WP.wbs).Nodup) (wp : WP)
    (hwp : wp ∈ wps) : wps.find? (fun x => x.wbs == wp.wbs) = some wp := by
  induction wps with
  | nil => cases hwp
  | cons hd rest ih =>
    have hnd2 : hd.wbs ∉ rest.map WP.wbs ∧ (rest.map WP.wbs).Nodup := by
      rw [List.map_cons] at hnd
      exact List.nodup_cons.mp hnd
    obtain ⟨hnotin, hndrest⟩ := hnd2
    rcases List.mem_cons.mp hwp with heq | htail
    · subst heq
      simp [List.find?_cons]
    · have hne : hd.wbs ≠ wp.wbs := by
        intro h
        apply hnotin
        rw [h]
        exact List.mem_map_of_mem WP.wbs htail
      have hbeq : (hd.wbs == wp.wbs) = false := by simpa using hne
      rw [List.find?_cons, hbeq]
      exact ih hndrest htail

theorem find?_wbs (wps : List WP) (w : String) (wp : WP)
    (h : wps.find? (fun x => x.wbs == w) = some wp) : wp ∈ wps ∧ wp.wbs = w := by
  refine ⟨List.mem_of_find?_eq_some h, ?_⟩
  have := List.find?_some h
  simpa using this

theorem filterMap_find?_map_wbs (wps : List WP) :
    ∀ (res : List String), (∀ w ∈ res, w ∈ wps.map WP.wbs) →
      (res.filterMap (fun w => wps.find? (fun wp => wp.wbs == w))).map WP.wbs = res := by
  intro res
  induction res with
  | nil => intro _; rfl
  | cons w rest ih =>
    intro hmem
    have hw : w ∈ wps.map WP.wbs := hmem w (List.mem_cons_self w rest)
    obtain ⟨wp, hwp, hww⟩ := List.mem_map.mp hw
    have hfind : ∃ wp2, wps.find? (fun x => x.wbs == w) = some wp2 := by
      rw [← Option.isSome_iff_exists]
      rw [List.find?_isSome]
      exact ⟨wp, hwp, by simpa using hww⟩
    obtain ⟨wp2, hwp2⟩ := hfind
    rw [List.filterMap_cons, hwp2]
    simp only [List.map_cons]
    rw [ih (fun x hx => hmem x (List.mem_cons_of_mem w hx))]
    have := (find?_wbs wps w wp2 hwp2).2
    rw [this]

/-- Consequences of a successful `_toposort`: the produced order consists of
the very same work packages (each exactly once), in particular every package
is scheduled and the order's wbs codes stay duplicate-free. -/
theorem toposort_ok_spec (wps : List WP) (hnd : (wps.map WP.wbs).Nodup) (topo : List WP)
    (h : toposort wps = .ok topo) :
    (∀ wp ∈ wps, wp ∈ topo) ∧ (∀ wp ∈ topo, wp ∈ wps) ∧ (topo.map WP.wbs).Nodup := by
  have hloop := kahnLoop_inv wps hnd (kahnFuel wps)
    ((wps.filter (fun wp => indeg0 wps wp.wbs == 0)).map (fun wp => wp.wbs))
    [] (indeg0 wps) (KahnInv_init wps hnd)
  simp only [toposort] at h
  split at h
  · cases h
  · rename_i hlen
    have htopo : topo = (kahnLoop (dependentsOf wps) (kahnFuel wps)
        ((wps.filter (fun wp => indeg0 wps wp.wbs == 0)).map (fun wp => wp.wbs))
        (indeg0 wps) []).filterMap (fun w => wps.find? (fun wp => wp.wbs == w)) := by
      injection h with h2
      exact h2.symm
    obtain ⟨hresnd, hressub⟩ := hloop
    have hlen2 : (kahnLoop (dependentsOf wps) (kahnFuel wps)
        ((wps.filter (fun wp => indeg0 wps wp.wbs == 0)).map (fun wp => wp.wbs))
        (indeg0 wps) []).length = wps.length := by
      omega
    have hcover : ∀ w ∈ wps.map WP.wbs, w ∈ kahnLoop (dependentsOf wps) (kahnFuel wps)
        ((wps.filter (fun wp => indeg0 wps wp.wbs == 0)).map (fun wp => wp.wbs))
        (indeg0 wps) [] := by
      intro w hw
      have hsp := List.subperm_of_subset hresnd hressub
      have hperm := hsp.perm_of_length_le (by simpa using hlen2.ge)
      exact hperm.mem_iff.mpr hw
    refine ⟨?_, ?_, ?_⟩
    · intro wp hwp
      rw [htopo]
      apply List.mem_filterMap.mpr
      exact ⟨wp.wbs, hcover wp.wbs (List.mem_map_of_mem WP.wbs hwp), find?_self wps hnd wp hwp⟩
    · intro wp hwp
      rw [htopo] at hwp
      obtain ⟨w, _, hfind⟩ := List.mem_filterMap.mp hwp
      exact (find?_wbs wps w wp hfind).1
    · rw [htopo, filterMap_find?_map_wbs wps _ hressub]
      exact hresnd


/-! ### The uniqueness gate gives duplicate-free wbs codes -/

theorem alget_none_iff (m : List (String × NodeRef)) (k : String) :
    alget m k = none ↔ k ∉ m.map Prod.fst := by
  simp only [alget]
  constructor
  · intro h hk
    obtain ⟨kv, hkv, hfst⟩ := List.mem_map.mp hk
    cases hf : m.find? (fun kv => kv.1 == k) with
    | some r => rw [hf] at h; cases h
    | none =>
      rw [List.find?_eq_none] at hf
      exact hf kv hkv (by simpa using hfst)
  · intro h
    cases hf : m.find? (fun kv => kv.1 == k) with
    | none => rfl
    | some r =>
      exfalso
      have hr := List.find?_some hf
      have hm := List.mem_of_find?_eq_some hf
      exact h (List.mem_map.mpr ⟨r, hm, by simpa using hr⟩)

theorem registerWbs_ok (acc : List (String × NodeRef)) (w : String) (node : NodeRef)
    (acc' : List (String × NodeRef)) (h : registerWbs acc w node = .ok acc') :
    acc' = acc ++ [(w, node)] ∧ w ∉ acc.map Prod.fst := by
  simp only [registerWbs] at h
  cases hl : alget acc w with
  | some r => rw [hl] at h; cases h
  | none =>
    rw [hl] at h
    simp only [Except.ok.injEq] at h
    exact ⟨h.symm, (alget_none_iff acc w).mp hl⟩

theorem registerItems_ok (items : List WBSItem) :
    ∀ (acc acc' : List (String × NodeRef)),
      registerItems acc items = .ok acc' →
      acc'.map Prod.fst = acc.map Prod.fst ++ items.map WBSItem.wbs ∧
        ((acc.map Prod.fst).Nodup → (acc'.map Prod.fst).Nodup) := by
  induction items with
  | nil =>
    intro acc acc' h
    cases h
    simp
  | cons i rest ih =>
    intro acc acc' h
    simp only [registerItems, bind, Except.bind] at h
    cases hr : registerWbs acc i.wbs (.item i) with
    | error e => rw [hr] at h; cases h
    | ok acc1 =>
      rw [hr] at h
      simp only [] at h
      obtain ⟨hacc1, hnotin⟩ := registerWbs_ok acc i.wbs (.item i) acc1 hr
      obtain ⟨hkeys, hnd⟩ := ih acc1 acc' h
      subst hacc1
      constructor
      · rw [hkeys]
        simp
      · intro hndacc
        apply hnd
        rw [List.map_append]
        apply List.Nodup.append hndacc (by simp)
        intro x hx hx2
        simp only [List.map_cons, List.map_nil, List.mem_singleton] at hx2
        subst hx2
        exact hnotin hx

theorem registerPhases_ok (phases : List Phase) :
    ∀ (acc acc' : List (String × NodeRef)),
      registerPhases acc phases = .ok acc' →
      acc'.map Prod.fst = acc.map Prod.fst ++
          phases.flatMap (fun ph => ph.wbs :: (walkItems ph.items).map WBSItem.wbs) ∧
        ((acc.map Prod.fst).Nodup → (acc'.map Prod.fst).Nodup) := by
  induction phases with
  | nil =>
    intro acc acc' h
    cases h
    simp
  | cons ph rest ih =>
    intro acc acc' h
    simp only [registerPhases, bind, Except.bind] at h
    cases hr : registerWbs acc ph.wbs (.phase ph) with
    | error e => rw [hr] at h; cases h
    | ok acc1 =>
      rw [hr] at h
      simp only [] at h
      cases hi : registerItems acc1 (walkItems ph.items) with
      | error e => rw [hi] at h; cases h
      | ok acc2 =>
        rw [hi] at h
        simp only [] at h
        obtain ⟨hacc1, hnotin⟩ := registerWbs_ok acc ph.wbs (.phase ph) acc1 hr
        obtain ⟨hkeys2, hnd2⟩ := registerItems_ok (walkItems ph.items) acc1 acc2 hi
        obtain ⟨hkeys3, hnd3⟩ := ih acc2 acc' h
        subst hacc1
        constructor
        · rw [hkeys3, hkeys2]
          simp
        · intro hndacc
          apply hnd3
          apply hnd2
          rw [List.map_append]
          apply List.Nodup.append hndacc (by simp)
          intro x hx hx2
          simp only [List.map_cons, List.map_nil, List.mem_singleton] at hx2
          subst hx2
          exact hnotin hx

theorem walkItems_nil : walkItems [] = [] := rfl

theorem walkItems_append (a b : List WBSItem) :
    walkItems (a ++ b) = walkItems a ++ walkItems b := by
  induction a with
  | nil => rfl
  | cons i rest ih => simp [walkItems, ih]

/-- The wbs codes of the walked work packages form a sublist of the wbs codes
of all walked items. -/
theorem wpWbs_sublist_itemWbs (l : List WBSItem) :
    List.Sublist ((l.filterMap (fun i => match i with
      | .workPackage wp => some wp
      | _ => none)).map WP.wbs) (l.map WBSItem.wbs) := by
  induction l with
  | nil => simp
  | cons i rest ih =>
    cases i with
    | workPackage wp =>
      simp only [List.filterMap_cons, List.map_cons]
      exact List.Sublist.cons₂ _ ih
    | milestone w n d =>
      simp only [List.filterMap_cons, List.map_cons]
      exact List.Sublist.cons _ ih
    | task w n sub =>
      simp only [List.filterMap_cons, List.map_cons]
      exact List.Sublist.cons _ ih

theorem itemWbs_sublist_keys (phases : List Phase) :
    List.Sublist ((walkItems (phases.flatMap (fun ph => ph.items))).map WBSItem.wbs)
      (phases.flatMap (fun ph => ph.wbs :: (walkItems ph.items).map WBSItem.wbs)) := by
  induction phases with
  | nil => simp [walkItems_nil]
  | cons ph rest ih =>
    simp only [List.flatMap_cons, walkItems_append, List.map_append]
    apply List.Sublist.trans (List.Sublist.append_left ih _)
    apply List.Sublist.append _ (List.Sublist.refl _)
    exact List.Sublist.cons _ (List.Sublist.refl _)

/-- Passing the uniqueness gate makes every walked work package's wbs code
unique. -/
theorem validateUniqueWbs_nodup (p : Project) (lookup : List (String × NodeRef))
    (h : validateUniqueWbs p = .ok lookup) :
    ((walkWorkPackages p).map WP.wbs).Nodup := by
  obtain ⟨hkeys, _⟩ := registerPhases_ok p.phases [] lookup h
  simp only [List.map_nil, List.nil_append] at hkeys
  have hndkeys : (lookup.map Prod.fst).Nodup := (registerPhases_ok p.phases [] lookup h).2 (by simp)
  rw [hkeys] at hndkeys
  apply hndkeys.sublist
  exact List.Sublist.trans (wpWbs_sublist_itemWbs _) (itemWbs_sublist_keys p.phases)


/-- Decomposing a successful pipeline run. -/
theorem scheduleProjectStarts_ok_parts (p : Project) (st : String → Option Int)
    (h : scheduleProjectStarts p = .ok st) :
    ∃ lookup topo,
      validateUniqueWbs p = .ok lookup ∧
        toposort (walkWorkPackages p) = .ok topo ∧
        scheduleWPs (wpLookup (walkWorkPackages p)) topo (initStarts (walkWorkPackages p)) =
          .ok st := by
  simp only [scheduleProjectStarts, bind, Except.bind] at h
  cases h1 : validateUniqueWbs p with
  | error e => rw [h1] at h; cases h
  | ok lookup =>
    rw [h1] at h
    simp only [] at h
    cases h2 : validateWbsHierarchy p with
    | error e => rw [h2] at h; cases h
    | ok u =>
      cases u
      rw [h2] at h
      simp only [] at h
      cases h3 : validateDependenciesExist p lookup with
      | error e => rw [h3] at h; cases h
      | ok u =>
        cases u
        rw [h3] at h
        simp only [] at h
        cases h4 : assertNoCycles (walkWorkPackages p) with
        | error e => rw [h4] at h; cases h
        | ok u =>
          cases u
          rw [h4] at h
          simp only [] at h
          cases h5 : toposort (walkWorkPackages p) with
          | error e => rw [h5] at h; cases h
          | ok topo =>
            rw [h5] at h
            simp only [] at h
            exact ⟨lookup, topo, rfl, rfl, h⟩

/-- C1: a work package with dependencies and no explicit start date is
scheduled to start exactly at the maximum finish date among its dependencies
(zero-gap: the same day the latest predecessor's inclusive finish falls). -/
theorem C1_inferred_start_is_max_dependency_finish (p : Project) (st : String → Option Int)
    (hok : scheduleProjectStarts p = .ok st)
    (wp : WP) (hwp : wp ∈ walkWorkPackages p)
    (hstart : wp.startDate = none) (hne : wp.dependsOn ≠ []) :
    ∃ fins : List Int,
      wp.dependsOn.map (finishNow (wpLookup (walkWorkPackages p)) st) = fins.map some ∧
        st wp.wbs = fins.max? := by
  obtain ⟨lookup, topo, h1, h5, hrun⟩ := scheduleProjectStarts_ok_parts p st hok
  have hnd := validateUniqueWbs_nodup p lookup h1
  obtain ⟨hcover, hback, hndtopo⟩ := toposort_ok_spec (walkWorkPackages p) hnd topo h5
  have hinit : initStarts (walkWorkPackages p) wp.wbs = none := by
    simp only [initStarts, wpLookup]
    rw [find?_self (walkWorkPackages p) hnd wp hwp]
    exact hstart
  exact scheduleWPs_run_eq (wpLookup (walkWorkPackages p)) topo
    (initStarts (walkWorkPackages p)) st hndtopo hrun wp (hcover wp hwp) hne hinit

theorem C1_witness :
    runStart exProject "0.1.2" = some (some (civilToDays 2024 1 2)) ∧
      civilToDays 2024 1 2 = civilToDays 2024 1 1 + 1 ∧
      civilToDays 2024 1 2 + 3 - 1 = civilToDays 2024 1 4 ∧
      exWpB ∈ walkWorkPackages exProject ∧ exWpB.startDate = none ∧ exWpB.dependsOn ≠ [] ∧
      (∃ fins : List Int,
        exWpB.dependsOn.map (finishNow (wpLookup (walkWorkPackages exProject))
          (match scheduleProjectStarts exProject with
           | .ok st => st
           | .error _ => initStarts (walkWorkPackages exProject))) = fins.map some ∧
          (match scheduleProjectStarts exProject with
           | .ok st => st
           | .error _ => initStarts (walkWorkPackages exProject)) exWpB.wbs = fins.max?) := by
  refine ⟨by decide, by decide, by decide, by decide, by decide, by decide, ?_⟩
  exact C1_inferred_start_is_max_dependency_finish exProject _ rfl exWpB (by decide) rfl
    (by decide)

/-- C2: after a successful run every work package with dependencies starts at
or after every final dependency finish; and a step on a package whose explicit
start strictly precedes the maximal dependency finish raises a
`SchedulingError` reporting the violating id, its start, the blocking
predecessor (the first-listed dependency among those with the maximal finish),
and that predecessor's finish. -/
theorem C2_start_respects_dependency_finishes :
    (∀ (p : Project) (st : String → Option Int), scheduleProjectStarts p = .ok st →
      ∀ wp ∈ walkWorkPackages p, wp.dependsOn ≠ [] →
        ∃ (fins : List Int) (stv : Int),
          wp.dependsOn.map (finishNow (wpLookup (walkWorkPackages p)) st) = fins.map some ∧
            st wp.wbs = some stv ∧ ∀ f ∈ fins, f ≤ stv) ∧
      (∀ (lookup : String → Option WP) (starts : String → Option Int) (wp : WP)
        (q : String × Int) (qs : List (String × Int)) (stv : Int),
        ¬ wp.durationDays ≤ 0 →
        collectDepFinishes lookup starts wp.wbs wp.dependsOn = .ok (q :: qs) →
        starts wp.wbs = some stv → stv < (maxByFinish q qs).2 →
        scheduleStep lookup starts wp = .error (.startBeforePredecessorFinish wp.wbs stv
            (maxByFinish q qs).1 (maxByFinish q qs).2) ∧
          (GErr.startBeforePredecessorFinish wp.wbs stv (maxByFinish q qs).1
            (maxByFinish q qs).2).errorClass = .scheduling ∧
          maxByFinish q qs ∈ q :: qs ∧
          (∀ r ∈ q :: qs, r.2 ≤ (maxByFinish q qs).2) ∧
          ∃ pre post, q :: qs = pre ++ maxByFinish q qs :: post ∧
            ∀ r ∈ pre, r.2 < (maxByFinish q qs).2) := by
  constructor
  · intro p st hok wp hwp hne
    obtain ⟨lookup, topo, h1, h5, hrun⟩ := scheduleProjectStarts_ok_parts p st hok
    have hnd := validateUniqueWbs_nodup p lookup h1
    obtain ⟨hcover, _, _⟩ := toposort_ok_spec (walkWorkPackages p) hnd topo h5
    exact scheduleWPs_run_ge (wpLookup (walkWorkPackages p)) topo
      (initStarts (walkWorkPackages p)) st hrun wp (hcover wp hwp) hne
  · intro lookup starts wp q qs stv hdur hcol hst hlt
    refine ⟨scheduleStep_violation lookup starts wp q qs stv hdur hcol hst hlt, rfl,
      maxByFinish_mem qs q, ?_, maxByFinish_first qs q⟩
    intro r hr
    rcases List.mem_cons.mp hr with h1 | h2
    · rw [h1]; exact (maxByFinish_snd_ge qs q).1
    · exact (maxByFinish_snd_ge qs q).2 r h2

theorem C2_witness :
    runError earlyStartProject =
        some (.startBeforePredecessorFinish "0.1.2" (civilToDays 2024 1 3) "0.1.1"
          (civilToDays 2024 1 5)) ∧
      GErr.errorClass (.startBeforePredecessorFinish "0.1.2" (civilToDays 2024 1 3) "0.1.1"
        (civilToDays 2024 1 5)) = .scheduling ∧
      civilToDays 2024 1 3 < civilToDays 2024 1 5 ∧
      (∃ (fins : List Int) (stv : Int),
        exWpB.dependsOn.map (finishNow (wpLookup (walkWorkPackages exProject))
          (match scheduleProjectStarts exProject with
           | .ok st => st
           | .error _ => initStarts (walkWorkPackages exProject))) = fins.map some ∧
          (match scheduleProjectStarts exProject with
           | .ok st => st
           | .error _ => initStarts (walkWorkPackages exProject)) exWpB.wbs = some stv ∧
          ∀ f ∈ fins, f ≤ stv) ∧
      scheduleStep (wpLookup (walkWorkPackages earlyStartProject))
          (initStarts (walkWorkPackages earlyStartProject))
          { wbs := "0.1.2", name := "B", durationDays := 2,
            startDate := some (civilToDays 2024 1 3), dependsOn := ["0.1.1"] } =
        .error (.startBeforePredecessorFinish "0.1.2" (civilToDays 2024 1 3) "0.1.1"
          (civilToDays 2024 1 5)) := by
  refine ⟨by decide, by decide, by decide, ?_, ?_⟩
  · exact C2_start_respects_dependency_finishes.1 exProject _ rfl exWpB (by decide) (by decide)
  · have h := C2_start_respects_dependency_finishes.2
      (wpLookup (walkWorkPackages earlyStartProject))
      (initStarts (walkWorkPackages earlyStartProject))
      { wbs := "0.1.2", name := "B", durationDays := 2,
        startDate := some (civilToDays 2024 1 3), dependsOn := ["0.1.1"] }
      ("0.1.1", civilToDays 2024 1 5) [] (civilToDays 2024 1 3)
      (by decide) rfl rfl (by decide)
    exact h.1


/-! ### DFS cycle search: soundness and completeness -/

theorem ColorAdv.rfl (s : DfsSt) : ColorAdv s s :=
  ⟨fun _ h => h, fun _ h => h, fun _ h => h⟩

theorem ColorAdv.trans {s1 s2 s3 : DfsSt} (h12 : ColorAdv s1 s2) (h23 : ColorAdv s2 s3) :
    ColorAdv s1 s3 :=
  ⟨fun w h => h23.1 w (h12.1 w h), fun w h => h23.2.1 w (h12.2.1 w h),
    fun w h => h12.2.2 w (h23.2.2 w h)⟩

theorem countNoneIn_mono (S : Finset String) (s s' : DfsSt)
    (h : ∀ w, s'.color w = none → s.color w = none) :
    countNoneIn S s' ≤ countNoneIn S s := by
  apply Finset.card_le_card
  intro u hu
  rw [Finset.mem_filter] at hu ⊢
  exact ⟨hu.1, h u hu.2⟩

theorem countNoneIn_pos (S : Finset String) (s : DfsSt) (node : String)
    (hn : node ∈ S) (hc : s.color node = none) : 1 ≤ countNoneIn S s := by
  rw [Nat.succ_le]
  show 0 < (S.filter (fun u => s.color u = none)).card
  rw [Finset.card_pos]
  exact ⟨node, Finset.mem_filter.mpr ⟨hn, by simpa using hc⟩⟩

theorem countNoneIn_lt (S : Finset String) (s s' : DfsSt) (node : String)
    (hn : node ∈ S) (hc : s.color node = none) (hc' : s'.color node ≠ none)
    (h : ∀ w, s'.color w = none → s.color w = none) :
    countNoneIn S s' < countNoneIn S s := by
  apply Finset.card_lt_card
  rw [Finset.ssubset_iff_of_subset]
  · exact ⟨node, Finset.mem_filter.mpr ⟨hn, by simpa using hc⟩,
      fun hmem => hc' (by simpa using (Finset.mem_filter.mp hmem).2)⟩
  · intro u hu
    rw [Finset.mem_filter] at hu ⊢
    exact ⟨hu.1, h u (by simpa using hu.2)⟩

/-- A rank strictly above those of all listed nodes. -/
theorem rankBound_gt (r : String → Nat) :
    ∀ (l : List String) (d : String), d ∈ l →
      r d < l.foldr (fun x acc => max (r x + 1) acc) 0 := by
  intro l
  induction l with
  | nil => intro d hd; cases hd
  | cons x rest ih =>
    intro d hd
    simp only [List.foldr_cons]
    rcases List.mem_cons.mp hd with h1 | h2
    · subst h1
      exact lt_of_lt_of_le (Nat.lt_succ_self _) (le_max_left _ _)
    · exact lt_of_lt_of_le (ih d h2) (le_max_right _ _)


/-- The inner dependency loop of `dfs`, given the behaviour of the recursive
visit at the current depth budget. -/
theorem dfsDeps_spec (dl : List (String × List String)) (S : Finset String)
    (hS : ∀ u, ∀ d ∈ depsOf dl u, d ∈ S) (f : Nat)
    (visit : String → DfsSt → Option (List String) × DfsSt)
    (Hvisit : ∀ node s, StackOk dl s → RankOk dl s → s.color node = none → node ∈ S →
      (∀ x, s.stack.getLast? = some x → node ∈ depsOf dl x) →
      countNoneIn S s ≤ f →
      (∀ c s', visit node s = (some c, s') → CyclePath dl c) ∧
        (∀ s', visit node s = (none, s') →
          StackOk dl s' ∧ RankOk dl s' ∧ s'.stack = s.stack ∧ ColorAdv s s' ∧
            s'.color node = some Color.done)) :
    ∀ (ds : List String) (s : DfsSt) (top : String),
      StackOk dl s → RankOk dl s →
      s.stack.getLast? = some top →
      (∀ d ∈ ds, d ∈ depsOf dl top) →
      countNoneIn S s ≤ f →
      (∀ c s', dfsDeps visit dl ds s = (some c, s') → CyclePath dl c) ∧
        (∀ s', dfsDeps visit dl ds s = (none, s') →
          StackOk dl s' ∧ RankOk dl s' ∧ s'.stack = s.stack ∧ ColorAdv s s' ∧
            (∀ d ∈ ds, s'.color d = some Color.done)) := by
  intro ds
  induction ds with
  | nil =>
    intro s top hso hro htop hds hcnt
    constructor
    · intro c s' h
      cases h
    · intro s' h
      simp only [dfsDeps] at h
      have hs : s = s' := by injection h
      subst hs
      exact ⟨hso, hro, rfl, ColorAdv.rfl s, fun d hd => by cases hd⟩
  | cons d rest ih =>
    intro s top hso hro htop hds hcnt
    obtain ⟨hchain, hnodup, hvisit, hpos⟩ := hso
    constructor
    · intro c s' h
      simp only [dfsDeps] at h
      cases hcol : s.color d with
      | some col =>
        cases col with
        | visiting =>
          rw [hcol] at h
          simp only [] at h
          have hc : s.stack.drop ((s.pos d).getD 0) ++ [d] = c := by
            injection h with h1 h2
            injection h1
          have hdstack : d ∈ s.stack := (hvisit d).mp hcol
          obtain ⟨p, hp, hgp⟩ := List.mem_iff_getElem.mp hdstack
          have hgp? : s.stack[p]? = some d := by
            rw [List.getElem?_eq_getElem hp, hgp]
          have hposd : s.pos d = some p := (hpos d p).mpr ⟨hp, hgp?⟩
          have hgetd : (s.pos d).getD 0 = p := by rw [hposd]; rfl
          have hdropeq : s.stack.drop p = d :: s.stack.drop (p + 1) := by
            rw [List.drop_eq_getElem_cons hp, hgp]
          subst hc
          rw [hgetd]
          refine ⟨?_, ?_, ?_⟩
          · rw [hdropeq]
            simp only [List.cons_append, List.length_cons, List.length_append]
            omega
          · rw [hdropeq]
            rw [List.getLast?_concat]
            simp
          · rw [List.chain'_append]
            refine ⟨List.Chain'.suffix hchain (List.drop_suffix p s.stack), ?_, ?_⟩
            · simp
            · intro x hx y hy
              have hy2 : y = d := by
                rw [List.head?_cons, Option.mem_def] at hy
                injection hy with h2
                exact h2.symm
              have hne : s.stack.drop p ≠ [] := by rw [hdropeq]; simp
              have hlast : (s.stack.drop p).getLast? = s.stack.getLast? := by
                obtain ⟨z, hz⟩ := Option.isSome_iff_exists.mp (List.getLast?_isSome.mpr hne)
                conv_rhs => rw [← List.take_append_drop p s.stack]
                rw [List.getLast?_append, hz, Option.or_some]
              rw [Option.mem_def] at hx
              have hxtop : x = top := by
                rw [hlast, htop] at hx
                injection hx with h2
                exact h2.symm
              rw [hy2, hxtop]
              exact hds d (List.mem_cons_self d rest)
        | done =>
          rw [hcol] at h
          simp only [] at h
          exact (ih s top ⟨hchain, hnodup, hvisit, hpos⟩ hro htop
            (fun x hx => hds x (List.mem_cons_of_mem d hx)) hcnt).1 c s' h
      | none =>
        rw [hcol] at h
        simp only [] at h
        have hHd := Hvisit d s ⟨hchain, hnodup, hvisit, hpos⟩ hro hcol
          (hS top d (hds d (List.mem_cons_self d rest)))
          (fun x hx => by
            rw [htop] at hx
            injection hx with h2
            exact h2 ▸ hds d (List.mem_cons_self d rest))
          hcnt
        cases hv : visit d s with
        | mk res s1 =>
          cases res with
          | some c2 =>
            rw [hv] at h
            simp only [] at h
            obtain ⟨hc2, hs1⟩ : c2 = c ∧ s1 = s' := by
              injection h with h1 h2
              exact ⟨by injection h1, h2⟩
            subst hc2
            exact hHd.1 _ s1 hv
          | none =>
            rw [hv] at h
            simp only [] at h
            obtain ⟨hso1, hro1, hst1, hadv1, hdone1⟩ := hHd.2 s1 hv
            exact (ih s1 top hso1 hro1 (hst1 ▸ htop)
              (fun x hx => hds x (List.mem_cons_of_mem d hx))
              (le_trans (countNoneIn_mono S s s1 hadv1.2.2) hcnt)).1 c s' h
    · intro s' h
      simp only [dfsDeps] at h
      cases hcol : s.color d with
      | some col =>
        cases col with
        | visiting =>
          rw [hcol] at h
          simp only [] at h
          cases h
        | done =>
          rw [hcol] at h
          simp only [] at h
          obtain ⟨hso', hro', hst', hadv', hdone'⟩ :=
            (ih s top ⟨hchain, hnodup, hvisit, hpos⟩ hro htop
              (fun x hx => hds x (List.mem_cons_of_mem d hx)) hcnt).2 s' h
          refine ⟨hso', hro', hst', hadv', ?_⟩
          intro x hx
          rcases List.mem_cons.mp hx with h1 | h2
          · subst h1
            exact hadv'.1 x hcol
          · exact hdone' x h2
      | none =>
        rw [hcol] at h
        simp only [] at h
        have hHd := Hvisit d s ⟨hchain, hnodup, hvisit, hpos⟩ hro hcol
          (hS top d (hds d (List.mem_cons_self d rest)))
          (fun x hx => by
            rw [htop] at hx
            injection hx with h2
            exact h2 ▸ hds d (List.mem_cons_self d rest))
          hcnt
        cases hv : visit d s with
        | mk res s1 =>
          cases res with
          | some c2 =>
            rw [hv] at h
            simp only [] at h
            cases h
          | none =>
            rw [hv] at h
            simp only [] at h
            obtain ⟨hso1, hro1, hst1, hadv1, hdone1⟩ := hHd.2 s1 hv
            obtain ⟨hso', hro', hst', hadv', hdone'⟩ :=
              (ih s1 top hso1 hro1 (hst1 ▸ htop)
                (fun x hx => hds x (List.mem_cons_of_mem d hx))
                (le_trans (countNoneIn_mono S s s1 hadv1.2.2) hcnt)).2 s' h
            refine ⟨hso', hro', hst'.trans hst1, hadv1.trans hadv', ?_⟩
            intro x hx
            rcases List.mem_cons.mp hx with h1 | h2
            · subst h1
              exact hadv'.1 x hdone1
            · exact hdone' x h2


theorem fupd_self {α : Type} (f : String → α) (k : String) (v : α) : fupd f k v k = v := by
  simp [fupd]

theorem fupd_of_ne {α : Type} (f : String → α) (k : String) (v : α) (w : String)
    (h : w ≠ k) : fupd f k v w = f w := by
  simp only [fupd]
  have hb : (w == k) = false := by simpa using h
  simp [hb]

theorem mem_of_getElem?_eq {α : Type} (l : List α) (n : Nat) (a : α)
    (h : l[n]? = some a) : a ∈ l := by
  obtain ⟨hlt, he⟩ := List.getElem?_eq_some.mp h
  exact he ▸ List.getElem_mem hlt

/-- The main DFS lemma: enough fuel makes `dfsVisit` either return a genuine
cycle path or finish its node with the stack restored, colors advanced, and
the soundness invariants intact. -/
theorem dfsVisit_spec (dl : List (String × List String)) (S : Finset String)
    (hS : ∀ u, ∀ d ∈ depsOf dl u, d ∈ S) :
    ∀ (fuel : Nat) (node : String) (s : DfsSt),
      StackOk dl s → RankOk dl s → s.color node = none → node ∈ S →
      (∀ x, s.stack.getLast? = some x → node ∈ depsOf dl x) →
      countNoneIn S s ≤ fuel →
      (∀ c s', dfsVisit dl fuel node s = (some c, s') → CyclePath dl c) ∧
        (∀ s', dfsVisit dl fuel node s = (none, s') →
          StackOk dl s' ∧ RankOk dl s' ∧ s'.stack = s.stack ∧ ColorAdv s s' ∧
            s'.color node = some Color.done) := by
  intro fuel
  induction fuel with
  | zero =>
    intro node s hso hro hc hn hedge hcnt
    have := countNoneIn_pos S s node hn hc
    omega
  | succ f ih =>
    intro node s hso hro hc hn hedge hcnt
    have hnotin : node ∉ s.stack := by
      intro hmem
      have := (hso.2.2.1 node).mpr hmem
      rw [hc] at this
      cases this
    have hso1 : StackOk dl
        { color := fupd s.color node (some Color.visiting)
          pos := fupd s.pos node (some s.stack.length)
          stack := s.stack ++ [node] } := by
      refine ⟨?_, ?_, ?_, ?_⟩
      · show List.Chain' (fun a b => b ∈ depsOf dl a) (s.stack ++ [node])
        rw [List.chain'_append]
        refine ⟨hso.1, by simp, ?_⟩
        intro x hx y hy
        have hy2 : y = node := by
          rw [List.head?_cons, Option.mem_def] at hy
          injection hy with h2
          exact h2.symm
        rw [Option.mem_def] at hx
        rw [hy2]
        exact hedge x hx
      · show (s.stack ++ [node]).Nodup
        apply List.Nodup.append hso.2.1 (List.nodup_singleton node)
        intro x hx hx2
        rw [List.mem_singleton] at hx2
        subst hx2
        exact hnotin hx
      · intro w
        show fupd s.color node (some Color.visiting) w = some Color.visiting ↔
          w ∈ s.stack ++ [node]
        by_cases hw : w = node
        · subst hw
          rw [fupd_self]
          simp
        · rw [fupd_of_ne _ _ _ _ hw, List.mem_append, List.mem_singleton]
          rw [hso.2.2.1 w]
          simp [hw]
      · intro w p
        show fupd s.pos node (some s.stack.length) w = some p ↔
          (p < (s.stack ++ [node]).length ∧ (s.stack ++ [node])[p]? = some w)
        by_cases hw : w = node
        · subst hw
          rw [fupd_self]
          constructor
          · intro hp
            have hp2 : p = s.stack.length := by injection hp with h2; exact h2.symm
            subst hp2
            refine ⟨by simp, ?_⟩
            rw [List.getElem?_append_right (le_refl _)]
            simp
          · intro ⟨hp1, hp2⟩
            rw [List.length_append, List.length_singleton] at hp1
            rcases Nat.lt_succ_iff_lt_or_eq.mp hp1 with hlt | heq
            · exfalso
              rw [List.getElem?_append_left hlt] at hp2
              exact hnotin (mem_of_getElem?_eq _ _ _ hp2)
            · rw [heq]
        · rw [fupd_of_ne _ _ _ _ hw, hso.2.2.2 w p]
          constructor
          · intro ⟨hp1, hp2⟩
            refine ⟨by rw [List.length_append, List.length_singleton]; omega, ?_⟩
            rw [List.getElem?_append_left hp1]
            exact hp2
          · intro ⟨hp1, hp2⟩
            rw [List.length_append, List.length_singleton] at hp1
            rcases Nat.lt_succ_iff_lt_or_eq.mp hp1 with hlt | heq
            · rw [List.getElem?_append_left hlt] at hp2
              exact ⟨hlt, hp2⟩
            · exfalso
              rw [heq, List.getElem?_append_right (le_refl _)] at hp2
              simp at hp2
              exact hw hp2.symm
    have hro1 : RankOk dl
        { color := fupd s.color node (some Color.visiting)
          pos := fupd s.pos node (some s.stack.length)
          stack := s.stack ++ [node] } := by
      obtain ⟨r, hr⟩ := hro
      refine ⟨r, ?_⟩
      intro u hu d hd
      have hu1 : fupd s.color node (some Color.visiting) u = some Color.done := hu
      have hu2 : s.color u = some Color.done := by
        by_cases hw : u = node
        · subst hw
          rw [fupd_self] at hu1
          cases hu1
        · rw [fupd_of_ne _ _ _ _ hw] at hu1
          exact hu1
      obtain ⟨hd1, hd2⟩ := hr u hu2 d hd
      have hdn : d ≠ node := by
        intro h2
        subst h2
        rw [hc] at hd1
        cases hd1
      show fupd s.color node (some Color.visiting) d = some Color.done ∧ r d < r u
      rw [fupd_of_ne _ _ _ _ hdn]
      exact ⟨hd1, hd2⟩
    have hclt : countNoneIn S
        { color := fupd s.color node (some Color.visiting)
          pos := fupd s.pos node (some s.stack.length)
          stack := s.stack ++ [node] } < countNoneIn S s := by
      apply countNoneIn_lt S s _ node hn hc
      · show fupd s.color node (some Color.visiting) node ≠ none
        rw [fupd_self]
        simp
      · intro w hw
        have hw1 : fupd s.color node (some Color.visiting) w = none := hw
        by_cases h2 : w = node
        · subst h2
          rw [fupd_self] at hw1
          cases hw1
        · rw [fupd_of_ne _ _ _ _ h2] at hw1
          exact hw1
    obtain ⟨hdd1, hdd2⟩ := dfsDeps_spec dl S hS f (dfsVisit dl f) ih (depsOf dl node)
      { color := fupd s.color node (some Color.visiting)
        pos := fupd s.pos node (some s.stack.length)
        stack := s.stack ++ [node] } node hso1 hro1 (List.getLast?_concat s.stack)
      (fun d hd => hd) (by omega)
    constructor
    · intro c s' h
      simp only [dfsVisit] at h
      cases hdd : dfsDeps (dfsVisit dl f) dl (depsOf dl node)
          { color := fupd s.color node (some Color.visiting)
            pos := fupd s.pos node (some s.stack.length)
            stack := s.stack ++ [node] } with
      | mk res s2 =>
        rw [hdd] at h
        cases res with
        | some c2 =>
          simp only [] at h
          have hc2 : c2 = c := by
            injection h with h1 _
            injection h1
          subst hc2
          exact hdd1 c2 s2 hdd
        | none =>
          simp only [] at h
          cases h
    · intro s' h
      simp only [dfsVisit] at h
      cases hdd : dfsDeps (dfsVisit dl f) dl (depsOf dl node)
          { color := fupd s.color node (some Color.visiting)
            pos := fupd s.pos node (some s.stack.length)
            stack := s.stack ++ [node] } with
      | mk res s2 =>
        rw [hdd] at h
        cases res with
        | some c2 =>
          simp only [] at h
          cases h
        | none =>
          simp only [] at h
          obtain ⟨hso2, hro2, hst2, hadv2, hdone2⟩ := hdd2 s2 hdd
          have hs' : s' =
              { color := fupd s2.color node (some Color.done)
                pos := fupd s2.pos node none
                stack := s2.stack.dropLast } := by
            injection h with _ h2
            exact h2.symm
          subst hs'
          have hstack2 : s2.stack = s.stack ++ [node] := hst2
          have hstack' : s2.stack.dropLast = s.stack := by
            rw [hstack2]
            exact List.dropLast_concat
          have hs2vis : s2.color node = some Color.visiting :=
            hadv2.2.1 node (fupd_self s.color node (some Color.visiting))
          have hself : node ∉ depsOf dl node := by
            intro hmem
            have := hdone2 node hmem
            rw [hs2vis] at this
            cases this
          refine ⟨?_, ?_, ?_, ?_, ?_⟩
          · refine ⟨?_, ?_, ?_, ?_⟩
            · show List.Chain' (fun a b => b ∈ depsOf dl a) s2.stack.dropLast
              rw [hstack']
              exact hso.1
            · show (s2.stack.dropLast).Nodup
              rw [hstack']
              exact hso.2.1
            · intro w
              show fupd s2.color node (some Color.done) w = some Color.visiting ↔
                w ∈ s2.stack.dropLast
              rw [hstack']
              by_cases hw : w = node
              · subst hw
                rw [fupd_self]
                simp [hnotin]
              · rw [fupd_of_ne _ _ _ _ hw, hso2.2.2.1 w, hstack2, List.mem_append,
                  List.mem_singleton]
                simp [hw]
            · intro w p
              show fupd s2.pos node none w = some p ↔
                (p < (s2.stack.dropLast).length ∧ (s2.stack.dropLast)[p]? = some w)
              rw [hstack']
              by_cases hw : w = node
              · subst hw
                rw [fupd_self]
                constructor
                · intro h2; cases h2
                · intro ⟨hp1, hp2⟩
                  exact absurd (mem_of_getElem?_eq _ _ _ hp2) hnotin
              · rw [fupd_of_ne _ _ _ _ hw, hso2.2.2.2 w p, hstack2]
                constructor
                · intro ⟨hp1, hp2⟩
                  rw [List.length_append, List.length_singleton] at hp1
                  rcases Nat.lt_succ_iff_lt_or_eq.mp hp1 with hlt | heq
                  · rw [List.getElem?_append_left hlt] at hp2
                    exact ⟨hlt, hp2⟩
                  · exfalso
                    rw [heq, List.getElem?_append_right (le_refl _)] at hp2
                    simp at hp2
                    exact hw hp2.symm
                · intro ⟨hp1, hp2⟩
                  refine ⟨by rw [List.length_append, List.length_singleton]; omega, ?_⟩
                  rw [List.getElem?_append_left hp1]
                  exact hp2
          · obtain ⟨r, hr⟩ := hro2
            refine ⟨fun w => if w = node
              then (depsOf dl node).foldr (fun x acc => max (r x + 1) acc) 0
              else r w, ?_⟩
            intro u hu d hd
            by_cases hwu : u = node
            · subst hwu
              have hdn : d ≠ u := fun h2 => hself (h2 ▸ hd)
              have hd2 : s2.color d = some Color.done := hdone2 d hd
              refine ⟨?_, ?_⟩
              · show fupd s2.color u (some Color.done) d = some Color.done
                rw [fupd_of_ne _ _ _ _ hdn]
                exact hd2
              · show (if d = u then (depsOf dl u).foldr (fun x acc => max (r x + 1) acc) 0
                  else r d) < (if u = u then (depsOf dl u).foldr (fun x acc => max (r x + 1) acc) 0
                  else r u)
                rw [if_neg hdn, if_pos rfl]
                exact rankBound_gt r (depsOf dl u) d hd
            · have hu1 : fupd s2.color node (some Color.done) u = some Color.done := hu
              rw [fupd_of_ne _ _ _ _ hwu] at hu1
              obtain ⟨hd1, hd2⟩ := hr u hu1 d hd
              have hdn : d ≠ node := by
                intro h2
                subst h2
                rw [hs2vis] at hd1
                cases hd1
              refine ⟨?_, ?_⟩
              · show fupd s2.color node (some Color.done) d = some Color.done
                rw [fupd_of_ne _ _ _ _ hdn]
                exact hd1
              · show (if d = node then (depsOf dl node).foldr (fun x acc => max (r x + 1) acc) 0
                  else r d) < (if u = node then (depsOf dl node).foldr (fun x acc => max (r x + 1) acc) 0
                  else r u)
                rw [if_neg hdn, if_neg hwu]
                exact hd2
          · show s2.stack.dropLast = s.stack
            exact hstack'
          · refine ⟨?_, ?_, ?_⟩
            · intro w hw
              have hwn : w ≠ node := by
                intro h2
                subst h2
                rw [hc] at hw
                cases hw
              show fupd s2.color node (some Color.done) w = some Color.done
              rw [fupd_of_ne _ _ _ _ hwn]
              apply hadv2.1 w
              show fupd s.color node (some Color.visiting) w = some Color.done
              rw [fupd_of_ne _ _ _ _ hwn]
              exact hw
            · intro w hw
              have hwn : w ≠ node := by
                intro h2
                subst h2
                rw [hc] at hw
                cases hw
              show fupd s2.color node (some Color.done) w = some Color.visiting
              rw [fupd_of_ne _ _ _ _ hwn]
              apply hadv2.2.1 w
              show fupd s.color node (some Color.visiting) w = some Color.visiting
              rw [fupd_of_ne _ _ _ _ hwn]
              exact hw
            · intro w hw
              have hw1 : fupd s2.color node (some Color.done) w = none := hw
              by_cases hwn : w = node
              · subst hwn
                rw [fupd_self] at hw1
                cases hw1
              · rw [fupd_of_ne _ _ _ _ hwn] at hw1
                have h3 : fupd s.color node (some Color.visiting) w = none :=
                  hadv2.2.2 w hw1
                rw [fupd_of_ne _ _ _ _ hwn] at h3
                exact h3
          · show fupd s2.color node (some Color.done) node = some Color.done
            rw [fupd_self]


/-- Outer loop of `_find_cycle`: seeds processed left to right from a
clean-stack state; either a genuine cycle comes back, or every seed ends up
finished. -/
theorem findCycleGo_spec (dl : List (String × List String)) (S : Finset String)
    (hS : ∀ u, ∀ d ∈ depsOf dl u, d ∈ S) (fuel : Nat) :
    ∀ (order : List String) (s : DfsSt),
      StackOk dl s → RankOk dl s → s.stack = [] →
      (∀ n ∈ order, n ∈ S) → countNoneIn S s ≤ fuel →
      (∀ c, findCycleGo dl fuel order s = some c → CyclePath dl c) ∧
        (findCycleGo dl fuel order s = none →
          ∃ s', RankOk dl s' ∧ ColorAdv s s' ∧
            ∀ n ∈ order, s'.color n = some Color.done) := by
  intro order
  induction order with
  | nil =>
    intro s hso hro hst hord hcnt
    refine ⟨fun c h => by simp [findCycleGo] at h, fun _ => ?_⟩
    exact ⟨s, hro, ColorAdv.rfl s, fun n hn => absurd hn (List.not_mem_nil n)⟩
  | cons n rest ih =>
    intro s hso hro hst hord hcnt
    cases hcn : s.color n with
    | some col =>
      have hdone : s.color n = some Color.done := by
        cases col with
        | visiting =>
          exfalso
          have := (hso.2.2.1 n).mp hcn
          rw [hst] at this
          cases this
        | done => exact hcn
      have heq : findCycleGo dl fuel (n :: rest) s = findCycleGo dl fuel rest s := by
        simp only [findCycleGo, hcn]
      obtain ⟨ih1, ih2⟩ := ih s hso hro hst
        (fun m hm => hord m (List.mem_cons_of_mem n hm)) hcnt
      refine ⟨fun c h => ih1 c (heq ▸ h), fun h => ?_⟩
      obtain ⟨s', hro', hadv', hdone'⟩ := ih2 (heq ▸ h)
      refine ⟨s', hro', hadv', ?_⟩
      intro m hm
      rcases List.mem_cons.mp hm with hmeq | hm
      · rw [hmeq]
        exact hadv'.1 n hdone
      · exact hdone' m hm
    | none =>
      obtain ⟨hv1, hv2⟩ := dfsVisit_spec dl S hS fuel n s hso hro hcn
        (hord n (List.mem_cons_self n rest))
        (fun x hx => by rw [hst] at hx; cases hx) hcnt
      cases hdv : dfsVisit dl fuel n s with
      | mk res s2 =>
        cases res with
        | some c2 =>
          have heq : findCycleGo dl fuel (n :: rest) s = some c2 := by
            simp only [findCycleGo, hcn, hdv]
          refine ⟨fun c h => ?_, fun h => ?_⟩
          · rw [heq] at h
            have hc2 : c2 = c := by injection h
            rw [← hc2]
            exact hv1 c2 s2 hdv
          · rw [heq] at h
            cases h
        | none =>
          obtain ⟨hso2, hro2, hst2, hadv2, hdn2⟩ := hv2 s2 hdv
          have heq : findCycleGo dl fuel (n :: rest) s = findCycleGo dl fuel rest s2 := by
            simp only [findCycleGo, hcn, hdv]
          have hst2' : s2.stack = [] := by rw [hst2, hst]
          have hcnt2 : countNoneIn S s2 ≤ fuel :=
            le_trans (countNoneIn_mono S s s2 hadv2.2.2) hcnt
          obtain ⟨ih1, ih2⟩ := ih s2 hso2 hro2 hst2'
            (fun m hm => hord m (List.mem_cons_of_mem n hm)) hcnt2
          refine ⟨fun c h => ih1 c (heq ▸ h), fun h => ?_⟩
          obtain ⟨s', hro', hadv', hdone'⟩ := ih2 (heq ▸ h)
          refine ⟨s', hro', ColorAdv.trans hadv2 hadv', ?_⟩
          intro m hm
          rcases List.mem_cons.mp hm with hmeq | hm
          · rw [hmeq]
            exact hadv'.1 n hdn2
          · exact hdone' m hm

/-- The finite universe the DFS over `dl` seeded from `order` can ever touch. -/
def dfsUniverse (order : List String) (dl : List (String × List String)) : Finset String :=
  order.toFinset ∪ (dl.flatMap (fun kv => kv.2)).toFinset

theorem depsOf_subset_flatMap (dl : List (String × List String)) (u d : String)
    (hd : d ∈ depsOf dl u) : d ∈ dl.flatMap (fun kv => kv.2) := by
  simp only [depsOf, alget] at hd
  cases hfind : dl.find? (fun kv => kv.1 == u) with
  | none => rw [hfind] at hd; simp at hd
  | some kv =>
    rw [hfind] at hd
    have hd2 : d ∈ kv.2 := hd
    have hmem := List.mem_of_find?_eq_some hfind
    exact List.mem_flatMap.mpr ⟨kv, hmem, hd2⟩

theorem dfsUniverse_card_le (order : List String) (dl : List (String × List String)) :
    (dfsUniverse order dl).card ≤
      order.length + (dl.map (fun kv => kv.2.length)).sum := by
  apply le_trans (Finset.card_union_le _ _)
  have h1 : order.toFinset.card ≤ order.length := order.toFinset_card_le
  have h2 : (dl.flatMap (fun kv => kv.2)).toFinset.card ≤
      (dl.map (fun kv => kv.2.length)).sum := by
    have h3 := (dl.flatMap (fun kv => kv.2)).toFinset_card_le
    rw [List.length_flatMap] at h3
    simpa using h3
  omega

theorem countNoneIn_init (S : Finset String) :
    countNoneIn S ⟨fun _ => none, [], fun _ => none⟩ = S.card := by
  show (S.filter _).card = S.card
  congr 1
  apply Finset.filter_true_of_mem
  intro u _
  rfl

theorem StackOk_init (dl : List (String × List String)) :
    StackOk dl ⟨fun _ => none, [], fun _ => none⟩ := by
  refine ⟨List.chain'_nil, List.nodup_nil, ?_, ?_⟩
  · intro w
    constructor
    · intro h; cases h
    · intro h; cases h
  · intro w p
    constructor
    · intro h; cases h
    · intro ⟨h1, _⟩; simp at h1

theorem RankOk_init (dl : List (String × List String)) :
    RankOk dl ⟨fun _ => none, [], fun _ => none⟩ := by
  refine ⟨fun _ => 0, ?_⟩
  intro u hu
  cases hu

/-- Soundness of `_find_cycle`: whatever it reports really is a closed
dependency cycle path. -/
theorem findCycle_sound (order : List String) (dl : List (String × List String))
    (c : List String) (h : findCycle order dl = some c) : CyclePath dl c := by
  have hS : ∀ u, ∀ d ∈ depsOf dl u, d ∈ dfsUniverse order dl := by
    intro u d hd
    exact Finset.mem_union_right _ (List.mem_toFinset.mpr (depsOf_subset_flatMap dl u d hd))
  have hord : ∀ n ∈ order, n ∈ dfsUniverse order dl := by
    intro n hn
    exact Finset.mem_union_left _ (List.mem_toFinset.mpr hn)
  have hcnt : countNoneIn (dfsUniverse order dl) ⟨fun _ => none, [], fun _ => none⟩ ≤
      dfsFuel order dl := by
    rw [countNoneIn_init]
    have := dfsUniverse_card_le order dl
    simp only [dfsFuel]
    omega
  obtain ⟨h1, _⟩ := findCycleGo_spec dl (dfsUniverse order dl) hS (dfsFuel order dl)
    order ⟨fun _ => none, [], fun _ => none⟩ (StackOk_init dl) (RankOk_init dl) rfl hord hcnt
  exact h1 c h

theorem chain_dropLast_deps (dl : List (String × List String)) :
    ∀ (l : List String), l.Chain' (fun a b => b ∈ depsOf dl a) →
      ∀ n ∈ l.dropLast, depsOf dl n ≠ [] := by
  intro l
  induction l with
  | nil => intro _ n hn; cases hn
  | cons x rest ih =>
    intro hch n hn
    cases rest with
    | nil => cases hn
    | cons y rest2 =>
      rw [List.chain'_cons] at hch
      rw [List.dropLast_cons₂, List.mem_cons] at hn
      rcases hn with hn | hn
      · subst hn
        intro hnil
        rw [hnil] at hch
        cases hch.1
      · exact ih hch.2 n hn

theorem deps_ne_mem_keys (dl : List (String × List String)) (n : String)
    (h : depsOf dl n ≠ []) : n ∈ dl.map (fun kv => kv.1) := by
  simp only [depsOf, alget] at h
  cases hfind : dl.find? (fun kv => kv.1 == n) with
  | none => rw [hfind] at h; simp at h
  | some kv =>
    have hmem := List.mem_of_find?_eq_some hfind
    have hp := List.find?_some hfind
    have hk : kv.1 = n := by simpa using hp
    rw [← hk]
    exact List.mem_map.mpr ⟨kv, hmem, rfl⟩

theorem cycle_deps_ne (dl : List (String × List String)) (c : List String)
    (hc : IsDepCycle dl c) : ∀ n ∈ c, depsOf dl n ≠ [] := by
  cases c with
  | nil => cases hc
  | cons x rest =>
    obtain ⟨hch, hclose⟩ := hc
    intro n hn
    have hsplit : n ∈ (x :: rest).dropLast ∨ n = (x :: rest).getLast (List.cons_ne_nil x rest) := by
      have hdc : x :: rest =
          (x :: rest).dropLast ++ [(x :: rest).getLast (List.cons_ne_nil x rest)] :=
        (List.dropLast_append_getLast (List.cons_ne_nil x rest)).symm
      rw [hdc] at hn
      rcases List.mem_append.mp hn with h2 | h2
      · exact Or.inl h2
      · exact Or.inr (List.mem_singleton.mp h2)
    rcases hsplit with h2 | h2
    · exact chain_dropLast_deps dl (x :: rest) hch n h2
    · rw [h2]
      intro hnil
      rw [hnil] at hclose
      cases hclose

theorem chain_rank_le (dl : List (String × List String)) (s' : DfsSt) (r : String → Nat)
    (hr : ∀ u, s'.color u = some Color.done →
      ∀ d ∈ depsOf dl u, s'.color d = some Color.done ∧ r d < r u) :
    ∀ (rest : List String) (x : String),
      (x :: rest).Chain' (fun a b => b ∈ depsOf dl a) →
      (∀ n ∈ x :: rest, s'.color n = some Color.done) →
      r ((x :: rest).getLast (List.cons_ne_nil x rest)) ≤ r x := by
  intro rest
  induction rest with
  | nil =>
    intro x _ _
    exact le_refl _
  | cons y rest2 ih =>
    intro x hch hdone
    rw [List.chain'_cons] at hch
    have hxy : r y < r x :=
      (hr x (hdone x (List.mem_cons_self x _)) y hch.1).2
    have hrest : r ((y :: rest2).getLast (List.cons_ne_nil y rest2)) ≤ r y :=
      ih y hch.2 (fun n hn => hdone n (List.mem_cons_of_mem x hn))
    rw [List.getLast_cons (List.cons_ne_nil y rest2)]
    omega

/-- Completeness of `_find_cycle`: when a dependency cycle exists among nodes
whose adjacency keys are all seeded, the search cannot come back empty. -/
theorem findCycle_complete (order : List String) (dl : List (String × List String))
    (hkeys : ∀ k ∈ dl.map (fun kv => kv.1), k ∈ order)
    (c : List String) (hc : IsDepCycle dl c) :
    ∃ path, findCycle order dl = some path := by
  cases hfc : findCycle order dl with
  | some path => exact ⟨path, rfl⟩
  | none =>
    exfalso
    have hS : ∀ u, ∀ d ∈ depsOf dl u, d ∈ dfsUniverse order dl := by
      intro u d hd
      exact Finset.mem_union_right _ (List.mem_toFinset.mpr (depsOf_subset_flatMap dl u d hd))
    have hord : ∀ n ∈ order, n ∈ dfsUniverse order dl := by
      intro n hn
      exact Finset.mem_union_left _ (List.mem_toFinset.mpr hn)
    have hcnt : countNoneIn (dfsUniverse order dl) ⟨fun _ => none, [], fun _ => none⟩ ≤
        dfsFuel order dl := by
      rw [countNoneIn_init]
      have := dfsUniverse_card_le order dl
      simp only [dfsFuel]
      omega
    obtain ⟨_, h2⟩ := findCycleGo_spec dl (dfsUniverse order dl) hS (dfsFuel order dl)
      order ⟨fun _ => none, [], fun _ => none⟩ (StackOk_init dl) (RankOk_init dl) rfl hord hcnt
    obtain ⟨s', hro', _, hdone'⟩ := h2 hfc
    have hcdone : ∀ n ∈ c, s'.color n = some Color.done := by
      intro n hn
      apply hdone'
      exact hkeys n (deps_ne_mem_keys dl n (cycle_deps_ne dl c hc n hn))
    obtain ⟨r, hr⟩ := hro'
    cases c with
    | nil => cases hc
    | cons x rest =>
      obtain ⟨hch, hclose⟩ := hc
      have hle : r ((x :: rest).getLast (List.cons_ne_nil x rest)) ≤ r x :=
        chain_rank_le dl s' r hr rest x hch hcdone
      have hlt : r x < r ((x :: rest).getLast (List.cons_ne_nil x rest)) := by
        have hlast_done : s'.color ((x :: rest).getLast (List.cons_ne_nil x rest)) =
            some Color.done :=
          hcdone _ (List.getLast_mem (List.cons_ne_nil x rest))
        exact (hr _ hlast_done x hclose).2
      omega


theorem depListOf_keys (wps : List WP) :
    (depListOf wps).map (fun kv => kv.1) = wps.map WP.wbs := by
  simp [depListOf, List.map_map]

theorem scheduleProjectStarts_cycle_error (p : Project) (lookup : List (String × NodeRef))
    (e : GErr) (h1 : validateUniqueWbs p = .ok lookup)
    (h2 : validateWbsHierarchy p = .ok ())
    (h3 : validateDependenciesExist p lookup = .ok ())
    (h4 : assertNoCycles (walkWorkPackages p) = .error e) :
    scheduleProjectStarts p = .error e := by
  simp [scheduleProjectStarts, h1, h2, h3, h4, bind, Except.bind]

/-- C6: with the earlier gates passing, a project whose work-package
dependency graph contains a cycle fails inside `_assert_no_cycles` with the
`ProjectValidationError` (user-facing validation class) carrying a closed
cycle path: at least two entries, the first entry equal to the last, and a
dependency edge between each consecutive pair. -/
theorem C6_dependency_cycle_reported (p : Project) (lookup : List (String × NodeRef))
    (h1 : validateUniqueWbs p = .ok lookup)
    (h2 : validateWbsHierarchy p = .ok ())
    (h3 : validateDependenciesExist p lookup = .ok ())
    (c : List String) (hc : IsDepCycle (depListOf (walkWorkPackages p)) c) :
    ∃ path, scheduleProjectStarts p = .error (.dependencyCycle path) ∧
      GErr.errorClass (.dependencyCycle path) = ErrClass.validation ∧
      CyclePath (depListOf (walkWorkPackages p)) path := by
  have hkeys : ∀ k ∈ (depListOf (walkWorkPackages p)).map (fun kv => kv.1),
      k ∈ (walkWorkPackages p).map WP.wbs := by
    intro k hk
    rw [depListOf_keys] at hk
    exact hk
  obtain ⟨path, hpath⟩ := findCycle_complete ((walkWorkPackages p).map WP.wbs)
    (depListOf (walkWorkPackages p)) hkeys c hc
  refine ⟨path, ?_, rfl, findCycle_sound _ _ path hpath⟩
  have h4 : assertNoCycles (walkWorkPackages p) = .error (.dependencyCycle path) := by
    simp only [assertNoCycles, hpath]
  exact scheduleProjectStarts_cycle_error p lookup _ h1 h2 h3 h4

theorem C6_witness :
    runError cycProject = some (GErr.dependencyCycle ["0.1.1", "0.1.2", "0.1.1"]) ∧
      (∃ path, scheduleProjectStarts cycProject = .error (.dependencyCycle path) ∧
        GErr.errorClass (.dependencyCycle path) = ErrClass.validation ∧
        CyclePath (depListOf (walkWorkPackages cycProject)) path) := by
  refine ⟨by decide, ?_⟩
  refine C6_dependency_cycle_reported cycProject (regLookup cycProject) rfl rfl rfl
    ["0.1.1", "0.1.2"] ⟨List.chain'_cons.mpr ⟨?_, List.chain'_singleton _⟩, ?_⟩
  · decide
  · show "0.1.1" ∈ depsOf (depListOf (walkWorkPackages cycProject)) "0.1.2"
    decide


/-- Adjacency agreement: looking a node up in `_assert_no_cycles`' dependency
dict equals the per-wbs dependency list. -/
theorem depsOf_depListOf (wps : List WP) (w : String) :
    depsOf (depListOf wps) w = depsOfWbs wps w := by
  simp only [depsOf, depsOfWbs, alget, depListOf]
  induction wps with
  | nil => rfl
  | cons wp rest ih =>
    simp only [List.map_cons, List.find?_cons]
    cases h : (wp.wbs == w) with
    | true => rfl
    | false => exact ih

theorem findCycle_none_ranks (order : List String) (dl : List (String × List String))
    (h : findCycle order dl = none) :
    ∃ (s' : DfsSt) (r : String → Nat),
      (∀ n ∈ order, s'.color n = some Color.done) ∧
        (∀ u, s'.color u = some Color.done →
          ∀ d ∈ depsOf dl u, s'.color d = some Color.done ∧ r d < r u) := by
  have hS : ∀ u, ∀ d ∈ depsOf dl u, d ∈ dfsUniverse order dl := by
    intro u d hd
    exact Finset.mem_union_right _ (List.mem_toFinset.mpr (depsOf_subset_flatMap dl u d hd))
  have hord : ∀ n ∈ order, n ∈ dfsUniverse order dl := by
    intro n hn
    exact Finset.mem_union_left _ (List.mem_toFinset.mpr hn)
  have hcnt : countNoneIn (dfsUniverse order dl) ⟨fun _ => none, [], fun _ => none⟩ ≤
      dfsFuel order dl := by
    rw [countNoneIn_init]
    have := dfsUniverse_card_le order dl
    simp only [dfsFuel]
    omega
  obtain ⟨_, h2⟩ := findCycleGo_spec dl (dfsUniverse order dl) hS (dfsFuel order dl)
    order ⟨fun _ => none, [], fun _ => none⟩ (StackOk_init dl) (RankOk_init dl) rfl hord hcnt
  obtain ⟨s', ⟨r, hr⟩, _, hdone⟩ := h2 h
  exact ⟨s', r, hdone, hr⟩

theorem KahnInv_length_le (wps : List WP) (queue result : List String)
    (indeg : String → Int) (hinv : KahnInv wps queue result indeg) :
    (result ++ queue).length ≤ wps.length := by
  have hnd := hinv.1
  have hsub := hinv.2.1
  have h1 : (result ++ queue).toFinset.card = (result ++ queue).length :=
    List.toFinset_card_of_nodup hnd
  have h2 : (result ++ queue).toFinset ⊆ (wps.map WP.wbs).toFinset := by
    intro x hx
    exact List.mem_toFinset.mpr (hsub x (List.mem_toFinset.mp hx))
  have h3 := Finset.card_le_card h2
  have h4 := (wps.map WP.wbs).toFinset_card_le
  have h5 : (wps.map WP.wbs).length = wps.length := by simp
  omega

/-- With enough fuel, the Kahn loop always runs until its queue is empty, so
the invariant holds of the returned order with an empty queue. -/
theorem kahnLoop_completes (wps : List WP) (hnd : (wps.map WP.wbs).Nodup) :
    ∀ (fuel : Nat) (queue result : List String) (indeg : String → Int),
      KahnInv wps queue result indeg →
      wps.length ≤ result.length + fuel →
      ∃ (result' : List String) (indeg' : String → Int),
        kahnLoop (dependentsOf wps) fuel queue indeg result = result' ∧
          KahnInv wps [] result' indeg' := by
  intro fuel
  induction fuel with
  | zero =>
    intro queue result indeg hinv hfb
    cases queue with
    | nil => exact ⟨result, indeg, rfl, hinv⟩
    | cons u rest =>
      exfalso
      have hle := KahnInv_length_le wps (u :: rest) result indeg hinv
      rw [List.length_append, List.length_cons] at hle
      omega
  | succ fuel ih =>
    intro queue result indeg hinv hfb
    cases queue with
    | nil =>
      refine ⟨result, indeg, ?_, hinv⟩
      simp [kahnLoop]
    | cons u rest =>
      have hstep := KahnInv_step wps hnd u rest result indeg hinv
      obtain ⟨result', indeg', hret, hinv'⟩ := ih _ _ _ hstep
        (by rw [List.length_append, List.length_singleton]; omega)
      refine ⟨result', indeg', ?_, hinv'⟩
      simpa [kahnLoop] using hret

/-- C9: the length-mismatch branch of `_toposort` raises
`ProjectValidationError("Cycle detected during toposort")` — the same
user-facing validation class as the other validation failures, not a distinct
internal-error channel — and it is unreachable once the dependency references
are all valid work-package codes AND the cycle-detection gate has passed:
`_toposort` then always succeeds. -/
theorem C9_toposort_mismatch_guard (wps : List WP)
    (hnd : (wps.map WP.wbs).Nodup)
    (hrefs : ∀ wp ∈ wps, ∀ d ∈ wp.dependsOn, d ∈ wps.map WP.wbs)
    (hcyc : assertNoCycles wps = .ok ()) :
    GErr.errorClass GErr.toposortCycle = ErrClass.validation ∧
      ∃ topo, toposort wps = .ok topo := by
  refine ⟨rfl, ?_⟩
  have hfc : findCycle (wps.map (fun wp => wp.wbs)) (depListOf wps) = none := by
    revert hcyc
    simp only [assertNoCycles]
    cases h : findCycle (wps.map (fun wp => wp.wbs)) (depListOf wps) with
    | some c => intro h2; cases h2
    | none => intro _; rfl
  obtain ⟨s', r, hdone, hr⟩ := findCycle_none_ranks _ _ hfc
  obtain ⟨result', indeg', hret, hinv'⟩ := kahnLoop_completes wps hnd (kahnFuel wps)
    ((wps.filter (fun wp => indeg0 wps wp.wbs == 0)).map (fun wp => wp.wbs)) [] (indeg0 wps)
    (KahnInv_init wps hnd) (by simp only [kahnFuel, List.length_nil]; omega)
  have hall : ∀ (k : Nat), ∀ w ∈ wps.map WP.wbs, r w < k → w ∈ result' := by
    intro k
    induction k with
    | zero => intro w _ hrw; omega
    | succ k ih =>
      intro w hw hrw
      have hwdone : s'.color w = some Color.done := hdone w hw
      have hdeps : ∀ d ∈ depsOfWbs wps w, d ∈ result' := by
        intro d hd
        have hd2 : d ∈ depsOf (depListOf wps) w := by
          rw [depsOf_depListOf]
          exact hd
        obtain ⟨_, hdr⟩ := hr w hwdone d hd2
        have hdcode : d ∈ wps.map WP.wbs := by
          simp only [depsOfWbs] at hd
          cases hfind : wps.find? (fun wp => wp.wbs == w) with
          | none => rw [hfind] at hd; simp at hd
          | some wp =>
            rw [hfind] at hd
            have hd3 : d ∈ wp.dependsOn := hd
            exact hrefs wp (List.mem_of_find?_eq_some hfind) d hd3
        exact ih d hdcode (by omega)
      have hrem : remainingDeps wps result' w = 0 := by
        simp only [remainingDeps]
        rw [List.length_eq_zero]
        apply List.filter_eq_nil_iff.mpr
        intro d hd
        have hcont : result'.contains d = true := (contains_true_iff result' d).mpr (hdeps d hd)
        rw [hcont]
        simp
      have hmem := (hinv'.2.2.2 w hw).mpr hrem
      simpa using hmem
  have hsub2 : ∀ w ∈ wps.map WP.wbs, w ∈ result' := by
    intro w hw
    exact hall (r w + 1) w hw (by omega)
  have hlen : result'.length = wps.length := by
    have hnd' : result'.Nodup := by simpa using hinv'.1
    have hsubc : ∀ w ∈ result', w ∈ wps.map WP.wbs := by
      intro w hw
      exact hinv'.2.1 w (by simpa using hw)
    have hfeq : result'.toFinset = (wps.map WP.wbs).toFinset := by
      ext x
      simp only [List.mem_toFinset]
      exact ⟨fun h => hsubc x h, fun h => hsub2 x h⟩
    have h2 := List.toFinset_card_of_nodup hnd'
    have h3 := List.toFinset_card_of_nodup hnd
    have h4 : (wps.map WP.wbs).length = wps.length := by simp
    rw [hfeq] at h2
    omega
  refine ⟨result'.filterMap (fun w => wps.find? (fun wp => wp.wbs == w)), ?_⟩
  simp only [toposort]
  rw [hret]
  simp [hlen]

theorem C9_counterexample :
    toposort [cycWpA, cycWpB] = .error GErr.toposortCycle ∧
      GErr.errorClass GErr.toposortCycle = ErrClass.validation ∧
      assertNoCycles (walkWorkPackages missingDepProject) = .ok () ∧
      toposort (walkWorkPackages missingDepProject) = .error GErr.toposortCycle := by
  decide

theorem C9_witness :
    (((walkWorkPackages exProject).map WP.wbs).Nodup ∧
        (∀ wp ∈ walkWorkPackages exProject, ∀ d ∈ wp.dependsOn,
          d ∈ (walkWorkPackages exProject).map WP.wbs) ∧
        assertNoCycles (walkWorkPackages exProject) = .ok ()) ∧
      (GErr.errorClass GErr.toposortCycle = ErrClass.validation ∧
        ∃ topo, toposort (walkWorkPackages exProject) = .ok topo) := by
  refine ⟨⟨by decide, by decide, by decide⟩, ?_⟩
  exact C9_toposort_mismatch_guard (walkWorkPackages exProject) (by decide) (by decide)
    (by decide)


/-! ### Router: simplification and dedup preserve endpoints -/

theorem simplifyGo_ne_nil : ∀ (last : Pt) (l : List Pt), l ≠ [] → simplifyGo last l ≠ [] := by
  intro last l
  induction l generalizing last with
  | nil => intro h; exact absurd rfl h
  | cons p rest ih =>
    intro _
    cases rest with
    | nil => simp [simplifyGo]
    | cons q rest2 =>
      simp only [simplifyGo]
      split
      · exact ih last (List.cons_ne_nil q rest2)
      · simp

theorem simplifyGo_getLast? : ∀ (last : Pt) (l : List Pt), l ≠ [] →
    (simplifyGo last l).getLast? = l.getLast? := by
  intro last l
  induction l generalizing last with
  | nil => intro h; exact absurd rfl h
  | cons p rest ih =>
    intro _
    cases rest with
    | nil => simp [simplifyGo]
    | cons q rest2 =>
      simp only [simplifyGo]
      split
      · rw [ih last (List.cons_ne_nil q rest2)]
        rw [List.getLast?_cons_cons]
      · have hne := simplifyGo_ne_nil p (q :: rest2) (List.cons_ne_nil q rest2)
        rw [List.getLast?_cons_cons]
        rw [← ih p (List.cons_ne_nil q rest2)]
        obtain ⟨y, ys, hys⟩ := List.exists_cons_of_ne_nil hne
        rw [hys]
        exact List.getLast?_cons_cons

theorem simplifyPolyline_head? (points : List Pt) :
    (simplifyPolyline points).head? = points.head? := by
  match points with
  | [] => rfl
  | [p] => rfl
  | [p, q] => rfl
  | p :: q :: r :: rest => rfl

theorem simplifyPolyline_getLast? (points : List Pt) :
    (simplifyPolyline points).getLast? = points.getLast? := by
  match points with
  | [] => rfl
  | [p] => rfl
  | [p, q] => rfl
  | p :: q :: r :: rest =>
    show (p :: simplifyGo p (q :: r :: rest)).getLast? = (p :: q :: r :: rest).getLast?
    have hne := simplifyGo_ne_nil p (q :: r :: rest) (List.cons_ne_nil _ _)
    obtain ⟨y, ys, hys⟩ := List.exists_cons_of_ne_nil hne
    rw [hys, List.getLast?_cons_cons, ← hys,
      simplifyGo_getLast? p (q :: r :: rest) (List.cons_ne_nil _ _)]
    exact (List.getLast?_cons_cons).symm

theorem dedupeGo_getLast? : ∀ (last : Pt) (l : List Pt),
    (last :: dedupePoints.dedupeGo last l).getLast? = (last :: l).getLast? := by
  intro last l
  induction l generalizing last with
  | nil => rfl
  | cons q rest ih =>
    simp only [dedupePoints.dedupeGo]
    split
    · rename_i hq
      rw [ih last, List.getLast?_cons_cons]
      have hq2 : q = last := by simpa using hq
      rw [hq2]
    · rw [List.getLast?_cons_cons, ih q]
      exact (List.getLast?_cons_cons).symm

theorem dedupePoints_getLast? (l : List Pt) : (dedupePoints l).getLast? = l.getLast? := by
  cases l with
  | nil => rfl
  | cons p rest => exact dedupeGo_getLast? p rest

theorem dedupePoints_head? (l : List Pt) : (dedupePoints l).head? = l.head? := by
  cases l with
  | nil => rfl
  | cons p rest => rfl

/-! ### Router: the pattern tier accepts only validated candidates -/

theorem firstM_some {α β : Type} (f : α → Option β) :
    ∀ (l : List α) (x : β), l.firstM f = some x → ∃ c ∈ l, f c = some x := by
  intro l
  induction l with
  | nil => intro x h; exact Option.noConfusion h
  | cons a as ih =>
    intro x h
    have h2 : (f a <|> as.firstM f) = some x := h
    cases hfa : f a with
    | some y =>
      rw [hfa] at h2
      exact ⟨a, List.mem_cons_self a as, by rw [hfa]; exact h2⟩
    | none =>
      rw [hfa] at h2
      obtain ⟨c, hc, hfc⟩ := ih x h2
      exact ⟨c, List.mem_cons_of_mem a hc, hfc⟩

theorem routePatterns_some_spec (a b : Rect) (rects : List Rect) (poly : List Pt)
    (h : routePatterns a b rects = some poly) :
    ∃ candidate, candidate ≠ [] ∧
      candidate.head? = some (routeStart a) ∧
      candidate.getLast? = some (routeGoal b) ∧
      polylineIntersectsAnyRect candidate rects ROUTE_CLEARANCE = false ∧
      poly = simplifyPolyline candidate := by
  simp only [routePatterns] at h
  obtain ⟨c, hc, hfc⟩ := firstM_some _ _ poly h
  by_cases h1 : c.isEmpty = true
  · rw [if_pos h1] at hfc
    cases hfc
  · rw [if_neg h1] at hfc
    by_cases h2 : c.head? ≠ some (routeStart a) ∨ c.getLast? ≠ some (routeGoal b)
    · rw [if_pos h2] at hfc
      cases hfc
    · rw [if_neg h2] at hfc
      by_cases h3 : ¬ polylineIntersectsAnyRect c rects ROUTE_CLEARANCE = true
      · rw [if_pos h3] at hfc
        have hpoly : poly = simplifyPolyline c := by
          injection hfc with h4
          exact h4.symm
        push_neg at h2
        refine ⟨c, ?_, h2.1, h2.2, ?_, hpoly⟩
        · intro hnil
          rw [hnil] at h1
          exact h1 rfl
        · cases hb : polylineIntersectsAnyRect c rects ROUTE_CLEARANCE with
          | false => rfl
          | true => exact absurd hb h3
      · rw [if_neg h3] at hfc
        cases hfc

theorem segCrossesInteriorH_intersects (s e : Pt) (r : Rect)
    (h : segCrossesInteriorH s e r = true) : segmentIntersectsRect s e r = true := by
  obtain ⟨x1, y1⟩ := s
  obtain ⟨x2, y2⟩ := e
  obtain ⟨xmin, xmax, ymin, ymax⟩ := r
  simp only [segCrossesInteriorH, decide_eq_true_eq] at h
  obtain ⟨hy, hxne, hylo, hyhi, hxlo, hxhi⟩ := h
  simp only [segmentIntersectsRect]
  split
  · split
    · simp only [decide_eq_true_eq]
      intro hcon
      rcases hcon with hA | hB
      · exact absurd hxlo (by linarith)
      · exact absurd hxhi (by linarith)
    · rename_i hcond
      exact absurd ⟨by linarith, by linarith⟩ hcond
  · rename_i hcond
    exact absurd (by simpa using hy) hcond

theorem noIntersect_noCross (poly : List Pt) (rects : List Rect) (cl : ℚ)
    (h : polylineIntersectsAnyRect poly rects cl = false) :
    polylineCrossesInflatedInterior poly rects cl = false := by
  cases hc : polylineCrossesInflatedInterior poly rects cl with
  | false => rfl
  | true =>
    exfalso
    simp only [polylineCrossesInflatedInterior, List.any_eq_true] at hc
    obtain ⟨sg, hsg, r, hr, hcross⟩ := hc
    have hint := segCrossesInteriorH_intersects sg.1 sg.2 (inflateRect r cl cl) hcross
    have h2 : polylineIntersectsAnyRect poly rects cl = true := by
      simp only [polylineIntersectsAnyRect, polylineIntersectsRects, List.any_eq_true]
      exact ⟨sg, hsg, r, hr, hint⟩
    rw [h] at h2
    cases h2

/-- C3: the router's clearance guarantee holds exactly on the pattern tier:
an accepted pattern polyline is the simplification of a candidate that does
not even touch any input rectangle inflated by the clearance, so in
particular the candidate strictly crosses no inflated interior.  (The A* and
fallback tiers return unvalidated polylines; the counterexample below crosses
an inflated interior.) -/
theorem C3_pattern_tier_no_interior_crossing (a b : Rect) (rects : List Rect)
    (poly : List Pt) (h : routePatterns a b rects = some poly) :
    ∃ candidate,
      poly = simplifyPolyline candidate ∧
        polylineIntersectsAnyRect candidate rects ROUTE_CLEARANCE = false ∧
        polylineCrossesInflatedInterior candidate rects ROUTE_CLEARANCE = false := by
  obtain ⟨c, _, _, _, hno, hpoly⟩ := routePatterns_some_spec a b rects poly h
  exact ⟨c, hpoly, hno, noIntersect_noCross c rects ROUTE_CLEARANCE hno⟩

section
set_option allowUnsafeReducibility true
attribute [local semireducible] Rat.mul Rat.inv Rat.add Rat.sub Rat.neg Rat.div

theorem C3_counterexample :
    polylineCrossesInflatedInterior (routeDependency cexARect cexBRect cexRects) cexRects
      ROUTE_CLEARANCE = true := by
  decide

theorem C3_witness :
    routePatterns cexARect cexBRect [] =
        some (simplifyPolyline (routePatternSimple cexARect cexBRect)) ∧
      (∃ candidate,
        simplifyPolyline (routePatternSimple cexARect cexBRect) = simplifyPolyline candidate ∧
          polylineIntersectsAnyRect candidate [] ROUTE_CLEARANCE = false ∧
          polylineCrossesInflatedInterior candidate [] ROUTE_CLEARANCE = false) := by
  have h : routePatterns cexARect cexBRect [] =
      some (simplifyPolyline (routePatternSimple cexARect cexBRect)) := by decide
  exact ⟨h, C3_pattern_tier_no_interior_crossing cexARect cexBRect [] _ h⟩

end


/-! ### Router: totality, endpoints, and permutation invariance -/

theorem sandwich_endpoints (start goal : Pt) (mid : List Pt) :
    simplifyPolyline (dedupePoints ([start] ++ mid ++ [goal])) ≠ [] ∧
      (simplifyPolyline (dedupePoints ([start] ++ mid ++ [goal]))).head? = some start ∧
      (simplifyPolyline (dedupePoints ([start] ++ mid ++ [goal]))).getLast? = some goal := by
  have hh : ([start] ++ mid ++ [goal]).head? = some start := by
    rw [List.singleton_append]
    rfl
  have hl : ([start] ++ mid ++ [goal]).getLast? = some goal := List.getLast?_concat _
  refine ⟨?_, ?_, ?_⟩
  · intro hnil
    have h2 := simplifyPolyline_head? (dedupePoints ([start] ++ mid ++ [goal]))
    rw [hnil, dedupePoints_head?, hh] at h2
    exact Option.noConfusion h2
  · rw [simplifyPolyline_head?, dedupePoints_head?, hh]
  · rw [simplifyPolyline_getLast?, dedupePoints_getLast?, hl]

theorem routeDependencyAstar_endpoints (a b : Rect) (rects : List Rect) :
    routeDependencyAstar a b rects ≠ [] ∧
      (routeDependencyAstar a b rects).head? = some (routeStart a) ∧
      (routeDependencyAstar a b rects).getLast? = some (routeGoal b) := by
  obtain ⟨a1, a2, a3, a4⟩ := a
  obtain ⟨b1, b2, b3, b4⟩ := b
  simp only [routeDependencyAstar]
  split
  · exact sandwich_endpoints _ _ _
  · refine ⟨by simp, rfl, rfl⟩

theorem routeDependency_endpoints (a b : Rect) (rects : List Rect) :
    routeDependency a b rects ≠ [] ∧
      (routeDependency a b rects).head? = some (routeStart a) ∧
      (routeDependency a b rects).getLast? = some (routeGoal b) := by
  simp only [routeDependency]
  cases hrp : routePatterns a b rects with
  | some poly =>
    dsimp only
    obtain ⟨c, hne, hh, hl, _, hpoly⟩ := routePatterns_some_spec a b rects poly hrp
    refine ⟨?_, ?_, ?_⟩
    · rw [hpoly]
      intro hnil
      have h2 := simplifyPolyline_head? c
      rw [hnil, hh] at h2
      exact Option.noConfusion h2
    · rw [hpoly, simplifyPolyline_head?, hh]
    · rw [hpoly, simplifyPolyline_getLast?, hl]
  | none => exact routeDependencyAstar_endpoints a b rects

theorem any_perm {α : Type} {l1 l2 : List α} (h : l1.Perm l2) (p : α → Bool) :
    l1.any p = l2.any p := by
  cases h1 : l1.any p with
  | true =>
    obtain ⟨x, hx, hp⟩ := List.any_eq_true.mp h1
    exact (List.any_eq_true.mpr ⟨x, h.mem_iff.mp hx, hp⟩).symm
  | false =>
    cases h2 : l2.any p with
    | false => rfl
    | true =>
      obtain ⟨x, hx, hp⟩ := List.any_eq_true.mp h2
      have h3 := List.any_eq_true.mpr ⟨x, h.mem_iff.mpr hx, hp⟩
      rw [h1] at h3
      exact h3

theorem polylineIntersectsRects_perm (poly : List Pt) {r1 r2 : List Rect}
    (h : r1.Perm r2) (cx cy : ℚ) :
    polylineIntersectsRects poly r1 cx cy = polylineIntersectsRects poly r2 cx cy := by
  simp only [polylineIntersectsRects]
  congr 1
  funext sg
  exact any_perm h _

theorem polylineIntersectsAnyRect_perm (poly : List Pt) {r1 r2 : List Rect}
    (h : r1.Perm r2) (cl : ℚ) :
    polylineIntersectsAnyRect poly r1 cl = polylineIntersectsAnyRect poly r2 cl :=
  polylineIntersectsRects_perm poly h cl cl

theorem routePatterns_perm (a b : Rect) {r1 r2 : List Rect} (h : r1.Perm r2) :
    routePatterns a b r1 = routePatterns a b r2 := by
  simp only [routePatterns]
  simp only [show ∀ (c : List Pt), polylineIntersectsAnyRect c r1 ROUTE_CLEARANCE =
    polylineIntersectsAnyRect c r2 ROUTE_CLEARANCE from
    fun c => polylineIntersectsAnyRect_perm c h ROUTE_CLEARANCE]

theorem gridBlocked_perm {r1 r2 : List Rect} (h : r1.Perm r2) :
    gridBlocked r1 = gridBlocked r2 := by
  funext xm ym dx dy cl c
  simp only [gridBlocked]
  exact any_perm h _

theorem foldr_min_perm {l1 l2 : List ℚ} (h : l1.Perm l2) (b : ℚ) :
    l1.foldr min b = l2.foldr min b := by
  haveI : LeftCommutative (min : ℚ → ℚ → ℚ) := ⟨fun x y z => min_left_comm x y z⟩
  exact h.foldr_eq b

theorem foldr_max_perm {l1 l2 : List ℚ} (h : l1.Perm l2) (b : ℚ) :
    l1.foldr max b = l2.foldr max b := by
  haveI : LeftCommutative (max : ℚ → ℚ → ℚ) := ⟨fun x y z => max_left_comm x y z⟩
  exact h.foldr_eq b

theorem routeDependencyAstar_perm (a b : Rect) {r1 r2 : List Rect} (h : r1.Perm r2) :
    routeDependencyAstar a b r1 = routeDependencyAstar a b r2 := by
  obtain ⟨a1, a2, a3, a4⟩ := a
  obtain ⟨b1, b2, b3, b4⟩ := b
  simp only [routeDependencyAstar]
  rw [foldr_min_perm (h.map (fun r : Rect => r.1)),
    foldr_max_perm (h.map (fun r : Rect => r.2.1)),
    foldr_min_perm (h.map (fun r : Rect => r.2.2.1)),
    foldr_max_perm (h.map (fun r : Rect => r.2.2.2)),
    gridBlocked_perm h]

theorem routeDependency_perm (a b : Rect) {r1 r2 : List Rect} (h : r1.Perm r2) :
    routeDependency a b r1 = routeDependency a b r2 := by
  simp only [routeDependency]
  rw [routePatterns_perm a b h]
  cases routePatterns a b r2 with
  | some poly => rfl
  | none => exact routeDependencyAstar_perm a b h

/-- C4: `route_dependency` is a total deterministic function of its rectangle
inputs: every call returns a nonempty polyline anchored at the computed start
and goal points, and the output is invariant under permuting the obstacle
rectangle list, so no unordered-iteration tie-break can change it. -/
theorem C4_router_total_and_deterministic :
    (∀ (a b : Rect) (rects : List Rect),
        routeDependency a b rects ≠ [] ∧
          (routeDependency a b rects).head? = some (routeStart a) ∧
          (routeDependency a b rects).getLast? = some (routeGoal b)) ∧
      ∀ (a b : Rect) (r1 r2 : List Rect), r1.Perm r2 →
        routeDependency a b r1 = routeDependency a b r2 :=
  ⟨routeDependency_endpoints, fun a b _ _ h => routeDependency_perm a b h⟩

theorem C4_witness :
    routeDependency cexARect cexBRect [cexARect, cexWallRect] =
        routeDependency cexARect cexBRect [cexWallRect, cexARect] ∧
      routeDependency cexARect cexBRect cexRects ≠ [] ∧
      (routeDependency cexARect cexBRect cexRects).head? = some (routeStart cexARect) := by
  refine ⟨C4_router_total_and_deterministic.2 cexARect cexBRect _ _
    (List.Perm.swap cexWallRect cexARect []), ?_, ?_⟩
  · exact (C4_router_total_and_deterministic.1 cexARect cexBRect cexRects).1
  · exact (C4_router_total_and_deterministic.1 cexARect cexBRect cexRects).2.1

end Gantt
